import Mathlib

set_option maxHeartbeats 1000000

/- Shallow embedding of the flywheel ECS core (src/src/ecs). Entities are
   modelled by their integer id (a Nat); usize bitset segments by Nat values
   below 2 ^ 64; Vec by List. Indexing that panics in Rust is rendered total
   with List.getD; those branches are unreachable on the well formed states
   the theorems quantify over. -/

/-- Segment width of the Archetype bitset (usize::BITS on a 64 bit target). -/
def BITS : Nat := 64

/-- Rust usize::div_ceil. -/
def divCeil (n k : Nat) : Nat := (n + k - 1) / k

/-- Vec::resize with zero fill, as used by Archetype::add (the call only ever
    grows the vector, and List.take is the identity in that case). -/
def resizeZero (l : List Nat) (n : Nat) : List Nat :=
  l.take n ++ List.replicate (n - l.length) 0

/-- ECS Archetype (src/src/ecs/archetype.rs): a growable bitset over
    component ids, stored as count plus a list of BITS wide segments. -/
structure Archetype where
  count : Nat
  bytes : List Nat
deriving DecidableEq

namespace Archetype

def new : Archetype := ⟨0, []⟩

/-- Archetype::add. -/
def add (a : Archetype) (id : Nat) : Archetype :=
  let a' := if a.count ≤ id then
      { count := id + 1, bytes := resizeZero a.bytes (divCeil (id + 1) BITS) }
    else a
  let seg := (a'.bytes.getD (id / BITS) 0) ||| (1 <<< (id % BITS))
  { a' with bytes := a'.bytes.set (id / BITS) seg }

/-- Archetype::has. -/
def has (a : Archetype) (id : Nat) : Bool :=
  decide (id < a.count) &&
    ((a.bytes.getD (id / BITS) 0) &&& (1 <<< (id % BITS)) != 0)

/-- Archetype::has_common_with. -/
def has_common_with (a b : Archetype) : Bool :=
  (a.bytes.zip b.bytes).any fun p => p.1 &&& p.2 != 0

/-- Archetype::is_subset_of. -/
def is_subset_of (a b : Archetype) : Bool :=
  decide (a.count ≤ b.count) &&
    ((a.bytes.zip b.bytes).all fun p => p.1 &&& p.2 == p.1)

/-- Archetype::is_superset_of. -/
def is_superset_of (a b : Archetype) : Bool :=
  decide (b.count ≤ a.count) &&
    ((b.bytes.zip a.bytes).all fun p => p.1 &&& p.2 == p.1)

/-- Archetype::remove. The Rust bitwise complement of the single bit mask on
    usize equals xor with the all ones word. -/
def remove (a : Archetype) (id : Nat) : Archetype :=
  if id < a.count then
    let seg := (a.bytes.getD (id / BITS) 0) &&& ((2 ^ BITS - 1) ^^^ (1 <<< (id % BITS)))
    { a with bytes := a.bytes.set (id / BITS) seg }
  else a

/-- Archetype::reset. -/
def reset (a : Archetype) : Archetype :=
  { a with bytes := List.replicate a.bytes.length 0 }

/-- Bit i of the backing bitset, ignoring count (specification helper used to
    state what "a bit set in the archetype" means). -/
def bit (a : Archetype) (i : Nat) : Bool :=
  (a.bytes.getD (i / BITS) 0).testBit (i % BITS)

/-- Structural invariant every Archetype built by the code satisfies: the
    segment list length tracks count, and each segment is a usize value. -/
def WFa (a : Archetype) : Prop :=
  a.bytes.length = divCeil a.count BITS ∧ ∀ b ∈ a.bytes, b < 2 ^ BITS

instance (a : Archetype) : Decidable a.WFa := by
  unfold WFa; infer_instance

end Archetype

/- ------------------------------------------------------------------ -/
/- Arithmetic and list helper lemmas                                   -/
/- ------------------------------------------------------------------ -/

theorem divCeil_le_divCeil {a b k : Nat} (h : a ≤ b) : divCeil a k ≤ divCeil b k :=
  Nat.div_le_div_right (Nat.sub_le_sub_right (Nat.add_le_add_right h k) 1)

theorem land_eq_left_iff {x y : Nat} :
    x &&& y = x ↔ ∀ k, x.testBit k = true → y.testBit k = true := by
  constructor
  · intro h k hk
    have := congrArg (fun n => n.testBit k) h
    simp only [Nat.testBit_land] at this
    rw [hk] at this
    simpa using this
  · intro h
    apply Nat.eq_of_testBit_eq
    intro k
    rw [Nat.testBit_land]
    by_cases hx : x.testBit k
    · rw [hx, h k hx]; rfl
    · simp [hx]

theorem zipAll_land_iff (xs ys : List Nat) (h : xs.length ≤ ys.length) :
    ((xs.zip ys).all fun p => p.1 &&& p.2 == p.1) = true ↔
      ∀ j, (xs.getD j 0) &&& (ys.getD j 0) = xs.getD j 0 := by
  induction xs generalizing ys with
  | nil =>
    simp only [List.zip_nil_left, List.all_nil, true_iff]
    intro j
    simp [List.getD]
  | cons x xs ih =>
    cases ys with
    | nil => simp at h
    | cons y ys =>
      simp only [List.length_cons, Nat.succ_le_succ_iff] at h
      simp only [List.zip_cons_cons, List.all_cons, Bool.and_eq_true, beq_iff_eq]
      rw [ih ys h]
      constructor
      · rintro ⟨h0, hrest⟩ j
        cases j with
        | zero => simpa using h0
        | succ j => simpa using hrest j
      · intro hall
        refine ⟨by simpa using hall 0, fun j => by simpa using hall (j + 1)⟩

theorem getD_lt_of_length {xs : List Nat} {j : Nat} (h : j < xs.length) :
    xs.getD j 0 = xs.get ⟨j, h⟩ := by
  simp [List.getD_eq_getElem?_getD, List.getElem?_eq_getElem h, List.get_eq_getElem]

theorem getD_eq_zero_of_ge {xs : List Nat} {j : Nat} (h : xs.length ≤ j) :
    xs.getD j 0 = 0 := by
  simp [List.getD_eq_getElem?_getD, List.getElem?_eq_none h]

theorem getD_lt_two_pow {xs : List Nat} (hxs : ∀ b ∈ xs, b < 2 ^ BITS) (j : Nat) :
    xs.getD j 0 < 2 ^ BITS := by
  by_cases h : j < xs.length
  · rw [getD_lt_of_length h]
    exact hxs _ (List.get_mem xs j h)
  · rw [getD_eq_zero_of_ge (Nat.le_of_not_lt h)]
    positivity

/-- Transfer between per segment containment and per bit containment, for
    segments that are usize values. -/
theorem segment_bit_iff (xs ys : List Nat) (hxs : ∀ b ∈ xs, b < 2 ^ BITS) :
    (∀ j, (xs.getD j 0) &&& (ys.getD j 0) = xs.getD j 0) ↔
      ∀ i, (xs.getD (i / BITS) 0).testBit (i % BITS) = true →
        (ys.getD (i / BITS) 0).testBit (i % BITS) = true := by
  constructor
  · intro h i hi
    exact land_eq_left_iff.mp (h (i / BITS)) _ hi
  · intro h j
    apply land_eq_left_iff.mpr
    intro k hk
    have hklt : k < BITS := by
      by_contra hge
      have hb : xs.getD j 0 < 2 ^ k :=
        Nat.lt_of_lt_of_le (getD_lt_two_pow hxs j)
          (Nat.pow_le_pow_right (by norm_num) (Nat.le_of_not_lt hge))
      rw [Nat.testBit_lt_two_pow hb] at hk
      exact Bool.false_ne_true hk
    have hdiv : (j * BITS + k) / BITS = j := by
      rw [Nat.mul_comm, Nat.mul_add_div (by norm_num [BITS])]
      simp [Nat.div_eq_of_lt hklt]
    have hmod : (j * BITS + k) % BITS = k := by
      rw [Nat.mul_comm, Nat.mul_add_mod]
      exact Nat.mod_eq_of_lt hklt
    have := h (j * BITS + k)
    rw [hdiv, hmod] at this
    exact this hk

/- ------------------------------------------------------------------ -/
/- C4: subset / superset across length asymmetry                       -/
/- ------------------------------------------------------------------ -/

theorem is_subset_of_char (a b : Archetype) (ha : a.WFa) (hb : b.WFa) :
    a.is_subset_of b = true ↔
      a.count ≤ b.count ∧ ∀ i, a.bit i = true → b.bit i = true := by
  rw [Archetype.is_subset_of, Bool.and_eq_true, decide_eq_true_iff]
  constructor
  · rintro ⟨hc, hall⟩
    have hlen : a.bytes.length ≤ b.bytes.length := by
      rw [ha.1, hb.1]; exact divCeil_le_divCeil hc
    exact ⟨hc, (segment_bit_iff _ _ ha.2).mp ((zipAll_land_iff _ _ hlen).mp hall)⟩
  · rintro ⟨hc, hbit⟩
    have hlen : a.bytes.length ≤ b.bytes.length := by
      rw [ha.1, hb.1]; exact divCeil_le_divCeil hc
    exact ⟨hc, (zipAll_land_iff _ _ hlen).mpr ((segment_bit_iff _ _ ha.2).mpr hbit)⟩

/-- C4 (amended): is_subset_of holds iff the left count does not exceed the
    right count AND every set bit of the left archetype is set in the right
    one; is_superset_of is the exact converse. The count comparison is part
    of the result, so an archetype whose set bits are all inside the other
    one but whose count is larger is NOT a subset, contrary to the original
    claim (see the counterexample). -/
theorem C4_subset_superset_char (a b : Archetype) (ha : a.WFa) (hb : b.WFa) :
    (a.is_subset_of b = true ↔
      a.count ≤ b.count ∧ ∀ i, a.bit i = true → b.bit i = true) ∧
    (a.is_superset_of b = true ↔
      b.count ≤ a.count ∧ ∀ i, b.bit i = true → a.bit i = true) := by
  refine ⟨is_subset_of_char a b ha hb, ?_⟩
  have := is_subset_of_char b a hb ha
  rw [Archetype.is_subset_of] at this
  rw [Archetype.is_superset_of]
  exact this

theorem C4_subset_superset_char_witness :
    (Archetype.new.add 0).is_subset_of ((Archetype.new.add 0).add 1) = true ↔
      (Archetype.new.add 0).count ≤ ((Archetype.new.add 0).add 1).count ∧
        ∀ i, (Archetype.new.add 0).bit i = true →
          ((Archetype.new.add 0).add 1).bit i = true :=
  (C4_subset_superset_char (Archetype.new.add 0) ((Archetype.new.add 0).add 1)
    (by decide) (by decide)).1

/-- State used to refute the original C4: bit 1 added then removed, so the
    count is 2 but every bit is clear. -/
def c4_left : Archetype := (Archetype.new.add 1).remove 1

/-- C4 counterexample: c4_left has no set bit at all, hence every set bit of
    it is vacuously set in the empty archetype, yet is_subset_of rejects it
    because its count 2 exceeds count 0. -/
theorem C4_counterexample :
    ¬ ((c4_left.is_subset_of Archetype.new = true) ↔
      ∀ i, c4_left.bit i = true → Archetype.new.bit i = true) := by
  intro h
  have hbytes : c4_left.bytes = [0] := by decide
  have hbits : ∀ i, c4_left.bit i = true → Archetype.new.bit i = true := by
    intro i hi
    exfalso
    rw [Archetype.bit, hbytes] at hi
    have h0 : ([0] : List Nat).getD (i / BITS) 0 = 0 := by
      cases hiv : i / BITS with
      | zero => rfl
      | succ n => rw [List.getD_cons_succ, List.getD_nil]
    rw [h0] at hi
    simp [Nat.zero_testBit] at hi
  have hsub := h.mpr hbits
  have hfalse : c4_left.is_subset_of Archetype.new = false := by decide
  rw [hfalse] at hsub
  exact Bool.false_ne_true hsub

/- ------------------------------------------------------------------ -/
/- ComponentPool (src/src/ecs/component_pool.rs)                       -/
/- ------------------------------------------------------------------ -/

/-- Vec::swap_remove as a list operation: move the last element into slot i
    and drop the last slot. -/
def swapRemove {T : Type} (l : List T) (i : Nat) : List T :=
  match l.getLast? with
  | none => l
  | some x => (l.set i x).dropLast

/-- Sparse set store for one component type: dense values, parallel dense
    owner ids, and a sparse index keyed by entity id. -/
structure ComponentPool (T : Type) where
  dense : List T
  owners : List Nat
  sparse : List (Option Nat)
deriving DecidableEq

namespace ComponentPool

def new {T : Type} : ComponentPool T := ⟨[], [], []⟩

/-- ComponentPool::new_with_initial, verbatim: the sparse vector is built as
    the one element list holding some(owner), exactly as the source writes
    vec with Some(owner.id()) - only consistent when owner has id 0. -/
def new_with_initial {T : Type} (owner : Nat) (c : T) : ComponentPool T :=
  ⟨[c], [owner], [some owner]⟩

/-- ComponentPool::insert: replace and return the previous value when the
    owner already has a slot, otherwise append. -/
def insert {T : Type} (p : ComponentPool T) (owner : Nat) (c : T) :
    Option T × ComponentPool T :=
  let sp := if p.sparse.length ≤ owner then
      p.sparse ++ List.replicate (owner + 1 - p.sparse.length) none
    else p.sparse
  match sp.getD owner none with
  | some index => (p.dense[index]?, { p with dense := p.dense.set index c, sparse := sp })
  | none =>
    (none, { dense := p.dense ++ [c], owners := p.owners ++ [owner],
             sparse := sp.set owner (some p.dense.length) })

/-- ComponentPool::has. -/
def has {T : Type} (p : ComponentPool T) (owner : Nat) : Bool :=
  (p.sparse.getD owner none).isSome

/-- ComponentPool::get. -/
def get {T : Type} (p : ComponentPool T) (owner : Nat) : Option T :=
  (p.sparse.getD owner none).bind fun i => p.dense[i]?

/-- ComponentPool::remove: clear the sparse slot, then either pop (when the
    target is last) or swap remove and fix up the swapped owners slot. -/
def remove {T : Type} (p : ComponentPool T) (owner : Nat) :
    Option T × ComponentPool T :=
  match p.sparse.getD owner none with
  | none => (none, p)
  | some index =>
    let sp := p.sparse.set owner none
    if index = p.dense.length - 1 then
      (p.dense[index]?,
        { dense := p.dense.dropLast, owners := p.owners.dropLast, sparse := sp })
    else
      let owners' := swapRemove p.owners index
      let swapped := owners'.getD index 0
      (p.dense[index]?,
        { dense := swapRemove p.dense index, owners := owners',
          sparse := sp.set swapped (some index) })

/-- One sparse slot is consistent: if it points at a dense index, that index
    is in range and the dense owner there points back. -/
def slotOk {T : Type} (p : ComponentPool T) (e : Nat) : Prop :=
  (p.sparse.getD e none).elim True fun i =>
    i < p.dense.length ∧ p.owners.getD i 0 = e

/-- Sparse set invariant of a pool (spec section 3): parallel dense arrays
    and mutually inverse sparse/owners indexing. -/
def WFp {T : Type} (p : ComponentPool T) : Prop :=
  p.owners.length = p.dense.length ∧
  (∀ e, slotOk p e) ∧
  (∀ i, i < p.dense.length → p.sparse.getD (p.owners.getD i 0) none = some i)

/-- Decidable form of the invariant (slots beyond the sparse length are
    vacuously consistent, dense indices are bounded). -/
def WFpDec {T : Type} (p : ComponentPool T) : Prop :=
  p.owners.length = p.dense.length ∧
  (∀ e, e < p.sparse.length → slotOk p e) ∧
  (∀ i, i < p.dense.length → p.sparse.getD (p.owners.getD i 0) none = some i)

instance {T : Type} (p : ComponentPool T) (e : Nat) : Decidable (slotOk p e) := by
  unfold slotOk
  cases p.sparse.getD e none with
  | none => exact .isTrue trivial
  | some i => exact instDecidableAnd

instance {T : Type} (p : ComponentPool T) : Decidable (WFpDec p) := by
  unfold WFpDec; infer_instance

theorem slotOk_of_ge {T : Type} (p : ComponentPool T) (e : Nat)
    (h : p.sparse.length ≤ e) : slotOk p e := by
  unfold slotOk
  have : p.sparse.getD e none = none := by
    simp [List.getD_eq_getElem?_getD, List.getElem?_eq_none h]
  rw [this]
  exact trivial

theorem WFp_of_dec {T : Type} (p : ComponentPool T) (h : WFpDec p) : WFp p := by
  refine ⟨h.1, fun e => ?_, h.2.2⟩
  by_cases he : e < p.sparse.length
  · exact h.2.1 e he
  · exact slotOk_of_ge p e (Nat.le_of_not_lt he)

end ComponentPool

/- ------------------------------------------------------------------ -/
/- List lemmas for swap removal                                        -/
/- ------------------------------------------------------------------ -/

theorem getD_of_ge {T : Type} (l : List T) (j : Nat) (d : T) (h : l.length ≤ j) :
    l.getD j d = d := by
  rw [List.getD_eq_getElem?_getD, List.getElem?_eq_none h]
  rfl

theorem getD_set_self {T : Type} (l : List T) (i : Nat) (v d : T)
    (h : i < l.length) : (l.set i v).getD i d = v := by
  rw [List.getD_eq_getElem?_getD, List.getElem?_set_self h]
  rfl

theorem getD_set_ne {T : Type} (l : List T) (i j : Nat) (v d : T)
    (h : i ≠ j) : (l.set i v).getD j d = l.getD j d := by
  rw [List.getD_eq_getElem?_getD, List.getElem?_set_ne h, ← List.getD_eq_getElem?_getD]

theorem lt_length_of_getD_some {T : Type} {l : List (Option T)} {e : Nat} {x : T}
    (h : l.getD e none = some x) : e < l.length := by
  by_contra hge
  rw [getD_of_ge _ _ _ (Nat.le_of_not_lt hge)] at h
  exact Option.noConfusion h

theorem dropLast_getElem? {T : Type} (l : List T) (j : Nat) (h : j < l.length - 1) :
    l.dropLast[j]? = l[j]? := by
  rw [List.dropLast_eq_take, List.getElem?_take]
  simp [h]

theorem dropLast_getD {T : Type} (l : List T) (j : Nat) (d : T) (h : j < l.length - 1) :
    l.dropLast.getD j d = l.getD j d := by
  rw [List.getD_eq_getElem?_getD, List.getD_eq_getElem?_getD, dropLast_getElem? l j h]

theorem length_swapRemove {T : Type} (l : List T) (i : Nat) (h : l ≠ []) :
    (swapRemove l i).length = l.length - 1 := by
  unfold swapRemove
  rw [List.getLast?_eq_getLast l h]
  simp

theorem swapRemove_eq {T : Type} (l : List T) (i : Nat) (h : l ≠ []) :
    swapRemove l i = (l.set i (l.getLast h)).dropLast := by
  unfold swapRemove
  rw [List.getLast?_eq_getLast l h]

theorem swapRemove_getElem?_at {T : Type} (l : List T) (i : Nat) (h : i < l.length - 1) :
    (swapRemove l i)[i]? = l[l.length - 1]? := by
  have hne : l ≠ [] := by
    intro he; subst he; simp at h
  rw [swapRemove_eq l i hne, List.dropLast_eq_take, List.getElem?_take]
  simp only [List.length_set]
  rw [if_pos h, List.getElem?_set_self (by omega)]
  rw [List.getLast_eq_getElem, List.getElem?_eq_getElem (by omega)]

theorem swapRemove_getElem?_ne {T : Type} (l : List T) (i j : Nat) (hne : j ≠ i)
    (h : j < l.length - 1) : (swapRemove l i)[j]? = l[j]? := by
  have hne2 : l ≠ [] := by
    intro he; subst he; simp at h
  rw [swapRemove_eq l i hne2, List.dropLast_eq_take, List.getElem?_take]
  simp only [List.length_set]
  rw [if_pos h, List.getElem?_set_ne (Ne.symm hne)]

theorem swapRemove_getD_at {T : Type} (l : List T) (i : Nat) (d : T)
    (h : i < l.length - 1) : (swapRemove l i).getD i d = l.getD (l.length - 1) d := by
  rw [List.getD_eq_getElem?_getD, List.getD_eq_getElem?_getD, swapRemove_getElem?_at l i h]

theorem swapRemove_getD_ne {T : Type} (l : List T) (i j : Nat) (d : T) (hne : j ≠ i)
    (h : j < l.length - 1) : (swapRemove l i).getD j d = l.getD j d := by
  rw [List.getD_eq_getElem?_getD, List.getD_eq_getElem?_getD,
    swapRemove_getElem?_ne l i j hne h]

/- ------------------------------------------------------------------ -/
/- C10: swap removal preserves the rest of the pool                    -/
/- ------------------------------------------------------------------ -/

theorem slotOk_some {T : Type} {p : ComponentPool T} {e i : Nat}
    (hok : ComponentPool.slotOk p e) (h : p.sparse.getD e none = some i) :
    i < p.dense.length ∧ p.owners.getD i 0 = e := by
  unfold ComponentPool.slotOk at hok
  rw [h] at hok
  exact hok

theorem owners_inj {T : Type} {p : ComponentPool T} (hwf : p.WFp) {i j : Nat}
    (hi : i < p.dense.length) (hj : j < p.dense.length)
    (h : p.owners.getD i 0 = p.owners.getD j 0) : i = j := by
  have h1 := hwf.2.2 i hi
  have h2 := hwf.2.2 j hj
  rw [h] at h1
  exact Option.some.inj (h1.symm.trans h2)

/-- Full effect of ComponentPool::remove on an occupied slot: value
    returned, membership and values of all other owners preserved, and the
    sparse set invariant maintained. -/
theorem remove_swap_facts {T : Type} (p : ComponentPool T) (e s : Nat)
    (hwf : p.WFp) (hs : p.sparse.getD e none = some s) :
    (p.remove e).1 = p.get e ∧
    (p.get e).isSome = true ∧
    (p.remove e).2.dense.length = p.dense.length - 1 ∧
    (p.remove e).2.has e = false ∧
    (∀ e2, e2 ≠ e →
      (p.remove e).2.has e2 = p.has e2 ∧ (p.remove e).2.get e2 = p.get e2) ∧
    (p.remove e).2.WFp := by
  obtain ⟨hlen, hslots, hinv⟩ := hwf
  obtain ⟨hsd, hose⟩ := slotOk_some (hslots e) hs
  have hdpos : 0 < p.dense.length := Nat.lt_of_le_of_lt (Nat.zero_le _) hsd
  have hesp : e < p.sparse.length := lt_length_of_getD_some hs
  have hget : p.get e = p.dense[s]? := by
    simp only [ComponentPool.get]
    rw [hs]
    rfl
  have hgets : p.get e = some (p.dense.get ⟨s, hsd⟩) := by
    rw [hget, List.getElem?_eq_getElem hsd]
    rfl
  by_cases hidx : s = p.dense.length - 1
  · -- pop branch: the target occupies the last dense slot
    have hre : p.remove e =
        (p.dense[s]?,
          ⟨p.dense.dropLast, p.owners.dropLast, p.sparse.set e none⟩) := by
      simp only [ComponentPool.remove]
      rw [hs]
      simp only [if_pos hidx]
    rw [hre]
    refine ⟨hget.symm, by rw [hgets]; rfl, by simp, ?_, ?_, ?_, ?_, ?_⟩
    · -- has e is now false
      simp only [ComponentPool.has]
      rw [getD_set_self _ _ _ _ hesp]
      rfl
    · -- frame for every other entity
      intro e2 he2
      have hsp2 : (p.sparse.set e none).getD e2 none = p.sparse.getD e2 none :=
        getD_set_ne _ _ _ _ _ (fun h => he2 h.symm)
      constructor
      · simp only [ComponentPool.has]
        rw [hsp2]
      · simp only [ComponentPool.get]
        rw [hsp2]
        cases hv : p.sparse.getD e2 none with
        | none => rfl
        | some i =>
          obtain ⟨hid, hoi⟩ := slotOk_some (hslots e2) hv
          have hisne : i ≠ s := by
            intro his
            exact he2 (by rw [← hoi, his, hose])
          have hilt : i < p.dense.length - 1 := by omega
          rw [Option.some_bind, Option.some_bind]
          exact dropLast_getElem? _ _ hilt
    · -- lengths stay parallel
      simp [hlen]
    · -- every sparse slot stays consistent
      intro e2
      unfold ComponentPool.slotOk
      by_cases he2 : e2 = e
      · subst he2
        rw [getD_set_self _ _ _ _ hesp]
        exact trivial
      · rw [getD_set_ne _ _ _ _ _ (fun h => he2 h.symm)]
        cases hv : p.sparse.getD e2 none with
        | none => exact trivial
        | some i =>
          obtain ⟨hid, hoi⟩ := slotOk_some (hslots e2) hv
          have hisne : i ≠ s := by
            intro his
            exact he2 (by rw [← hoi, his, hose])
          have hilt : i < p.dense.length - 1 := by omega
          refine ⟨by simpa using hilt, ?_⟩
          rw [dropLast_getD _ _ _ (by omega), hoi]
    · -- dense owners still point back
      intro i hi
      simp only [List.length_dropLast] at hi
      have hil : i < p.owners.length - 1 := by omega
      rw [dropLast_getD _ _ _ hil]
      have hine : p.owners.getD i 0 ≠ e := by
        intro hieq
        rw [← hose] at hieq
        have := owners_inj ⟨hlen, hslots, hinv⟩ (by omega) hsd hieq
        omega
      rw [getD_set_ne _ _ _ _ _ (fun h => hine h.symm)]
      exact hinv i (by omega)
  · -- swap branch: the target sits strictly before the last dense slot
    have hslt : s < p.dense.length - 1 := by omega
    have hone : p.owners ≠ [] := by
      intro hnil
      rw [hnil] at hlen
      simp at hlen
      omega
    have hdne : p.dense ≠ [] := by
      intro hnil
      rw [hnil] at hdpos
      simp at hdpos
    obtain ⟨w, hwdef⟩ : ∃ w, (swapRemove p.owners s).getD s 0 = w := ⟨_, rfl⟩
    have hwlast : w = p.owners.getD (p.dense.length - 1) 0 := by
      rw [← hwdef, swapRemove_getD_at _ _ _ (by omega), hlen]
    have hre : p.remove e =
        (p.dense[s]?,
          ⟨swapRemove p.dense s, swapRemove p.owners s,
            (p.sparse.set e none).set w (some s)⟩) := by
      simp only [ComponentPool.remove]
      rw [hs]
      simp only [if_neg hidx]
      rw [hwdef]
    have hwe : w ≠ e := by
      intro hweq
      rw [← hose, hwlast] at hweq
      have := owners_inj ⟨hlen, hslots, hinv⟩ (by omega) hsd hweq
      omega
    have hsw : p.sparse.getD w none = some (p.dense.length - 1) := by
      rw [hwlast]
      exact hinv _ (by omega)
    have hwsp : w < p.sparse.length := lt_length_of_getD_some hsw
    rw [hre]
    refine ⟨hget.symm, by rw [hgets]; rfl, ?_, ?_, ?_, ?_, ?_, ?_⟩
    · simp [length_swapRemove _ _ hdne]
    · -- has e is now false
      simp only [ComponentPool.has]
      rw [getD_set_ne _ _ _ _ _ hwe, getD_set_self _ _ _ _ hesp]
      rfl
    · -- frame for every other entity
      intro e2 he2
      by_cases hew : e2 = w
      · have hnew : ((p.sparse.set e none).set w (some s)).getD e2 none = some s := by
          rw [hew, getD_set_self]
          simpa using hwsp
        have hold : p.sparse.getD e2 none = some (p.dense.length - 1) := by
          rw [hew]
          exact hsw
        constructor
        · simp only [ComponentPool.has]
          rw [hnew, hold]
          rfl
        · simp only [ComponentPool.get]
          rw [hnew, hold]
          rw [Option.some_bind, Option.some_bind]
          exact swapRemove_getElem?_at _ _ hslt
      · have hnew : ((p.sparse.set e none).set w (some s)).getD e2 none =
            p.sparse.getD e2 none := by
          rw [getD_set_ne _ _ _ _ _ (fun h => hew h.symm),
            getD_set_ne _ _ _ _ _ (fun h => he2 h.symm)]
        constructor
        · simp only [ComponentPool.has]
          rw [hnew]
        · simp only [ComponentPool.get]
          rw [hnew]
          cases hv : p.sparse.getD e2 none with
          | none => rfl
          | some i =>
            obtain ⟨hid, hoi⟩ := slotOk_some (hslots e2) hv
            have hisne : i ≠ s := by
              intro his
              exact he2 (by rw [← hoi, his, hose])
            have hine : i ≠ p.dense.length - 1 := by
              intro hieq
              apply hew
              rw [← hoi, hieq, ← hwlast]
            rw [Option.some_bind, Option.some_bind]
            exact swapRemove_getElem?_ne _ _ _ hisne (by omega)
    · -- lengths stay parallel
      simp [length_swapRemove _ _ hone, length_swapRemove _ _ hdne, hlen]
    · -- every sparse slot stays consistent
      intro e2
      unfold ComponentPool.slotOk
      by_cases hew : e2 = w
      · have hnew : ((p.sparse.set e none).set w (some s)).getD e2 none = some s := by
          rw [hew, getD_set_self]
          simpa using hwsp
        rw [hnew]
        refine ⟨by rw [length_swapRemove _ _ hdne]; omega, ?_⟩
        rw [hwdef, hew]
      · by_cases he2 : e2 = e
        · subst he2
          have hzero : ((p.sparse.set e2 none).set w (some s)).getD e2 none = none := by
            rw [getD_set_ne _ _ _ _ _ (fun h => hew h.symm), getD_set_self _ _ _ _ hesp]
          rw [hzero]
          exact trivial
        · have hnew : ((p.sparse.set e none).set w (some s)).getD e2 none =
              p.sparse.getD e2 none := by
            rw [getD_set_ne _ _ _ _ _ (fun h => hew h.symm),
              getD_set_ne _ _ _ _ _ (fun h => he2 h.symm)]
          rw [hnew]
          cases hv : p.sparse.getD e2 none with
          | none => exact trivial
          | some i =>
            obtain ⟨hid, hoi⟩ := slotOk_some (hslots e2) hv
            have hisne : i ≠ s := by
              intro his
              exact he2 (by rw [← hoi, his, hose])
            have hine : i ≠ p.dense.length - 1 := by
              intro hieq
              apply hew
              rw [← hoi, hieq, ← hwlast]
            refine ⟨by rw [length_swapRemove _ _ hdne]; omega, ?_⟩
            rw [swapRemove_getD_ne _ _ _ _ hisne (by omega), hoi]
    · -- dense owners still point back
      intro i hi
      rw [length_swapRemove _ _ hdne] at hi
      by_cases his : i = s
      · subst his
        rw [hwdef, getD_set_self]
        simpa using hwsp
      · rw [swapRemove_getD_ne _ _ _ _ his (by omega)]
        have hine : p.owners.getD i 0 ≠ e := by
          intro hieq
          rw [← hose] at hieq
          have := owners_inj ⟨hlen, hslots, hinv⟩ (by omega) hsd hieq
          omega
        have hinw : p.owners.getD i 0 ≠ w := by
          intro hieq
          rw [hwlast] at hieq
          have := owners_inj ⟨hlen, hslots, hinv⟩ (by omega) (by omega) hieq
          omega
        rw [getD_set_ne _ _ _ _ _ (fun h => hinw h.symm),
          getD_set_ne _ _ _ _ _ (fun h => hine h.symm)]
        exact hinv i (by omega)

/-- C10: removing entity e from a pool of size n returns e's stored
    component, shrinks the dense arrays by one, evicts e, preserves the
    membership and stored value of every other owner, and keeps the
    sparse/dense/owners invariant, under swap removal. -/
theorem C10_remove_swap_correct {T : Type} (p : ComponentPool T) (e s : Nat)
    (hwf : p.WFp) (hs : p.sparse.getD e none = some s) :
    (p.remove e).1 = p.get e ∧
    (p.get e).isSome = true ∧
    (p.remove e).2.dense.length = p.dense.length - 1 ∧
    (p.remove e).2.has e = false ∧
    (∀ e2, e2 ≠ e →
      (p.remove e).2.has e2 = p.has e2 ∧ (p.remove e).2.get e2 = p.get e2) ∧
    (p.remove e).2.WFp :=
  remove_swap_facts p e s hwf hs

/-- Concrete three entry pool used to witness C10; removing entity 4 (dense
    slot 0) exercises the swap branch. -/
def c10_pool : ComponentPool Nat :=
  (((ComponentPool.new.insert 4 40).2.insert 1 10).2.insert 2 20).2

theorem C10_remove_swap_correct_witness :
    c10_pool.WFpDec ∧ c10_pool.sparse.getD 4 none = some 0 ∧
    ((c10_pool.remove 4).1 = c10_pool.get 4 ∧
      (c10_pool.get 4).isSome = true ∧
      (c10_pool.remove 4).2.dense.length = c10_pool.dense.length - 1 ∧
      (c10_pool.remove 4).2.has 4 = false ∧
      (∀ e2, e2 ≠ 4 →
        (c10_pool.remove 4).2.has e2 = c10_pool.has e2 ∧
          (c10_pool.remove 4).2.get e2 = c10_pool.get e2) ∧
      (c10_pool.remove 4).2.WFp) :=
  ⟨by decide, by decide,
    C10_remove_swap_correct c10_pool 4 0
      (ComponentPool.WFp_of_dec _ (by decide)) (by decide)⟩

/- ------------------------------------------------------------------ -/
/- EntityData (src/src/ecs/entity_data.rs)                             -/
/- ------------------------------------------------------------------ -/

/-- Per entity record: owner id, archetype, optional parent, and a sparse
    set of children (sparse index by child id plus dense child list). -/
structure EntityData where
  owner : Nat
  archetype : Archetype
  parent : Option Nat
  sparse : List (Option Nat)
  dense : List Nat
deriving DecidableEq

namespace EntityData

def new (owner : Nat) : EntityData := ⟨owner, Archetype.new, none, [], []⟩

/-- EntityData::has_child. -/
def has_child (d : EntityData) (child : Nat) : Bool :=
  (d.sparse.getD child none).isSome

/-- EntityData::set_parent; the Err case of the source Result is rendered as
    none. -/
def set_parent (d : EntityData) (value : Option Nat) : Option EntityData :=
  match value with
  | some v =>
    if v = d.owner ∨ d.has_child v then none
    else some { d with parent := value }
  | none => some { d with parent := none }

/-- EntityData::insert_child; the Err case of the source Result is rendered
    as none. -/
def insert_child (d : EntityData) (child : Nat) : Option EntityData :=
  if child = d.owner then none
  else if d.parent = some child then none
  else
    let sp := if d.sparse.length ≤ child then
        d.sparse ++ List.replicate (child + 1 - d.sparse.length) none
      else d.sparse
    if (sp.getD child none).isNone then
      some { d with sparse := sp.set child (some d.dense.length),
                    dense := d.dense ++ [child] }
    else some { d with sparse := sp }

/-- EntityData::children. -/
def children (d : EntityData) : List Nat := d.dense

/-- EntityData::remove_child (swap removal on the child sparse set, clearing
    the sparse slot of the removed child id). -/
def remove_child (d : EntityData) (child : Nat) : EntityData :=
  match d.sparse.getD child none with
  | none => d
  | some index =>
    let last_index := d.dense.length - 1
    let d' := if index ≠ last_index then
        let dn := (d.dense.set index (d.dense.getD last_index 0)).set last_index
          (d.dense.getD index 0)
        { d with dense := dn, sparse := d.sparse.set (dn.getD index 0) (some index) }
      else d
    { d' with dense := d'.dense.dropLast, sparse := d'.sparse.set child none }

/-- EntityData::clear. The source calls archetype.clear(), a method absent
    from archetype.rs; per spec section 4.1 reset and clear both zero all
    segments without shrinking, so it is modelled by Archetype::reset. -/
def clear (d : EntityData) : EntityData :=
  { d with parent := none, archetype := d.archetype.reset, sparse := [], dense := [] }

end EntityData

/- ------------------------------------------------------------------ -/
/- EntityManager (src/src/ecs/entity_manager.rs)                       -/
/- ------------------------------------------------------------------ -/

/-- Entity registry: a sparse vector of records indexed by entity id plus
    the LIFO free list of cleared records of destroyed ids. -/
structure EntityManager where
  sparse : List (Option EntityData)
  destroyed : List EntityData
deriving DecidableEq

namespace EntityManager

def new : EntityManager := ⟨[], []⟩

/-- EntityManager::spawn: pop a recycled record (Vec::pop takes the last
    element) or append a fresh one. -/
def spawn (em : EntityManager) : Nat × EntityManager :=
  match em.destroyed.getLast? with
  | some d =>
    (d.owner, { em with sparse := em.sparse.set d.owner (some d),
                        destroyed := em.destroyed.dropLast })
  | none =>
    (em.sparse.length,
      { em with sparse := em.sparse ++ [some (EntityData.new em.sparse.length)] })

/-- EntityManager::get. -/
def get (em : EntityManager) (owner : Nat) : Option EntityData :=
  em.sparse.getD owner none

/-- Update the record of a live entity in place; the source uses
    as_mut().unwrap(), which only runs on live ids, so the none branch is
    unreachable on well formed states. -/
def updateSlot (em : EntityManager) (e : Nat) (f : EntityData → EntityData) :
    EntityManager :=
  match em.sparse.getD e none with
  | some d => { em with sparse := em.sparse.set e (some (f d)) }
  | none => em

/-- The parent pointer of an entity (none for dead or unknown ids). -/
def parentOf (em : EntityManager) (e : Nat) : Option Nat :=
  match em.sparse.getD e none with
  | some d => d.parent
  | none => none

/-- The ancestor walk of EntityManager::bind (the while let loop). On
    detecting that child is an ancestor of parent it detaches parent from
    its own parent; otherwise it leaves the state untouched. The loop is
    fueled; on well formed states the chain ends within the fuel. -/
def bindLoop (em : EntityManager) (child par : Nat) : Nat → Nat → EntityManager
  | 0, _ => em
  | fuel + 1, grand =>
    match em.sparse.getD grand none with
    | none => em
    | some d =>
      match d.parent with
      | none => em
      | some root =>
        if child = root then
          match em.sparse.getD par none with
          | none => em
          | some pd =>
            match pd.parent with
            | none => em
            | some gp =>
              let em1 := { em with
                sparse := em.sparse.set par (some ((pd.set_parent none).getD pd)) }
              em1.updateSlot gp (fun g => g.remove_child par)
        else bindLoop em child par fuel root

/-- EntityManager::bind. -/
def bind (em : EntityManager) (parent child : Nat) : EntityManager :=
  if parent = child ∨ (em.sparse.getD parent none).isNone ∨
      (em.sparse.getD child none).isNone then em
  else
    let em1 := match em.sparse.getD child none with
      | some cd =>
        match cd.parent with
        | some oldp => em.updateSlot oldp (fun d => d.remove_child child)
        | none => em
      | none => em
    let em2 := bindLoop em1 child parent (em1.sparse.length + 1) parent
    let em3 := em2.updateSlot child (fun d => (d.set_parent (some parent)).getD d)
    em3.updateSlot parent (fun d => (d.insert_child child).getD d)

/-- EntityManager::unbind. -/
def unbind (em : EntityManager) (child : Nat) : EntityManager :=
  match em.sparse.getD child none with
  | some cd =>
    match cd.parent with
    | some parent =>
      let em1 := { em with
        sparse := em.sparse.set child (some ((cd.set_parent none).getD cd)) }
      em1.updateSlot parent (fun d => d.remove_child child)
    | none => em
  | none => em

/-- EntityManager::destroy_branch: take the record, recurse into the
    children, then push the cleared record onto the free list. Fueled; on
    well formed states each level consumes a live slot so the fuel
    sparse.length never runs out. -/
def destroy_branch : Nat → EntityManager → Nat → EntityManager
  | 0, em, _ => em
  | fuel + 1, em, entity =>
    match em.sparse.getD entity none with
    | none => em
    | some d =>
      let em1 := { em with sparse := em.sparse.set entity none }
      let em2 := d.dense.foldl (destroy_branch fuel) em1
      { em2 with destroyed := em2.destroyed ++ [d.clear] }

/-- EntityManager::destroy. -/
def destroy (em : EntityManager) (entity : Nat) : EntityManager :=
  match em.sparse.getD entity none with
  | some d =>
    let em1 := match d.parent with
      | some parent => em.updateSlot parent (fun pd => pd.remove_child entity)
      | none => em
    destroy_branch em1.sparse.length em1 entity
  | none => em

end EntityManager

/- ------------------------------------------------------------------ -/
/- Parent chain infrastructure for C6 / C7                             -/
/- ------------------------------------------------------------------ -/

/-- Iterating an abstract parent map n times. -/
def iterP (P : Nat → Option Nat) : Nat → Nat → Option Nat
  | 0, e => some e
  | n + 1, e => (P e).bind (iterP P n)

/-- The parent relation has no cycle: no entity returns to itself after one
    or more steps. -/
def Acyclic (P : Nat → Option Nat) : Prop :=
  ∀ e n, iterP P (n + 1) e ≠ some e

/-- b is a proper ancestor of a. -/
def Reaches (P : Nat → Option Nat) (a b : Nat) : Prop :=
  ∃ n, iterP P (n + 1) a = some b

theorem iterP_add (P : Nat → Option Nat) (m n e) :
    iterP P (m + n) e = (iterP P m e).bind (iterP P n) := by
  induction m generalizing e with
  | zero => simp [iterP]
  | succ m ih =>
    have : m + 1 + n = (m + n) + 1 := by omega
    rw [this, iterP, iterP]
    cases P e with
    | none => rfl
    | some q =>
      rw [Option.some_bind, Option.some_bind, ih]

theorem iterP_succ_right (P : Nat → Option Nat) (n e) :
    iterP P (n + 1) e = (iterP P n e).bind P := by
  have h := iterP_add P n 1 e
  rw [h]
  cases iterP P n e with
  | none => rfl
  | some x =>
    rw [Option.some_bind, Option.some_bind, iterP]
    cases P x <;> rfl

/-- A successful chain step of a pointwise smaller map is a step of the
    original map. -/
theorem iterP_mono {P Q : Nat → Option Nat}
    (h : ∀ y, Q y = P y ∨ Q y = none) :
    ∀ n e x, iterP Q n e = some x → iterP P n e = some x := by
  intro n
  induction n with
  | zero => intro e x hx; exact hx
  | succ n ih =>
    intro e x hx
    rw [iterP] at hx ⊢
    cases hq : Q e with
    | none => rw [hq] at hx; exact absurd hx (by simp)
    | some q =>
      rw [hq, Option.some_bind] at hx
      have hp : P e = some q := by
        rcases h e with h1 | h1
        · rw [← h1, hq]
        · rw [h1] at hq; exact absurd hq (by simp)
      rw [hp, Option.some_bind]
      exact ih q x hx

/-- Removing edges preserves acyclicity. -/
theorem Acyclic.mono {P Q : Nat → Option Nat}
    (h : ∀ y, Q y = P y ∨ Q y = none) (hP : Acyclic P) : Acyclic Q := by
  intro e n hcyc
  exact hP e n (iterP_mono h _ _ _ hcyc)

/-- Rotation: any node on a cycle is itself on a cycle of the same length. -/
theorem cycle_rotate {P : Nat → Option Nat} {e x : Nat} {n k : Nat}
    (hk : k ≤ n + 1) (hcyc : iterP P (n + 1) e = some e)
    (hx : iterP P k e = some x) : iterP P (n + 1) x = some x := by
  obtain ⟨m, hm⟩ : ∃ m, n + 1 = k + m := ⟨n + 1 - k, by omega⟩
  have h1 : iterP P m x = some e := by
    have := iterP_add P k m e
    rw [← hm, hcyc] at this
    rw [hx, Option.some_bind] at this
    exact this.symm
  have h2 : iterP P (m + k) x = some x := by
    rw [iterP_add, h1, Option.some_bind, hx]
  rw [show n + 1 = m + k from by omega]
  exact h2

/-- Transfer: while a Q chain stays outside the exception set S on which Q
    and P may differ, it is a P chain. -/
theorem iterP_transfer {P Q : Nat → Option Nat} {S : Nat → Prop}
    (hPQ : ∀ y, ¬ S y → Q y = P y) :
    ∀ n e, (∀ k x, k ≤ n → iterP Q k e = some x → ¬ S x) →
      iterP Q (n + 1) e = iterP P (n + 1) e := by
  intro n
  induction n with
  | zero =>
    intro e he
    rw [iterP, iterP]
    have : Q e = P e := hPQ e (he 0 e (by omega) rfl)
    rw [this]
    cases P e <;> rfl
  | succ n ih =>
    intro e he
    rw [iterP_succ_right Q (n + 1) e, iterP_succ_right P (n + 1) e]
    rw [ih e (fun k x hk hx => he k x (by omega) hx)]
    cases hv : iterP P (n + 1) e with
    | none => rfl
    | some x =>
      have hxq : iterP Q (n + 1) e = some x := by
        rw [ih e (fun k y hk hy => he k y (by omega) hy), hv]
      have : ¬ S x := he (n + 1) x (by omega) hxq
      rw [Option.some_bind, Option.some_bind, hPQ x this]

/-- Prefix of a successful chain is successful. -/
theorem iterP_prefix {P : Nat → Option Nat} {n k e x : Nat}
    (hk : k ≤ n) (h : iterP P n e = some x) : ∃ y, iterP P k e = some y := by
  obtain ⟨m, hm⟩ : ∃ m, n = k + m := ⟨n - k, by omega⟩
  rw [hm, iterP_add] at h
  cases hv : iterP P k e with
  | none => rw [hv] at h; exact absurd h (by simp)
  | some y => exact ⟨y, rfl⟩

theorem iterP_congr {P Q : Nat → Option Nat} (h : ∀ x, P x = Q x) :
    ∀ n e, iterP P n e = iterP Q n e := by
  intro n
  induction n with
  | zero => intro e; rfl
  | succ n ih =>
    intro e
    rw [iterP, iterP, h e]
    cases Q e with
    | none => rfl
    | some q => rw [Option.some_bind, Option.some_bind, ih q]

theorem acyclic_congr {P Q : Nat → Option Nat} (h : ∀ x, P x = Q x)
    (hP : Acyclic P) : Acyclic Q := by
  intro e n hcyc
  exact hP e n (by rw [iterP_congr h]; exact hcyc)

/-- A chain of an updated map that reaches c from a node other than c gives
    a reach of the original map (the only changed edge leaves c). -/
theorem reaches_c_transfer {P Q : Nat → Option Nat} {c : Nat}
    (hQ : ∀ y, y ≠ c → Q y = P y) :
    ∀ n p, p ≠ c → iterP Q n p = some c → Reaches P p c := by
  intro n
  induction n with
  | zero =>
    intro p hp h
    exact absurd (Option.some.inj h) hp
  | succ n ih =>
    intro p hp h
    rw [iterP] at h
    cases hq : Q p with
    | none => rw [hq] at h; exact absurd h (by simp)
    | some q =>
      rw [hq, Option.some_bind] at h
      have hpq : P p = some q := by rw [← hQ p hp, hq]
      by_cases hqc : q = c
      · exact ⟨0, by rw [iterP, hpq, Option.some_bind, hqc, iterP]⟩
      · obtain ⟨m, hm⟩ := ih q hqc h
        exact ⟨m + 1, by rw [iterP, hpq, Option.some_bind]; exact hm⟩

/-- Adding the edge c to p keeps the map acyclic when p does not reach c. -/
theorem acyclic_update_add {P : Nat → Option Nat} {c p : Nat}
    (hA : Acyclic P) (hcp : c ≠ p) (hnr : ¬ Reaches P p c) :
    Acyclic (fun x => if x = c then some p else P x) := by
  intro e n hcyc
  by_cases hc : ∃ k, k ≤ n + 1 ∧ iterP (fun x => if x = c then some p else P x) k e = some c
  · obtain ⟨k, hk, hkc⟩ := hc
    have hcycc := cycle_rotate hk hcyc hkc
    rw [iterP] at hcycc
    rw [if_pos rfl, Option.some_bind] at hcycc
    exact hnr (reaches_c_transfer (fun y hy => by simp [hy]) n p (Ne.symm hcp) hcycc)
  · push_neg at hc
    refine hA e n ?_
    rw [← iterP_transfer (S := fun y => y = c)
      (fun y hy => by
        have hy2 : y ≠ c := by simpa using hy
        show (if y = c then some p else P y) = P y
        rw [if_neg hy2]) n e ?_]
    · exact hcyc
    · intro k z hk hz hzc
      have hzc2 : z = c := hzc
      rw [hzc2] at hz
      exact hc k (by omega) hz

/-- Detaching p and then attaching c under p keeps the map acyclic. -/
theorem acyclic_update_detach {P : Nat → Option Nat} {c p : Nat}
    (hA : Acyclic P) (hcp : c ≠ p) :
    Acyclic (fun x => if x = c then some p else if x = p then none else P x) := by
  intro e n hcyc
  by_cases hc : ∃ k, k ≤ n + 1 ∧
      iterP (fun x => if x = c then some p else if x = p then none else P x) k e = some c
  · obtain ⟨k, hk, hkc⟩ := hc
    have hcycc := cycle_rotate hk hcyc hkc
    rw [iterP, if_pos rfl, Option.some_bind] at hcycc
    cases n with
    | zero =>
      rw [iterP] at hcycc
      exact hcp (Option.some.inj hcycc).symm
    | succ n =>
      rw [iterP, if_neg (Ne.symm hcp), if_pos rfl] at hcycc
      exact absurd hcycc (by simp)
  · by_cases hp : ∃ k, k ≤ n + 1 ∧
        iterP (fun x => if x = c then some p else if x = p then none else P x) k e = some p
    · obtain ⟨k, hk, hkp⟩ := hp
      have hcycp := cycle_rotate hk hcyc hkp
      rw [iterP, if_neg (Ne.symm hcp), if_pos rfl] at hcycp
      exact absurd hcycp (by simp)
    · push_neg at hc
      push_neg at hp
      refine hA e n ?_
      rw [← iterP_transfer (S := fun y => y = c ∨ y = p)
        (fun y hy => by
          have hy2 : ¬ (y = c ∨ y = p) := hy
          push_neg at hy2
          show (if y = c then some p else if y = p then none else P y) = P y
          rw [if_neg hy2.1, if_neg hy2.2]) n e ?_]
      · exact hcyc
      · intro k z hk hz hzcp
        have hzcp2 : z = c ∨ z = p := hzcp
        rcases hzcp2 with h1 | h1
        · rw [h1] at hz
          exact hc k (by omega) hz
        · rw [h1] at hz
          exact hp k (by omega) hz

/-- Distinct iterates: an acyclic chain never repeats a node. -/
theorem iterP_inj {P : Nat → Option Nat} (hA : Acyclic P) {e i j x : Nat}
    (hij : i < j) (hi : iterP P i e = some x) (hj : iterP P j e = some x) :
    False := by
  obtain ⟨m, hm⟩ : ∃ m, j = i + (m + 1) := ⟨j - i - 1, by omega⟩
  rw [hm, iterP_add, hi, Option.some_bind] at hj
  exact hA x m hj

/-- Pigeonhole: an acyclic chain with targets below L hits none within L + 1
    steps. -/
theorem chain_bounded {P : Nat → Option Nat} {L : Nat}
    (hA : Acyclic P) (hB : ∀ x y, P x = some y → y < L) (e : Nat) :
    ∃ k, k ≤ L + 1 ∧ iterP P k e = none := by
  by_contra hcon
  push_neg at hcon
  have hsome : ∀ k, k ≤ L + 1 → ∃ y, iterP P k e = some y := by
    intro k hk
    cases hv : iterP P k e with
    | none => exact absurd hv (hcon k hk)
    | some x => exact ⟨x, rfl⟩
  have hval : ∀ k, k < L + 1 → (iterP P (k + 1) e).getD 0 < L := by
    intro k hk
    obtain ⟨x, hx⟩ := hsome k (by omega)
    obtain ⟨y, hy⟩ := hsome (k + 1) (by omega)
    have hstep := hy
    rw [iterP_succ_right, hx, Option.some_bind] at hstep
    rw [hy]
    exact hB x y hstep
  have hcol := Finset.exists_ne_map_eq_of_card_lt_of_maps_to
    (s := Finset.range (L + 1)) (t := Finset.range L)
    (f := fun k => (iterP P (k + 1) e).getD 0)
    (by simp)
    (fun k hk => by
      simp only [Finset.mem_range] at hk ⊢
      exact hval k hk)
  obtain ⟨i, hi, j, hj, hij, hfij⟩ := hcol
  simp only [Finset.mem_range] at hi hj
  obtain ⟨x, hx⟩ := hsome (i + 1) (by omega)
  obtain ⟨y, hy⟩ := hsome (j + 1) (by omega)
  have hfij2 : (iterP P (i + 1) e).getD 0 = (iterP P (j + 1) e).getD 0 := hfij
  rw [hx, hy] at hfij2
  simp only [Option.getD_some] at hfij2
  subst hfij2
  rcases Nat.lt_trichotomy i j with h | h | h
  · exact iterP_inj hA (by omega : i + 1 < j + 1) hx hy
  · exact hij h
  · exact iterP_inj hA (by omega : j + 1 < i + 1) hy hx

/- ------------------------------------------------------------------ -/
/- EntityManager structural lemmas                                     -/
/- ------------------------------------------------------------------ -/

namespace EntityManager

theorem updateSlot_getD_ne (em : EntityManager) (e : Nat)
    (f : EntityData → EntityData) (x : Nat) (hx : x ≠ e) :
    (em.updateSlot e f).sparse.getD x none = em.sparse.getD x none := by
  unfold updateSlot
  cases hv : em.sparse.getD e none with
  | none => rfl
  | some d => exact getD_set_ne _ _ _ _ _ (fun h => hx h.symm)

theorem updateSlot_getD_self (em : EntityManager) (e : Nat)
    (f : EntityData → EntityData) (d : EntityData)
    (hv : em.sparse.getD e none = some d) :
    (em.updateSlot e f).sparse.getD e none = some (f d) := by
  unfold updateSlot
  rw [hv]
  exact getD_set_self _ _ _ _ (lt_length_of_getD_some hv)

theorem updateSlot_length (em : EntityManager) (e : Nat)
    (f : EntityData → EntityData) :
    (em.updateSlot e f).sparse.length = em.sparse.length := by
  unfold updateSlot
  cases em.sparse.getD e none <;> simp

theorem updateSlot_destroyed (em : EntityManager) (e : Nat)
    (f : EntityData → EntityData) :
    (em.updateSlot e f).destroyed = em.destroyed := by
  unfold updateSlot
  cases em.sparse.getD e none <;> rfl

theorem parentOf_updateSlot (em : EntityManager) (e : Nat)
    (f : EntityData → EntityData) (hf : ∀ d, (f d).parent = d.parent) (x : Nat) :
    (em.updateSlot e f).parentOf x = em.parentOf x := by
  by_cases hx : x = e
  · subst hx
    cases hv : em.sparse.getD x none with
    | none =>
      have heq : em.updateSlot x f = em := by
        unfold updateSlot
        rw [hv]
      rw [heq]
    | some d =>
      unfold parentOf
      rw [updateSlot_getD_self em x f d hv, hv]
      show (f d).parent = d.parent
      exact hf d
  · unfold parentOf
    rw [updateSlot_getD_ne em e f x hx]

end EntityManager

theorem remove_child_parent (d : EntityData) (c : Nat) :
    (d.remove_child c).parent = d.parent := by
  unfold EntityData.remove_child
  cases d.sparse.getD c none with
  | none => rfl
  | some i =>
    by_cases h : i ≠ d.dense.length - 1 <;> simp [h]

theorem insert_child_unwrap_parent (d : EntityData) (c : Nat) :
    ((d.insert_child c).getD d).parent = d.parent := by
  unfold EntityData.insert_child
  by_cases h1 : c = d.owner
  · rw [if_pos h1]
    rfl
  · rw [if_neg h1]
    by_cases h2 : d.parent = some c
    · rw [if_pos h2]
      rfl
    · rw [if_neg h2]
      split <;> (dsimp only; split <;> rfl)

theorem set_parent_none_eq (d : EntityData) :
    (d.set_parent none).getD d = { d with parent := none } := rfl

theorem set_parent_some_parent (d : EntityData) (p : Nat) :
    ((d.set_parent (some p)).getD d).parent =
      if p = d.owner ∨ d.has_child p then d.parent else some p := by
  unfold EntityData.set_parent
  by_cases h : p = d.owner ∨ d.has_child p <;> simp [h]

theorem updateSlot_isSome (em : EntityManager) (e : Nat)
    (f : EntityData → EntityData) (x : Nat) :
    ((em.updateSlot e f).sparse.getD x none).isSome =
      (em.sparse.getD x none).isSome := by
  by_cases hx : x = e
  · subst hx
    cases hv : em.sparse.getD x none with
    | none =>
      have heq : em.updateSlot x f = em := by
        unfold EntityManager.updateSlot
        rw [hv]
      rw [heq, hv]
    | some d =>
      rw [EntityManager.updateSlot_getD_self em x f d hv]
      rfl
  · rw [EntityManager.updateSlot_getD_ne em e f x hx]

/-- An acyclic chain that stays defined for n + 1 nodes bounded by L forces
    n + 1 ≤ L. -/
theorem distinct_chain_bound {P : Nat → Option Nat} {L : Nat}
    (hA : Acyclic P) (hB : ∀ x y, P x = some y → y < L) {p n : Nat}
    (hp : p < L) (hsome : ∀ k, k ≤ n → ∃ y, iterP P k p = some y) :
    n + 1 ≤ L := by
  by_contra hcon
  push_neg at hcon
  have hval : ∀ k, k ≤ n → (iterP P k p).getD 0 < L := by
    intro k hk
    cases k with
    | zero =>
      exact hp
    | succ k =>
      obtain ⟨x, hx⟩ := hsome k (by omega)
      obtain ⟨y, hy⟩ := hsome (k + 1) hk
      have hstep := hy
      rw [iterP_succ_right, hx, Option.some_bind] at hstep
      rw [hy]
      exact hB x y hstep
  have hcol := Finset.exists_ne_map_eq_of_card_lt_of_maps_to
    (s := Finset.range (n + 1)) (t := Finset.range L)
    (f := fun k => (iterP P k p).getD 0)
    (by simp; omega)
    (fun k hk => by
      simp only [Finset.mem_range] at hk ⊢
      exact hval k (by omega))
  obtain ⟨i, hi, j, hj, hij, hfij⟩ := hcol
  simp only [Finset.mem_range] at hi hj
  obtain ⟨x, hx⟩ := hsome i (by omega)
  obtain ⟨y, hy⟩ := hsome j (by omega)
  have hfij2 : (iterP P i p).getD 0 = (iterP P j p).getD 0 := hfij
  rw [hx, hy] at hfij2
  simp only [Option.getD_some] at hfij2
  subst hfij2
  rcases Nat.lt_trichotomy i j with h | h | h
  · exact iterP_inj hA h hx hy
  · exact hij h
  · exact iterP_inj hA h hy hx

/-- When child is not an ancestor of par, the bind walk changes nothing. -/
theorem bindLoop_no_detect (em : EntityManager) (c p : Nat)
    (hnr : ¬ Reaches em.parentOf p c) :
    ∀ fuel k grand, iterP em.parentOf k p = some grand →
      EntityManager.bindLoop em c p fuel grand = em := by
  intro fuel
  induction fuel with
  | zero => intro k grand hk; rfl
  | succ fuel ih =>
    intro k grand hk
    cases hv : em.sparse.getD grand none with
    | none => simp only [EntityManager.bindLoop, hv]
    | some d =>
      cases hdp : d.parent with
      | none => simp only [EntityManager.bindLoop, hv, hdp]
      | some root =>
        have hroot : iterP em.parentOf (k + 1) p = some root := by
          rw [iterP_succ_right, hk, Option.some_bind]
          unfold EntityManager.parentOf
          rw [hv]
          exact hdp
        by_cases hcr : c = root
        · refine absurd ⟨k, ?_⟩ hnr
          rw [hcr]
          exact hroot
        · simp only [EntityManager.bindLoop, hv, hdp, if_neg hcr]
          exact ih (k + 1) root hroot

/-- When child is an ancestor of par, the bind walk detaches par from its own
    parent gp (auxiliary induction). -/
theorem bindLoop_detect_aux (em : EntityManager) (c p : Nat)
    (pd : EntityData) (hpd : em.sparse.getD p none = some pd)
    (gp : Nat) (hgp : pd.parent = some gp)
    (n : Nat) (hn : iterP em.parentOf (n + 1) p = some c) :
    ∀ fuel k grand, iterP em.parentOf k p = some grand → k ≤ n →
      (∀ j, j ≤ n → iterP em.parentOf j p ≠ some c) →
      n + 1 - k ≤ fuel →
      EntityManager.bindLoop em c p fuel grand =
        ({ em with sparse := em.sparse.set p (some ((pd.set_parent none).getD pd)) }
          ).updateSlot gp (fun g => g.remove_child p) := by
  intro fuel
  induction fuel with
  | zero => intro k grand hk hkn hmin hf; omega
  | succ fuel ih =>
    intro k grand hk hkn hmin hf
    obtain ⟨root, hroot⟩ : ∃ root, iterP em.parentOf (k + 1) p = some root :=
      iterP_prefix (by omega) hn
    have hstep : em.parentOf grand = some root := by
      have h2 := hroot
      rw [iterP_succ_right, hk, Option.some_bind] at h2
      exact h2
    obtain ⟨d, hd, hdp⟩ : ∃ d, em.sparse.getD grand none = some d ∧
        d.parent = some root := by
      unfold EntityManager.parentOf at hstep
      cases hv : em.sparse.getD grand none with
      | none => rw [hv] at hstep; exact absurd hstep (by simp)
      | some d => rw [hv] at hstep; exact ⟨d, rfl, hstep⟩
    by_cases hcr : c = root
    · simp only [EntityManager.bindLoop, hd, hdp, if_pos hcr, hpd, hgp]
    · have hkn2 : k + 1 ≤ n := by
        by_contra hgt
        have hkeq : k = n := by omega
        rw [hkeq] at hroot
        rw [hn] at hroot
        exact hcr (Option.some.inj hroot)
      simp only [EntityManager.bindLoop, hd, hdp, if_neg hcr]
      exact ih (k + 1) root hroot hkn2 hmin (by omega)

/-- Wrapper: with full fuel the walk detects a reachable child and performs
    exactly the detach of par from its own parent. -/
theorem bindLoop_reaches (em : EntityManager) (c p : Nat)
    (hA : Acyclic em.parentOf)
    (hPB : ∀ x y, em.parentOf x = some y → y < em.sparse.length)
    (hre : Reaches em.parentOf p c)
    (pd : EntityData) (hpd : em.sparse.getD p none = some pd)
    (gp : Nat) (hgp : pd.parent = some gp) :
    EntityManager.bindLoop em c p (em.sparse.length + 1) p =
      ({ em with sparse := em.sparse.set p (some ((pd.set_parent none).getD pd)) }
        ).updateSlot gp (fun g => g.remove_child p) := by
  classical
  obtain ⟨m, hm⟩ := hre
  have hex : ∃ m, iterP em.parentOf (m + 1) p = some c := ⟨m, hm⟩
  obtain ⟨n, hn, hminf⟩ :
      ∃ n, iterP em.parentOf (n + 1) p = some c ∧
        ∀ j, j < n → iterP em.parentOf (j + 1) p ≠ some c :=
    ⟨Nat.find hex, Nat.find_spec hex, fun j hj => Nat.find_min hex hj⟩
  have hmin : ∀ j, j ≤ n → iterP em.parentOf j p ≠ some c := by
    intro j hj hjc
    cases j with
    | zero =>
      have hpc : p = c := Option.some.inj hjc
      exact hA c n (hpc ▸ hn)
    | succ j =>
      exact hminf j (by omega) hjc
  have hplen : p < em.sparse.length := lt_length_of_getD_some hpd
  have hsome : ∀ k, k ≤ n → ∃ y, iterP em.parentOf k p = some y :=
    fun k hk => iterP_prefix (by omega) hn
  have hbound : n + 1 ≤ em.sparse.length :=
    distinct_chain_bound hA hPB hplen hsome
  exact bindLoop_detect_aux em c p pd hpd gp hgp n hn
    (em.sparse.length + 1) 0 p rfl (by omega) hmin (by omega)

/-- All parent pointers land on allocated slots. -/
def ParentBound (em : EntityManager) : Prop :=
  ∀ x y, em.parentOf x = some y → y < em.sparse.length

theorem parentOf_eq_parent {em : EntityManager} {e : Nat} {d : EntityData}
    (h : em.sparse.getD e none = some d) : em.parentOf e = d.parent := by
  unfold EntityManager.parentOf
  rw [h]

theorem updateSlot_eq {em : EntityManager} {e : Nat}
    (f : EntityData → EntityData) {d : EntityData}
    (h : em.sparse.getD e none = some d) :
    em.updateSlot e f = { em with sparse := em.sparse.set e (some (f d)) } := by
  unfold EntityManager.updateSlot
  rw [h]

theorem parentOf_set_some (em : EntityManager) (e : Nat) (d : EntityData)
    (he : e < em.sparse.length) (x : Nat) :
    EntityManager.parentOf { em with sparse := em.sparse.set e (some d) } x =
      if x = e then d.parent else em.parentOf x := by
  unfold EntityManager.parentOf
  by_cases hx : x = e
  · subst hx
    show (match (em.sparse.set x (some d)).getD x none with
      | some d => d.parent | none => none) = _
    rw [getD_set_self _ _ _ _ he, if_pos rfl]
  · show (match (em.sparse.set e (some d)).getD x none with
      | some d => d.parent | none => none) = _
    rw [getD_set_ne _ _ _ _ _ (fun h => hx h.symm), if_neg hx]

theorem set_some_isSome (em : EntityManager) (e : Nat) (d : EntityData)
    (x : Nat) (hx : x ≠ e) :
    ((em.sparse.set e (some d)).getD x none).isSome =
      (em.sparse.getD x none).isSome := by
  rw [getD_set_ne _ _ _ _ _ (fun h => hx h.symm)]

/-- Core of the bind proof: after the optional unlink step (state em1, which
    agrees with em on parents, lengths, liveness and the free list), the walk
    plus reattach keeps the parent relation acyclic and bounded. -/
theorem bind_tail_I6 (em em1 : EntityManager) (p c : Nat)
    (hpc : p ≠ c)
    (hP1 : ∀ x, em1.parentOf x = em.parentOf x)
    (hL1 : em1.sparse.length = em.sparse.length)
    (hD1 : em1.destroyed = em.destroyed)
    (hS1 : ∀ x, (em1.sparse.getD x none).isSome = (em.sparse.getD x none).isSome)
    (hps : (em.sparse.getD p none).isSome = true)
    (hcs : (em.sparse.getD c none).isSome = true)
    (hA : Acyclic em.parentOf) (hPB : ParentBound em) :
    Acyclic (((EntityManager.bindLoop em1 c p (em1.sparse.length + 1) p).updateSlot c
        (fun d => (d.set_parent (some p)).getD d)).updateSlot p
        (fun d => (d.insert_child c).getD d)).parentOf ∧
    ParentBound (((EntityManager.bindLoop em1 c p (em1.sparse.length + 1) p).updateSlot c
        (fun d => (d.set_parent (some p)).getD d)).updateSlot p
        (fun d => (d.insert_child c).getD d)) ∧
    (((EntityManager.bindLoop em1 c p (em1.sparse.length + 1) p).updateSlot c
        (fun d => (d.set_parent (some p)).getD d)).updateSlot p
        (fun d => (d.insert_child c).getD d)).destroyed = em.destroyed ∧
    (((EntityManager.bindLoop em1 c p (em1.sparse.length + 1) p).updateSlot c
        (fun d => (d.set_parent (some p)).getD d)).updateSlot p
        (fun d => (d.insert_child c).getD d)).sparse.length = em.sparse.length := by
  have hA1 : Acyclic em1.parentOf := acyclic_congr (fun x => (hP1 x).symm) hA
  have hPB1 : ParentBound em1 := by
    intro x y h
    rw [hP1 x] at h
    rw [hL1]
    exact hPB x y h
  -- step 1: the ancestor walk
  obtain ⟨em2, hem2, hP2, hS2, hL2, hD2⟩ :
      ∃ em2, EntityManager.bindLoop em1 c p (em1.sparse.length + 1) p = em2 ∧
        ((¬ Reaches em1.parentOf p c ∧ ∀ x, em2.parentOf x = em1.parentOf x) ∨
          (∀ x, em2.parentOf x = if x = p then none else em1.parentOf x)) ∧
        (∀ x, (em2.sparse.getD x none).isSome = (em1.sparse.getD x none).isSome) ∧
        em2.sparse.length = em1.sparse.length ∧
        em2.destroyed = em1.destroyed := by
    by_cases hre : Reaches em1.parentOf p c
    · obtain ⟨pd1, hpd1⟩ : ∃ pd1, em1.sparse.getD p none = some pd1 := by
        apply Option.isSome_iff_exists.mp
        rw [hS1, hps]
      have hplen1 : p < em1.sparse.length := lt_length_of_getD_some hpd1
      obtain ⟨gp, hgp⟩ : ∃ gp, pd1.parent = some gp := by
        obtain ⟨n, hn⟩ := hre
        obtain ⟨y, hy⟩ := iterP_prefix (show 1 ≤ n + 1 by omega) hn
        rw [iterP] at hy
        cases hv : em1.parentOf p with
        | none => rw [hv] at hy; exact absurd hy (by simp)
        | some z =>
          rw [parentOf_eq_parent hpd1] at hv
          exact ⟨z, hv⟩
      refine ⟨_, bindLoop_reaches em1 c p hA1 (fun x y h => hPB1 x y h) hre pd1 hpd1 gp hgp,
        Or.inr ?_, ?_, ?_, ?_⟩
      · intro x
        rw [EntityManager.parentOf_updateSlot _ _ _ (fun d => remove_child_parent d p) x]
        rw [parentOf_set_some em1 p _ hplen1 x]
        have hnp : ((pd1.set_parent none).getD pd1).parent = none := by
          rw [set_parent_none_eq]
        by_cases hx : x = p
        · rw [if_pos hx, if_pos hx, hnp]
        · rw [if_neg hx, if_neg hx]
      · intro x
        rw [updateSlot_isSome]
        by_cases hx : x = p
        · subst hx
          show ((em1.sparse.set x _).getD x none).isSome = _
          rw [getD_set_self _ _ _ _ hplen1, hpd1]
          rfl
        · exact set_some_isSome em1 p _ x hx
      · rw [EntityManager.updateSlot_length]
        simp
      · rw [EntityManager.updateSlot_destroyed]
    · exact ⟨em1, bindLoop_no_detect em1 c p hre _ 0 p rfl,
        Or.inl ⟨hre, fun x => rfl⟩, fun x => rfl, rfl, rfl⟩
  rw [hem2]
  -- step 2: set_parent of c to p (may be rejected)
  obtain ⟨cd2, hcd2⟩ : ∃ cd2, em2.sparse.getD c none = some cd2 := by
    apply Option.isSome_iff_exists.mp
    rw [hS2, hS1, hcs]
  have hclen2 : c < em2.sparse.length := lt_length_of_getD_some hcd2
  obtain ⟨em3, hem3, hP3, hS3, hL3, hD3⟩ :
      ∃ em3, em2.updateSlot c (fun d => (d.set_parent (some p)).getD d) = em3 ∧
        ((∀ x, em3.parentOf x = em2.parentOf x) ∨
          (∀ x, em3.parentOf x = if x = c then some p else em2.parentOf x)) ∧
        (∀ x, (em3.sparse.getD x none).isSome = (em2.sparse.getD x none).isSome) ∧
        em3.sparse.length = em2.sparse.length ∧
        em3.destroyed = em2.destroyed := by
    rw [updateSlot_eq _ hcd2]
    have hpar := set_parent_some_parent cd2 p
    refine ⟨_, rfl, ?_, ?_, by simp, rfl⟩
    · by_cases hcond : p = cd2.owner ∨ cd2.has_child p
      · refine Or.inl fun x => ?_
        rw [parentOf_set_some em2 c _ hclen2 x]
        by_cases hx : x = c
        · rw [if_pos hx, hpar, if_pos hcond, hx, parentOf_eq_parent hcd2]
        · rw [if_neg hx]
      · refine Or.inr fun x => ?_
        rw [parentOf_set_some em2 c _ hclen2 x]
        by_cases hx : x = c
        · rw [if_pos hx, hpar, if_neg hcond, if_pos hx]
        · rw [if_neg hx, if_neg hx]
    · intro x
      by_cases hx : x = c
      · subst hx
        show ((em2.sparse.set x _).getD x none).isSome = _
        rw [getD_set_self _ _ _ _ hclen2, hcd2]
        rfl
      · exact set_some_isSome em2 c _ x hx
  rw [hem3]
  -- step 3: insert_child into p keeps every parent pointer
  have hP4 : ∀ x, ((em3.updateSlot p (fun d => (d.insert_child c).getD d)).parentOf x) =
      em3.parentOf x :=
    fun x => EntityManager.parentOf_updateSlot _ _ _
      (fun d => insert_child_unwrap_parent d c) x
  have hL4 : (em3.updateSlot p (fun d => (d.insert_child c).getD d)).sparse.length =
      em3.sparse.length := EntityManager.updateSlot_length _ _ _
  have hD4 : (em3.updateSlot p (fun d => (d.insert_child c).getD d)).destroyed =
      em3.destroyed := EntityManager.updateSlot_destroyed _ _ _
  have hplen : p < em.sparse.length := by
    cases hv : em.sparse.getD p none with
    | none => rw [hv] at hps; exact absurd hps (by simp)
    | some d => exact lt_length_of_getD_some hv
  refine ⟨?_, ?_, by rw [hD4, hD3, hD2, hD1], by rw [hL4, hL3, hL2, hL1]⟩
  · -- acyclicity, by the four shape combinations
    apply acyclic_congr (fun x => (hP4 x).symm)
    rcases hP3 with hP3 | hP3
    · rcases hP2 with ⟨hnr, hP2⟩ | hP2
      · exact acyclic_congr (fun x => ((hP3 x).trans (hP2 x)).symm) hA1
      · refine Acyclic.mono (P := em1.parentOf) ?_ hA1
        intro y
        rw [hP3 y, hP2 y]
        by_cases hy : y = p
        · right; rw [if_pos hy]
        · left; rw [if_neg hy]
    · rcases hP2 with ⟨hnr, hP2⟩ | hP2
      · apply acyclic_congr
          (P := fun x => if x = c then some p else em1.parentOf x)
        · intro x
          rw [hP3 x]
          by_cases hx : x = c
          · rw [if_pos hx, if_pos hx]
          · rw [if_neg hx, if_neg hx, hP2 x]
        · exact acyclic_update_add hA1 (fun h => hpc h.symm) hnr
      · apply acyclic_congr
          (P := fun x => if x = c then some p else if x = p then none else em1.parentOf x)
        · intro x
          rw [hP3 x]
          by_cases hx : x = c
          · rw [if_pos hx, if_pos hx]
          · rw [if_neg hx, if_neg hx, hP2 x]
        · exact acyclic_update_detach hA1 (fun h => hpc h.symm)
  · -- parent bound
    intro x y hxy
    rw [hP4 x] at hxy
    rw [hL4, hL3, hL2, hL1]
    have hfrom1 : ∀ z w, em1.parentOf z = some w → w < em.sparse.length := by
      intro z w hz
      have := hPB1 z w hz
      rw [hL1] at this
      exact this
    rcases hP3 with hP3 | hP3
    · rw [hP3 x] at hxy
      rcases hP2 with ⟨hnr, hP2⟩ | hP2
      · rw [hP2 x] at hxy
        exact hfrom1 x y hxy
      · rw [hP2 x] at hxy
        by_cases hx : x = p
        · rw [if_pos hx] at hxy
          exact absurd hxy (by simp)
        · rw [if_neg hx] at hxy
          exact hfrom1 x y hxy
    · rw [hP3 x] at hxy
      by_cases hx : x = c
      · rw [if_pos hx] at hxy
        have hyp : y = p := (Option.some.inj hxy).symm
        rw [hyp]
        exact hplen
      · rw [if_neg hx] at hxy
        rcases hP2 with ⟨hnr, hP2⟩ | hP2
        · rw [hP2 x] at hxy
          exact hfrom1 x y hxy
        · rw [hP2 x] at hxy
          by_cases hxp : x = p
          · rw [if_pos hxp] at hxy
            exact absurd hxy (by simp)
          · rw [if_neg hxp] at hxy
            exact hfrom1 x y hxy

/- ------------------------------------------------------------------ -/
/- C6: the hierarchy stays acyclic under every operation               -/
/- ------------------------------------------------------------------ -/

/-- Frame of a destroying step: parents only disappear, the sparse length is
    unchanged, and the free list only grows by parentless records. -/
def EMFrame (em em' : EntityManager) : Prop :=
  (∀ x, em'.parentOf x = em.parentOf x ∨ em'.parentOf x = none) ∧
  em'.sparse.length = em.sparse.length ∧
  (∃ l, em'.destroyed = em.destroyed ++ l ∧ ∀ d ∈ l, d.parent = none)

theorem EMFrame_refl (em : EntityManager) : EMFrame em em :=
  ⟨fun _ => Or.inl rfl, rfl, [], by simp, by simp⟩

theorem EMFrame_trans {a b c : EntityManager} (h1 : EMFrame a b)
    (h2 : EMFrame b c) : EMFrame a c := by
  obtain ⟨hp1, hl1, l1, hd1, hc1⟩ := h1
  obtain ⟨hp2, hl2, l2, hd2, hc2⟩ := h2
  refine ⟨?_, by rw [hl2, hl1], l1 ++ l2, by rw [hd2, hd1, List.append_assoc], ?_⟩
  · intro x
    rcases hp2 x with h | h
    · rw [h]; exact hp1 x
    · right; exact h
  · intro d hd
    rcases List.mem_append.mp hd with h | h
    · exact hc1 d h
    · exact hc2 d h

theorem clear_parent (d : EntityData) : d.clear.parent = none := rfl

theorem destroy_branch_frame :
    ∀ fuel (em : EntityManager) (e : Nat),
      EMFrame em (EntityManager.destroy_branch fuel em e) := by
  intro fuel
  induction fuel with
  | zero => intro em e; exact EMFrame_refl em
  | succ fuel ih =>
    intro em e
    show EMFrame em (EntityManager.destroy_branch (fuel + 1) em e)
    rw [EntityManager.destroy_branch]
    cases hv : em.sparse.getD e none with
    | none => exact EMFrame_refl em
    | some d =>
      have h1 : EMFrame em { em with sparse := em.sparse.set e none } := by
        refine ⟨?_, by simp, [], by simp, by simp⟩
        intro x
        by_cases hx : x = e
        · subst hx
          right
          unfold EntityManager.parentOf
          rw [getD_set_self _ _ _ _ (lt_length_of_getD_some hv)]
        · left
          unfold EntityManager.parentOf
          rw [getD_set_ne _ _ _ _ _ (fun h => hx h.symm)]
      have hfold : ∀ (l : List Nat) (em' : EntityManager),
          EMFrame em' (l.foldl (EntityManager.destroy_branch fuel) em') := by
        intro l
        induction l with
        | nil => intro em'; exact EMFrame_refl em'
        | cons a l ihl =>
          intro em'
          exact EMFrame_trans (ih em' a) (ihl (EntityManager.destroy_branch fuel em' a))
      have h2 := hfold d.dense { em with sparse := em.sparse.set e none }
      have h3 : EMFrame (d.dense.foldl (EntityManager.destroy_branch fuel)
          { em with sparse := em.sparse.set e none })
          { d.dense.foldl (EntityManager.destroy_branch fuel)
              { em with sparse := em.sparse.set e none } with
            destroyed := (d.dense.foldl (EntityManager.destroy_branch fuel)
              { em with sparse := em.sparse.set e none }).destroyed ++ [d.clear] } := by
        refine ⟨fun x => Or.inl rfl, rfl, [d.clear], rfl, ?_⟩
        intro d' hd'
        rw [List.mem_singleton.mp hd']
        exact clear_parent d
      exact EMFrame_trans h1 (EMFrame_trans h2 h3)

theorem destroy_frame (em : EntityManager) (e : Nat) :
    EMFrame em (em.destroy e) := by
  unfold EntityManager.destroy
  cases hv : em.sparse.getD e none with
  | none => exact EMFrame_refl em
  | some d =>
    have h1 : EMFrame em (match d.parent with
        | some parent => em.updateSlot parent (fun pd => pd.remove_child e)
        | none => em) := by
      cases d.parent with
      | none => exact EMFrame_refl em
      | some parent =>
        refine ⟨?_, EntityManager.updateSlot_length _ _ _, [],
          by simp [EntityManager.updateSlot_destroyed], by simp⟩
        intro x
        left
        exact EntityManager.parentOf_updateSlot _ _ _
          (fun pd => remove_child_parent pd e) x
    exact EMFrame_trans h1 (by
      have := destroy_branch_frame
        (match d.parent with
          | some parent => em.updateSlot parent (fun pd => pd.remove_child e)
          | none => em).sparse.length
        (match d.parent with
          | some parent => em.updateSlot parent (fun pd => pd.remove_child e)
          | none => em) e
      exact this)

/-- The invariant carried through every EntityManager operation for C6. -/
def I6 (em : EntityManager) : Prop :=
  Acyclic em.parentOf ∧ ParentBound em ∧ ∀ d ∈ em.destroyed, d.parent = none

theorem I6_of_frame {em em' : EntityManager} (hf : EMFrame em em')
    (h : I6 em) : I6 em' := by
  obtain ⟨hp, hl, l, hd, hc⟩ := hf
  obtain ⟨hA, hPB, hD⟩ := h
  refine ⟨Acyclic.mono hp hA, ?_, ?_⟩
  · intro x y hxy
    rcases hp x with h1 | h1
    · rw [h1] at hxy
      rw [hl]
      exact hPB x y hxy
    · rw [h1] at hxy
      exact absurd hxy (by simp)
  · intro d hdm
    rw [hd] at hdm
    rcases List.mem_append.mp hdm with h1 | h1
    · exact hD d h1
    · exact hc d h1

theorem destroy_I6 (em : EntityManager) (e : Nat) (h : I6 em) :
    I6 (em.destroy e) :=
  I6_of_frame (destroy_frame em e) h

theorem mem_of_getLast?_eq {T : Type} {l : List T} {a : T}
    (h : l.getLast? = some a) : a ∈ l := by
  obtain ⟨hne, heq⟩ := List.mem_getLast?_eq_getLast (l := l) (x := a) (by rw [h]; rfl)
  rw [heq]
  exact List.getLast_mem hne

theorem unbind_I6 (em : EntityManager) (c : Nat) (h : I6 em) :
    I6 (em.unbind c) := by
  refine I6_of_frame ?_ h
  unfold EntityManager.unbind
  split
  next cd hv =>
    split
    next parent hp =>
      have hstep : EMFrame em
          { em with sparse := em.sparse.set c (some ((cd.set_parent none).getD cd)) } := by
        refine ⟨?_, by simp, [], by simp, by simp⟩
        intro x
        by_cases hx : x = c
        · subst hx
          right
          rw [parentOf_set_some em x _ (lt_length_of_getD_some hv) x, if_pos rfl,
            set_parent_none_eq]
        · left
          rw [parentOf_set_some em c _ (lt_length_of_getD_some hv) x, if_neg hx]
      refine EMFrame_trans hstep ?_
      refine ⟨?_, EntityManager.updateSlot_length _ _ _, [],
        by simp [EntityManager.updateSlot_destroyed], by simp⟩
      intro x
      left
      exact EntityManager.parentOf_updateSlot _ _ _
        (fun pd => remove_child_parent pd c) x
    next hp =>
      exact EMFrame_refl em
  next hv =>
    exact EMFrame_refl em

theorem parentOf_eq_of_getD_eq {em1 em2 : EntityManager} {x : Nat}
    (h : em1.sparse.getD x none = em2.sparse.getD x none) :
    em1.parentOf x = em2.parentOf x := by
  unfold EntityManager.parentOf
  rw [h]

theorem parentOf_none_of_getD {em1 : EntityManager} {x : Nat} {d : EntityData}
    (h : em1.sparse.getD x none = some d) (hp : d.parent = none) :
    em1.parentOf x = none := by
  rw [parentOf_eq_parent h, hp]

theorem parentOf_none_of_getD_none {em1 : EntityManager} {x : Nat}
    (h : em1.sparse.getD x none = none) : em1.parentOf x = none := by
  unfold EntityManager.parentOf
  rw [h]

theorem spawn_I6 (em : EntityManager) (h : I6 em) : I6 (em.spawn).2 := by
  obtain ⟨hA, hPB, hD⟩ := h
  unfold EntityManager.spawn
  split
  next d hlast =>
    have hdp : d.parent = none := hD d (mem_of_getLast?_eq hlast)
    have hpar : ∀ x, EntityManager.parentOf
        { em with sparse := em.sparse.set d.owner (some d),
                  destroyed := em.destroyed.dropLast } x = em.parentOf x ∨
        EntityManager.parentOf
        { em with sparse := em.sparse.set d.owner (some d),
                  destroyed := em.destroyed.dropLast } x = none := by
      intro x
      by_cases hx : x = d.owner
      · by_cases hlt : d.owner < em.sparse.length
        · right
          refine parentOf_none_of_getD (d := d) ?_ hdp
          show (em.sparse.set d.owner (some d)).getD x none = some d
          rw [hx]
          exact getD_set_self _ _ _ _ hlt
        · left
          apply parentOf_eq_of_getD_eq
          show (em.sparse.set d.owner (some d)).getD x none = em.sparse.getD x none
          rw [List.set_eq_of_length_le (Nat.le_of_not_lt hlt)]
      · left
        apply parentOf_eq_of_getD_eq
        exact getD_set_ne _ _ _ _ _ (fun h2 => hx h2.symm)
    refine ⟨Acyclic.mono hpar hA, ?_, ?_⟩
    · intro x y hxy
      rcases hpar x with h1 | h1
      · rw [h1] at hxy
        show y < (em.sparse.set d.owner (some d)).length
        rw [List.length_set]
        exact hPB x y hxy
      · rw [h1] at hxy
        exact absurd hxy (by simp)
    · intro d' hd'
      exact hD d' (List.dropLast_subset em.destroyed hd')
  next hlast =>
    have hpar : ∀ x, EntityManager.parentOf
        { em with sparse := em.sparse ++ [some (EntityData.new em.sparse.length)] } x =
          em.parentOf x ∨
        EntityManager.parentOf
        { em with sparse := em.sparse ++ [some (EntityData.new em.sparse.length)] } x =
          none := by
      intro x
      rcases Nat.lt_trichotomy x em.sparse.length with hlt | heq | hgt
      · left
        apply parentOf_eq_of_getD_eq
        show (em.sparse ++ [some (EntityData.new em.sparse.length)]).getD x none =
          em.sparse.getD x none
        rw [List.getD_eq_getElem?_getD, List.getElem?_append_left hlt,
          ← List.getD_eq_getElem?_getD]
      · right
        refine parentOf_none_of_getD (d := EntityData.new em.sparse.length) ?_ rfl
        show (em.sparse ++ [some (EntityData.new em.sparse.length)]).getD x none =
          some (EntityData.new em.sparse.length)
        rw [List.getD_eq_getElem?_getD, heq,
          List.getElem?_append_right (Nat.le_refl _)]
        simp
      · right
        apply parentOf_none_of_getD_none
        show (em.sparse ++ [some (EntityData.new em.sparse.length)]).getD x none = none
        rw [List.getD_eq_getElem?_getD, List.getElem?_eq_none (by simp; omega)]
        rfl
    refine ⟨Acyclic.mono hpar hA, ?_, hD⟩
    intro x y hxy
    rcases hpar x with h1 | h1
    · rw [h1] at hxy
      show y < (em.sparse ++ [some (EntityData.new em.sparse.length)]).length
      have := hPB x y hxy
      simp
      omega
    · rw [h1] at hxy
      exact absurd hxy (by simp)

theorem bind_eq (em : EntityManager) (p c : Nat)
    (hg : ¬ (p = c ∨ (em.sparse.getD p none).isNone = true ∨
      (em.sparse.getD c none).isNone = true))
    (cd0 : EntityData) (hcd0 : em.sparse.getD c none = some cd0) :
    em.bind p c =
      ((EntityManager.bindLoop
          (match cd0.parent with
            | some oldp => em.updateSlot oldp (fun d => d.remove_child c)
            | none => em) c p
          ((match cd0.parent with
            | some oldp => em.updateSlot oldp (fun d => d.remove_child c)
            | none => em).sparse.length + 1) p).updateSlot c
        (fun d => (d.set_parent (some p)).getD d)).updateSlot p
        (fun d => (d.insert_child c).getD d) := by
  unfold EntityManager.bind
  rw [if_neg hg, hcd0]

theorem bind_I6 (em : EntityManager) (p c : Nat) (h : I6 em) :
    I6 (em.bind p c) := by
  obtain ⟨hA, hPB, hD⟩ := h
  by_cases hg : p = c ∨ (em.sparse.getD p none).isNone = true ∨
      (em.sparse.getD c none).isNone = true
  · have heq : em.bind p c = em := by
      unfold EntityManager.bind
      rw [if_pos hg]
    rw [heq]
    exact ⟨hA, hPB, hD⟩
  · have hpc : p ≠ c := fun he => hg (Or.inl he)
    have hps : (em.sparse.getD p none).isSome = true := by
      cases hv : em.sparse.getD p none with
      | none => exact absurd (Or.inr (Or.inl (by rw [hv]; rfl))) hg
      | some d => rfl
    have hcs : (em.sparse.getD c none).isSome = true := by
      cases hv : em.sparse.getD c none with
      | none => exact absurd (Or.inr (Or.inr (by rw [hv]; rfl))) hg
      | some d => rfl
    obtain ⟨cd0, hcd0⟩ := Option.isSome_iff_exists.mp hcs
    rw [bind_eq em p c hg cd0 hcd0]
    cases hp0 : cd0.parent with
    | none =>
      have hbt := bind_tail_I6 em em p c hpc (fun x => rfl) rfl rfl (fun x => rfl)
        hps hcs hA hPB
      exact ⟨hbt.1, hbt.2.1, by rw [hbt.2.2.1]; exact hD⟩
    | some oldp =>
      have hbt := bind_tail_I6 em (em.updateSlot oldp (fun d => d.remove_child c)) p c hpc
        (fun x => EntityManager.parentOf_updateSlot _ _ _
          (fun d => remove_child_parent d c) x)
        (EntityManager.updateSlot_length _ _ _)
        (EntityManager.updateSlot_destroyed _ _ _)
        (fun x => updateSlot_isSome _ _ _ x)
        hps hcs hA hPB
      exact ⟨hbt.1, hbt.2.1, by rw [hbt.2.2.1]; exact hD⟩

/-- The four public EntityManager operations of the claim. -/
inductive EOp where
  | spawnOp : EOp
  | bindOp : Nat → Nat → EOp
  | unbindOp : Nat → EOp
  | destroyOp : Nat → EOp
deriving DecidableEq

def applyEOp (em : EntityManager) : EOp → EntityManager
  | .spawnOp => (em.spawn).2
  | .bindOp p c => em.bind p c
  | .unbindOp c => em.unbind c
  | .destroyOp e => em.destroy e

def runEOps (ops : List EOp) : EntityManager :=
  ops.foldl applyEOp EntityManager.new

theorem I6_new : I6 EntityManager.new := by
  refine ⟨?_, ?_, ?_⟩
  · intro e n hcyc
    rw [iterP] at hcyc
    have : EntityManager.new.parentOf e = none := rfl
    rw [this] at hcyc
    exact absurd hcyc (by simp)
  · intro x y hxy
    have : EntityManager.new.parentOf x = none := rfl
    rw [this] at hxy
    exact absurd hxy (by simp)
  · intro d hd
    exact absurd hd (by simp [EntityManager.new])

theorem I6_step (em : EntityManager) (op : EOp) (h : I6 em) :
    I6 (applyEOp em op) := by
  cases op with
  | spawnOp => exact spawn_I6 em h
  | bindOp p c => exact bind_I6 em p c h
  | unbindOp c => exact unbind_I6 em c h
  | destroyOp e => exact destroy_I6 em e h

theorem I6_runEOps (ops : List EOp) : I6 (runEOps ops) := by
  have hgen : ∀ (l : List EOp) (em : EntityManager), I6 em → I6 (l.foldl applyEOp em) := by
    intro l
    induction l with
    | nil => intro em h; exact h
    | cons a l ih =>
      intro em h
      exact ih (applyEOp em a) (I6_step em a h)
  exact hgen ops EntityManager.new I6_new

/-- C6: for any sequence of spawn, bind, unbind and destroy calls starting
    from a fresh EntityManager, the parent relation is acyclic - no entity is
    its own proper ancestor - and walking parent pointers from any id reaches
    none within length + 1 steps, so every walk terminates. -/
theorem C6_hierarchy_acyclic (ops : List EOp) :
    Acyclic (runEOps ops).parentOf ∧
      ∀ e, ∃ k, k ≤ (runEOps ops).sparse.length + 1 ∧
        iterP (runEOps ops).parentOf k e = none := by
  have h := I6_runEOps ops
  exact ⟨h.1, fun e => chain_bounded h.1 (fun x y hxy => h.2.1 x y hxy) e⟩

/- ------------------------------------------------------------------ -/
/- Decidable well formedness of an EntityManager state                 -/
/- ------------------------------------------------------------------ -/

/-- A record on the free list as EntityData::clear leaves it. -/
def clearedB (d : EntityData) : Bool :=
  d.parent == none && d.sparse.isEmpty && d.dense.isEmpty &&
    d.archetype.bytes.all (fun b => b == 0)

/-- Child sparse/dense consistency of one record. -/
def sdrecB (d : EntityData) : Bool :=
  ((List.range d.sparse.length).all fun c2 =>
    match d.sparse.getD c2 none with
    | some i => decide (i < d.dense.length) && (d.dense.getD i 0 == c2)
    | none => true) &&
  ((List.range d.dense.length).all fun i =>
    d.sparse.getD (d.dense.getD i 0) none == some i)

/-- Computable well formedness check of a reachable EntityManager state:
    owner consistency, mutual parent/child consistency, per record child
    sparse set consistency, bounded acyclicity, and a clean free list. -/
def wfemB (em : EntityManager) : Bool :=
  ((List.range em.sparse.length).all fun e =>
    match em.sparse.getD e none with
    | some d =>
      (d.owner == e) && sdrecB d &&
        (match d.parent with
          | some q => decide (q < em.sparse.length) &&
              (match em.sparse.getD q none with
                | some dq => dq.has_child e
                | none => false)
          | none => true)
    | none => true) &&
  ((List.range em.sparse.length).all fun p2 =>
    match em.sparse.getD p2 none with
    | some dp =>
      (List.range dp.sparse.length).all fun c2 =>
        match dp.sparse.getD c2 none with
        | some _ => decide (c2 < em.sparse.length) &&
            (match em.sparse.getD c2 none with
              | some dc => dc.parent == some p2
              | none => false)
        | none => true
    | none => true) &&
  ((List.range em.sparse.length).all fun e =>
    (List.range em.sparse.length).all fun n =>
      !(iterP em.parentOf (n + 1) e == some e)) &&
  (em.destroyed.all fun d =>
    clearedB d && decide (d.owner < em.sparse.length) &&
      (em.sparse.getD d.owner none == none)) &&
  ((em.destroyed.map EntityData.owner).Nodup : Bool)

/-- Well formedness as a proposition. -/
def WFem (em : EntityManager) : Prop := wfemB em = true

theorem parentOf_some_elim {em : EntityManager} {x y : Nat}
    (h : em.parentOf x = some y) :
    ∃ d, em.sparse.getD x none = some d ∧ d.parent = some y := by
  unfold EntityManager.parentOf at h
  cases hv : em.sparse.getD x none with
  | none => rw [hv] at h; exact absurd h (by simp)
  | some d =>
    rw [hv] at h
    exact ⟨d, rfl, h⟩

theorem WFem_owner {em : EntityManager} {e : Nat} {d : EntityData}
    (h : WFem em) (hd : em.sparse.getD e none = some d) : d.owner = e := by
  have he : e < em.sparse.length := lt_length_of_getD_some hd
  unfold WFem wfemB at h
  simp only [Bool.and_eq_true] at h
  have h1 := h.1.1.1.1
  rw [List.all_eq_true] at h1
  have h2 := h1 e (List.mem_range.mpr he)
  rw [hd] at h2
  have h3 : ((d.owner == e) && sdrecB d &&
      (match d.parent with
        | some q => decide (q < em.sparse.length) &&
            (match em.sparse.getD q none with
              | some dq => dq.has_child e
              | none => false)
        | none => true)) = true := h2
  simp only [Bool.and_eq_true, beq_iff_eq] at h3
  exact h3.1.1

theorem WFem_sdrec {em : EntityManager} {e : Nat} {d : EntityData}
    (h : WFem em) (hd : em.sparse.getD e none = some d) : sdrecB d = true := by
  have he : e < em.sparse.length := lt_length_of_getD_some hd
  unfold WFem wfemB at h
  simp only [Bool.and_eq_true] at h
  have h1 := h.1.1.1.1
  rw [List.all_eq_true] at h1
  have h2 := h1 e (List.mem_range.mpr he)
  rw [hd] at h2
  have h3 : ((d.owner == e) && sdrecB d &&
      (match d.parent with
        | some q => decide (q < em.sparse.length) &&
            (match em.sparse.getD q none with
              | some dq => dq.has_child e
              | none => false)
        | none => true)) = true := h2
  simp only [Bool.and_eq_true] at h3
  exact h3.1.2

theorem sdrec_child_idx {d : EntityData} {c2 i : Nat}
    (h : sdrecB d = true) (hc : d.sparse.getD c2 none = some i) :
    i < d.dense.length ∧ d.dense.getD i 0 = c2 := by
  unfold sdrecB at h
  simp only [Bool.and_eq_true] at h
  have h1 := h.1
  rw [List.all_eq_true] at h1
  have h2 := h1 c2 (List.mem_range.mpr (lt_length_of_getD_some hc))
  rw [hc] at h2
  have h3 : (decide (i < d.dense.length) && (d.dense.getD i 0 == c2)) = true := h2
  simp only [Bool.and_eq_true, decide_eq_true_iff, beq_iff_eq] at h3
  exact h3

theorem sdrec_child_inv {d : EntityData} {i : Nat}
    (h : sdrecB d = true) (hi : i < d.dense.length) :
    d.sparse.getD (d.dense.getD i 0) none = some i := by
  unfold sdrecB at h
  simp only [Bool.and_eq_true] at h
  have h1 := h.2
  rw [List.all_eq_true] at h1
  have h2 := h1 i (List.mem_range.mpr hi)
  simpa using h2

theorem WFem_parent_child {em : EntityManager} {e q : Nat} {d : EntityData}
    (h : WFem em) (hd : em.sparse.getD e none = some d)
    (hq : d.parent = some q) :
    q < em.sparse.length ∧
      ∃ dq, em.sparse.getD q none = some dq ∧ dq.has_child e = true := by
  have he : e < em.sparse.length := lt_length_of_getD_some hd
  unfold WFem wfemB at h
  simp only [Bool.and_eq_true] at h
  have h1 := h.1.1.1.1
  rw [List.all_eq_true] at h1
  have h2 := h1 e (List.mem_range.mpr he)
  rw [hd] at h2
  have h3 : ((d.owner == e) && sdrecB d &&
      (match d.parent with
        | some q => decide (q < em.sparse.length) &&
            (match em.sparse.getD q none with
              | some dq => dq.has_child e
              | none => false)
        | none => true)) = true := h2
  simp only [Bool.and_eq_true] at h3
  have h4 := h3.2
  rw [hq] at h4
  have h5 : (decide (q < em.sparse.length) &&
      (match em.sparse.getD q none with
        | some dq => dq.has_child e
        | none => false)) = true := h4
  simp only [Bool.and_eq_true, decide_eq_true_iff] at h5
  refine ⟨h5.1, ?_⟩
  have h6 := h5.2
  cases hv : em.sparse.getD q none with
  | none => rw [hv] at h6; exact absurd h6 (by simp)
  | some dq =>
    rw [hv] at h6
    exact ⟨dq, rfl, h6⟩

theorem WFem_child_parent {em : EntityManager} {p2 c2 : Nat} {dp : EntityData}
    (h : WFem em) (hp : em.sparse.getD p2 none = some dp)
    (hc : dp.has_child c2 = true) :
    ∃ dc, em.sparse.getD c2 none = some dc ∧ dc.parent = some p2 := by
  have hp2 : p2 < em.sparse.length := lt_length_of_getD_some hp
  obtain ⟨i, hi⟩ : ∃ i, dp.sparse.getD c2 none = some i := by
    unfold EntityData.has_child at hc
    exact Option.isSome_iff_exists.mp hc
  unfold WFem wfemB at h
  simp only [Bool.and_eq_true] at h
  have h1 := h.1.1.1.2
  rw [List.all_eq_true] at h1
  have h2 := h1 p2 (List.mem_range.mpr hp2)
  rw [hp] at h2
  have h3 : ((List.range dp.sparse.length).all fun c3 =>
      match dp.sparse.getD c3 none with
      | some _ => decide (c3 < em.sparse.length) &&
          (match em.sparse.getD c3 none with
            | some dc => dc.parent == some p2
            | none => false)
      | none => true) = true := h2
  rw [List.all_eq_true] at h3
  have h4 := h3 c2 (List.mem_range.mpr (lt_length_of_getD_some hi))
  rw [hi] at h4
  have h5 : (decide (c2 < em.sparse.length) &&
      (match em.sparse.getD c2 none with
        | some dc => dc.parent == some p2
        | none => false)) = true := h4
  simp only [Bool.and_eq_true] at h5
  have h6 := h5.2
  cases hv : em.sparse.getD c2 none with
  | none => rw [hv] at h6; exact absurd h6 (by simp)
  | some dc =>
    rw [hv] at h6
    have h7 : (dc.parent == some p2) = true := h6
    exact ⟨dc, rfl, by simpa using h7⟩

theorem WFem_acyclicDec {em : EntityManager} (h : WFem em) :
    ∀ e, e < em.sparse.length → ∀ n, n < em.sparse.length →
      iterP em.parentOf (n + 1) e ≠ some e := by
  intro e he n hn
  unfold WFem wfemB at h
  simp only [Bool.and_eq_true] at h
  have h1 := h.1.1.2
  rw [List.all_eq_true] at h1
  have h2 := h1 e (List.mem_range.mpr he)
  rw [List.all_eq_true] at h2
  have h3 := h2 n (List.mem_range.mpr hn)
  simpa using h3

theorem WFem_destroyed {em : EntityManager} {d : EntityData}
    (h : WFem em) (hd : d ∈ em.destroyed) :
    clearedB d = true ∧ d.owner < em.sparse.length ∧
      em.sparse.getD d.owner none = none := by
  unfold WFem wfemB at h
  simp only [Bool.and_eq_true] at h
  have h1 := h.1.2
  rw [List.all_eq_true] at h1
  have h2 := h1 d hd
  simp only [Bool.and_eq_true, decide_eq_true_iff, beq_iff_eq] at h2
  exact ⟨h2.1.1, h2.1.2, h2.2⟩

theorem WFem_nodup {em : EntityManager} (h : WFem em) :
    (em.destroyed.map EntityData.owner).Nodup := by
  unfold WFem wfemB at h
  simp only [Bool.and_eq_true] at h
  have h1 := h.2
  simpa using h1

theorem WFem_PB {em : EntityManager} (h : WFem em) : ParentBound em := by
  intro x y hxy
  obtain ⟨d, hd, hp⟩ := parentOf_some_elim hxy
  exact (WFem_parent_child h hd hp).1

theorem parentOf_none_of_ge {em : EntityManager} {x : Nat}
    (h : em.sparse.length ≤ x) : em.parentOf x = none := by
  apply parentOf_none_of_getD_none
  exact getD_of_ge _ _ _ h

theorem WFem_acyclic {em : EntityManager} (h : WFem em) :
    Acyclic em.parentOf := by
  intro e n hcyc
  have hPB := WFem_PB h
  have hdec := WFem_acyclicDec h
  -- e is allocated, otherwise the first step fails
  have he : e < em.sparse.length := by
    by_contra hge
    rw [iterP, parentOf_none_of_ge (Nat.le_of_not_lt hge)] at hcyc
    exact absurd hcyc (by simp)
  by_cases hn : n < em.sparse.length
  · exact hdec e he n hn hcyc
  · -- shrink the long cycle to one of length below the bound
    have hsome : ∀ k, k ≤ em.sparse.length → ∃ y, iterP em.parentOf k e = some y := by
      intro k hk
      exact iterP_prefix (by omega) hcyc
    have hval : ∀ k, k ≤ em.sparse.length → (iterP em.parentOf k e).getD 0 <
        em.sparse.length := by
      intro k hk
      cases k with
      | zero => exact he
      | succ k =>
        obtain ⟨x, hx⟩ := hsome k (by omega)
        obtain ⟨y, hy⟩ := hsome (k + 1) hk
        have hstep := hy
        rw [iterP_succ_right, hx, Option.some_bind] at hstep
        rw [hy]
        exact hPB x y hstep
    have hcol := Finset.exists_ne_map_eq_of_card_lt_of_maps_to
      (s := Finset.range (em.sparse.length + 1)) (t := Finset.range em.sparse.length)
      (f := fun k => (iterP em.parentOf k e).getD 0)
      (by simp)
      (fun k hk => by
        simp only [Finset.mem_range] at hk ⊢
        exact hval k (by omega))
    obtain ⟨i, hi, j, hj, hij, hfij⟩ := hcol
    simp only [Finset.mem_range] at hi hj
    -- order the collision
    rcases Nat.lt_trichotomy i j with hlt | heq | hlt
    · obtain ⟨x, hx⟩ := hsome i (by omega)
      obtain ⟨y, hy⟩ := hsome j (by omega)
      have hfij2 : (iterP em.parentOf i e).getD 0 = (iterP em.parentOf j e).getD 0 := hfij
      rw [hx, hy] at hfij2
      simp only [Option.getD_some] at hfij2
      subst hfij2
      have hcycx : iterP em.parentOf (j - i) x = some x := by
        have hadd := iterP_add em.parentOf i (j - i) e
        rw [show i + (j - i) = j from by omega, hy, hx, Option.some_bind] at hadd
        exact hadd.symm
      have hxlt : x < em.sparse.length := by
        have := hval i (by omega)
        rw [hx] at this
        simpa using this
      obtain ⟨m, hm⟩ : ∃ m, j - i = m + 1 := ⟨j - i - 1, by omega⟩
      rw [hm] at hcycx
      exact hdec x hxlt m (by omega) hcycx
    · exact hij heq
    · obtain ⟨x, hx⟩ := hsome j (by omega)
      obtain ⟨y, hy⟩ := hsome i (by omega)
      have hfij2 : (iterP em.parentOf j e).getD 0 = (iterP em.parentOf i e).getD 0 :=
        hfij.symm
      rw [hx, hy] at hfij2
      simp only [Option.getD_some] at hfij2
      subst hfij2
      have hcycx : iterP em.parentOf (i - j) x = some x := by
        have hadd := iterP_add em.parentOf j (i - j) e
        rw [show j + (i - j) = i from by omega, hy, hx, Option.some_bind] at hadd
        exact hadd.symm
      have hxlt : x < em.sparse.length := by
        have := hval j (by omega)
        rw [hx] at this
        simpa using this
      obtain ⟨m, hm⟩ : ∃ m, i - j = m + 1 := ⟨i - j - 1, by omega⟩
      rw [hm] at hcycx
      exact hdec x hxlt m (by omega) hcycx

/- ------------------------------------------------------------------ -/
/- C7: which node the cycle break detaches                             -/
/- ------------------------------------------------------------------ -/

theorem remove_child_owner (d : EntityData) (c : Nat) :
    (d.remove_child c).owner = d.owner := by
  unfold EntityData.remove_child
  cases d.sparse.getD c none with
  | none => rfl
  | some i =>
    by_cases h : i ≠ d.dense.length - 1 <;> simp [h]

theorem remove_child_has_child_self (d : EntityData) (c : Nat) :
    (d.remove_child c).has_child c = false := by
  unfold EntityData.remove_child
  cases hv : d.sparse.getD c none with
  | none =>
    unfold EntityData.has_child
    rw [hv]
    rfl
  | some i =>
    have hcl : c < d.sparse.length := lt_length_of_getD_some hv
    unfold EntityData.has_child
    by_cases h : i ≠ d.dense.length - 1
    · simp only [if_pos h]
      show (((d.sparse.set _ (some i)).set c none).getD c none).isSome = false
      rw [getD_set_self _ _ _ _ (by simpa using hcl)]
      rfl
    · simp only [if_neg h]
      show (((d.sparse).set c none).getD c none).isSome = false
      rw [getD_set_self _ _ _ _ hcl]
      rfl

theorem reaches_congr {P Q : Nat → Option Nat} (h : ∀ x, P x = Q x)
    {a b : Nat} (hr : Reaches P a b) : Reaches Q a b := by
  obtain ⟨n, hn⟩ := hr
  exact ⟨n, by rw [← iterP_congr h]; exact hn⟩

/-- Tail of the C7 proof: starting after the unlink step, when child is an
    ancestor of par, the final state has child under par, par parentless,
    and every other parent pointer untouched. -/
theorem bind_tail_C7 (em em1 : EntityManager) (p c : Nat) (cd : EntityData)
    (hpc : p ≠ c)
    (hP1 : ∀ x, em1.parentOf x = em.parentOf x)
    (hL1 : em1.sparse.length = em.sparse.length)
    (hS1c : em1.sparse.getD c none = em.sparse.getD c none)
    (hS1 : ∀ x, (em1.sparse.getD x none).isSome = (em.sparse.getD x none).isSome)
    (hcd : em.sparse.getD c none = some cd)
    (hps : (em.sparse.getD p none).isSome = true)
    (hhc : cd.has_child p = true → em.parentOf p = some c)
    (hown : cd.owner = c)
    (hA : Acyclic em.parentOf) (hPB : ParentBound em)
    (hre : Reaches em.parentOf p c) :
    (((EntityManager.bindLoop em1 c p (em1.sparse.length + 1) p).updateSlot c
        (fun d => (d.set_parent (some p)).getD d)).updateSlot p
        (fun d => (d.insert_child c).getD d)).parentOf c = some p ∧
    (((EntityManager.bindLoop em1 c p (em1.sparse.length + 1) p).updateSlot c
        (fun d => (d.set_parent (some p)).getD d)).updateSlot p
        (fun d => (d.insert_child c).getD d)).parentOf p = none ∧
    ∀ x, x ≠ c → x ≠ p →
      (((EntityManager.bindLoop em1 c p (em1.sparse.length + 1) p).updateSlot c
          (fun d => (d.set_parent (some p)).getD d)).updateSlot p
          (fun d => (d.insert_child c).getD d)).parentOf x = em.parentOf x := by
  have hA1 : Acyclic em1.parentOf := acyclic_congr (fun x => (hP1 x).symm) hA
  have hPB1 : ParentBound em1 := by
    intro x y hxy
    rw [hP1 x] at hxy
    rw [hL1]
    exact hPB x y hxy
  have hre1 : Reaches em1.parentOf p c := reaches_congr (fun x => (hP1 x).symm) hre
  obtain ⟨pd1, hpd1⟩ : ∃ pd1, em1.sparse.getD p none = some pd1 := by
    apply Option.isSome_iff_exists.mp
    rw [hS1, hps]
  obtain ⟨gp, hgp⟩ : ∃ gp, pd1.parent = some gp := by
    obtain ⟨n, hn⟩ := hre1
    obtain ⟨y, hy⟩ := iterP_prefix (show 1 ≤ n + 1 by omega) hn
    rw [iterP] at hy
    cases hv : em1.parentOf p with
    | none => rw [hv] at hy; exact absurd hy (by simp)
    | some z =>
      rw [parentOf_eq_parent hpd1] at hv
      exact ⟨z, hv⟩
  have hgp_em : em.parentOf p = some gp := by
    rw [← hP1 p, parentOf_eq_parent hpd1, hgp]
  have hloop := bindLoop_reaches em1 c p hA1 (fun x y hh => hPB1 x y hh) hre1 pd1 hpd1 gp hgp
  rw [hloop, set_parent_none_eq pd1]
  have hplen1 : p < em1.sparse.length := lt_length_of_getD_some hpd1
  -- the state after the detach
  have hP2 : ∀ x,
      (({ em1 with sparse := em1.sparse.set p (some { pd1 with parent := none }) }
        : EntityManager).updateSlot gp (fun g => g.remove_child p)).parentOf x =
        if x = p then none else em1.parentOf x := by
    intro x
    rw [EntityManager.parentOf_updateSlot _ _ _ (fun d => remove_child_parent d p) x]
    rw [parentOf_set_some em1 p { pd1 with parent := none } hplen1 x]
  -- the record of c after the detach
  have hsetc : (em1.sparse.set p (some { pd1 with parent := none })).getD c none =
      some cd := by
    rw [getD_set_ne _ _ _ _ _ hpc, hS1c, hcd]
  obtain ⟨cd2, hcd2, hncp, hown2⟩ :
      ∃ cd2, (({ em1 with sparse := em1.sparse.set p (some { pd1 with parent := none }) }
        : EntityManager).updateSlot gp (fun g => g.remove_child p)).sparse.getD c none =
          some cd2 ∧ cd2.has_child p = false ∧ cd2.owner = c := by
    by_cases hgpc : gp = c
    · refine ⟨cd.remove_child p, ?_, remove_child_has_child_self cd p, ?_⟩
      · rw [hgpc]
        exact EntityManager.updateSlot_getD_self _ c _ cd hsetc
      · rw [remove_child_owner, hown]
    · refine ⟨cd, ?_, ?_, hown⟩
      · rw [EntityManager.updateSlot_getD_ne _ _ _ c (fun h => hgpc h.symm)]
        exact hsetc
      · by_contra hhcp
        have hhcp2 : cd.has_child p = true := by
          cases hv : cd.has_child p
          · exact absurd hv hhcp
          · rfl
        have h9 := hhc hhcp2
        rw [hgp_em] at h9
        exact hgpc (Option.some.inj h9)
  rw [updateSlot_eq _ hcd2]
  have hclen2 : c <
      (({ em1 with sparse := em1.sparse.set p (some { pd1 with parent := none }) }
        : EntityManager).updateSlot gp (fun g => g.remove_child p)).sparse.length :=
    lt_length_of_getD_some hcd2
  have hncond : ¬ (p = cd2.owner ∨ cd2.has_child p) := by
    intro hcon
    rcases hcon with h1 | h1
    · rw [hown2] at h1
      exact hpc h1
    · rw [hncp] at h1
      exact Bool.false_ne_true h1
  have hnewp : ((cd2.set_parent (some p)).getD cd2).parent = some p := by
    rw [set_parent_some_parent, if_neg hncond]
  have hP3 : ∀ x,
      (EntityManager.parentOf
        { (({ em1 with sparse := em1.sparse.set p (some { pd1 with parent := none }) }
          : EntityManager).updateSlot gp (fun g => g.remove_child p)) with
          sparse := (({ em1 with
              sparse := em1.sparse.set p (some { pd1 with parent := none }) }
            : EntityManager).updateSlot gp (fun g => g.remove_child p)).sparse.set c
            (some ((cd2.set_parent (some p)).getD cd2)) } x) =
        if x = c then some p else if x = p then none else em1.parentOf x := by
    intro x
    rw [parentOf_set_some _ c _ hclen2 x]
    by_cases hx : x = c
    · rw [if_pos hx, if_pos hx, hnewp]
    · rw [if_neg hx, if_neg hx, hP2 x]
  have hP4 := fun x => EntityManager.parentOf_updateSlot
    ({ (({ em1 with sparse := em1.sparse.set p (some { pd1 with parent := none }) }
      : EntityManager).updateSlot gp (fun g => g.remove_child p)) with
      sparse := (({ em1 with
          sparse := em1.sparse.set p (some { pd1 with parent := none }) }
        : EntityManager).updateSlot gp (fun g => g.remove_child p)).sparse.set c
        (some ((cd2.set_parent (some p)).getD cd2)) }) p
    (fun d => (d.insert_child c).getD d)
    (fun d => insert_child_unwrap_parent d c) x
  refine ⟨?_, ?_, ?_⟩
  · rw [hP4 c, hP3 c, if_pos rfl]
  · rw [hP4 p, hP3 p, if_neg hpc, if_pos rfl]
  · intro x hxc hxp
    rw [hP4 x, hP3 x, if_neg hxc, if_neg hxp, hP1 x]

/-- C7 (amended): when bind(parent, child) finds child among the ancestors
    of parent, the algorithm detaches PARENT ITSELF from its own parent
    (rather than the ancestor node just below the rediscovery point), then
    attaches child under parent; afterwards child points at parent, parent
    is parentless, and every other parent pointer is unchanged. -/
theorem C7_cycle_break (em : EntityManager) (p c : Nat)
    (hwf : WFem em) (hpc : p ≠ c)
    (hps : (em.sparse.getD p none).isSome = true)
    (hcs : (em.sparse.getD c none).isSome = true)
    (hre : Reaches em.parentOf p c) :
    (em.bind p c).parentOf c = some p ∧
    (em.bind p c).parentOf p = none ∧
    ∀ x, x ≠ c → x ≠ p → (em.bind p c).parentOf x = em.parentOf x := by
  have hA := WFem_acyclic hwf
  have hPB := WFem_PB hwf
  have hg : ¬ (p = c ∨ (em.sparse.getD p none).isNone = true ∨
      (em.sparse.getD c none).isNone = true) := by
    intro hcon
    rcases hcon with h | h | h
    · exact hpc h
    · cases hv : em.sparse.getD p none with
      | none => rw [hv] at hps; exact absurd hps (by simp)
      | some d => rw [hv] at h; exact absurd h (by simp)
    · cases hv : em.sparse.getD c none with
      | none => rw [hv] at hcs; exact absurd hcs (by simp)
      | some d => rw [hv] at h; exact absurd h (by simp)
  obtain ⟨cd, hcd⟩ := Option.isSome_iff_exists.mp hcs
  rw [bind_eq em p c hg cd hcd]
  have hown : cd.owner = c := WFem_owner hwf hcd
  have hhc : cd.has_child p = true → em.parentOf p = some c := by
    intro hch
    obtain ⟨dc, hdc, hdcp⟩ := WFem_child_parent hwf hcd hch
    rw [parentOf_eq_parent hdc, hdcp]
  cases hcp0 : cd.parent with
  | none =>
    exact bind_tail_C7 em em p c cd hpc (fun x => rfl) rfl rfl (fun x => rfl)
      hcd hps hhc hown hA hPB hre
  | some oldp =>
    have holdp_ne : oldp ≠ c := by
      intro he
      have hpc2 : em.parentOf c = some c := by
        rw [parentOf_eq_parent hcd, hcp0, he]
      have hcyc : iterP em.parentOf 1 c = some c := by
        rw [iterP, hpc2, Option.some_bind, iterP]
      exact hA c 0 hcyc
    exact bind_tail_C7 em (em.updateSlot oldp (fun d => d.remove_child c)) p c cd hpc
      (fun x => EntityManager.parentOf_updateSlot _ _ _
        (fun d => remove_child_parent d c) x)
      (EntityManager.updateSlot_length _ _ _)
      (EntityManager.updateSlot_getD_ne _ _ _ c (fun h => holdp_ne h.symm))
      (fun x => updateSlot_isSome _ _ _ x)
      hcd hps hhc hown hA hPB hre

/-- Three spawned entities. -/
def c7_setup : EntityManager := (((EntityManager.new.spawn).2.spawn).2.spawn).2

/-- Chain built by bind(0,1) then bind(1,2): parent pointers 2 → 1 → 0. -/
def c7_before : EntityManager := (c7_setup.bind 0 1).bind 1 2

/-- The cycle provoking call bind(2, 0). -/
def c7_after : EntityManager := c7_before.bind 2 0

/-- C7 counterexample: in the chain with parent pointers 2 → 1 → 0, binding
    child 0 under parent 2 rediscovers 0 among the ancestors of 2. The node
    whose parent pointer is 0 is entity 1, so the original claim predicts
    entity 1 becomes parentless while the pointer of 2 stays on 1; the code
    instead detaches 2 itself: afterwards 2 is parentless and 1 still points
    at 0. -/
theorem C7_counterexample :
    c7_before.parentOf 2 = some 1 ∧ c7_before.parentOf 1 = some 0 ∧
    iterP c7_before.parentOf 2 2 = some 0 ∧
    ¬ (c7_after.parentOf 1 = none ∧ c7_after.parentOf 2 = c7_before.parentOf 2) ∧
    c7_after.parentOf 2 = none ∧ c7_after.parentOf 1 = some 0 := by
  decide

theorem C7_cycle_break_witness :
    (wfemB c7_before = true ∧ (2 : Nat) ≠ 0 ∧
      (c7_before.sparse.getD 2 none).isSome = true ∧
      (c7_before.sparse.getD 0 none).isSome = true ∧
      iterP c7_before.parentOf 2 2 = some 0) ∧
    ((c7_before.bind 2 0).parentOf 0 = some 2 ∧
      (c7_before.bind 2 0).parentOf 2 = none ∧
      ∀ x, x ≠ 0 → x ≠ 2 → (c7_before.bind 2 0).parentOf x = c7_before.parentOf x) :=
  ⟨⟨by decide, by decide, by decide, by decide, by decide⟩,
    C7_cycle_break c7_before 2 0 (by show wfemB c7_before = true; decide)
      (by decide) (by decide) (by decide) ⟨1, by decide⟩⟩



/- ------------------------------------------------------------------ -/
/- C9: spawn, destroy, spawn reuses the id with a reset record         -/
/- ------------------------------------------------------------------ -/

/-- Archetype::reset leaves no bit set. -/
theorem reset_has_false (a : Archetype) (i : Nat) : (a.reset).has i = false := by
  simp only [Archetype.reset, Archetype.has]
  have h0 : (List.replicate a.bytes.length 0).getD (i / BITS) 0 = 0 := by
    rw [List.getD_eq_getElem?_getD, List.getElem?_replicate]
    split
    · rfl
    · rfl
  rw [h0]
  simp

/-- C9: spawning an entity, destroying it (fresh, so childless and
    parentless), and spawning again yields the same id back, and its record
    is reset: the archetype has no bit set, the parent is none, and the
    child list is empty. Stated for any well formed starting manager: the
    first spawn produces a live record with no parent and no children
    (fresh, or recycled from the clean free list), destroy clears it onto
    the free list, and the next spawn pops that cleared record back. -/
theorem C9_spawn_reset (em : EntityManager) (hwf : WFem em) :
    ∃ d2 : EntityData,
      ((em.spawn.2.destroy em.spawn.1).spawn).1 = em.spawn.1 ∧
      ((em.spawn.2.destroy em.spawn.1).spawn).2.sparse.getD em.spawn.1 none
        = some d2 ∧
      (∀ i, d2.archetype.has i = false) ∧
      d2.parent = none ∧ d2.children = [] := by
  obtain ⟨e, em1, d, hsp, hd, hdp, hdd, hoe⟩ :
      ∃ e em1 d, em.spawn = (e, em1) ∧
        em1.sparse.getD e none = some d ∧ d.parent = none ∧ d.dense = [] ∧
        d.owner = e := by
    cases hlast : em.destroyed.getLast? with
    | none =>
      refine ⟨em.sparse.length,
        { em with sparse := em.sparse ++ [some (EntityData.new em.sparse.length)] },
        EntityData.new em.sparse.length, ?_, ?_, rfl, rfl, rfl⟩
      · unfold EntityManager.spawn
        rw [hlast]
      · show (em.sparse ++ [some (EntityData.new em.sparse.length)]).getD
          em.sparse.length none = _
        rw [List.getD_eq_getElem?_getD, List.getElem?_append_right (Nat.le_refl _)]
        simp
    | some d0 =>
      have hmem := mem_of_getLast?_eq hlast
      obtain ⟨hcl, hlt, _⟩ := WFem_destroyed hwf hmem
      simp only [clearedB, Bool.and_eq_true, beq_iff_eq, List.isEmpty_iff] at hcl
      refine ⟨d0.owner,
        { em with sparse := em.sparse.set d0.owner (some d0),
                  destroyed := em.destroyed.dropLast },
        d0, ?_, ?_, hcl.1.1.1, hcl.1.2, rfl⟩
      · unfold EntityManager.spawn
        rw [hlast]
      · show (em.sparse.set d0.owner (some d0)).getD d0.owner none = _
        exact getD_set_self _ _ _ _ hlt
  have he : e < em1.sparse.length := lt_length_of_getD_some hd
  have hdes : em1.destroy e =
      ⟨em1.sparse.set e none, em1.destroyed ++ [d.clear]⟩ := by
    unfold EntityManager.destroy
    simp only [hd, hdp]
    obtain ⟨f, hf⟩ : ∃ f, em1.sparse.length = f + 1 :=
      ⟨em1.sparse.length - 1,
        (Nat.succ_pred_eq_of_pos (Nat.lt_of_le_of_lt (Nat.zero_le e) he)).symm⟩
    rw [hf]
    unfold EntityManager.destroy_branch
    simp only [hd, hdd, List.foldl_nil]
  have hsp2 : ((⟨em1.sparse.set e none, em1.destroyed ++ [d.clear]⟩ :
      EntityManager)).spawn =
      (d.clear.owner,
        ⟨(em1.sparse.set e none).set d.clear.owner (some d.clear),
          (em1.destroyed ++ [d.clear]).dropLast⟩) := by
    unfold EntityManager.spawn
    rw [List.getLast?_concat]
  have hco : d.clear.owner = e := hoe
  refine ⟨d.clear, ?_, ?_, ?_, rfl, rfl⟩
  · simp only [hsp]
    rw [hdes, hsp2]
    exact hco
  · simp only [hsp]
    rw [hdes, hsp2, hco]
    show ((em1.sparse.set e none).set e (some d.clear)).getD e none = _
    exact getD_set_self _ _ _ _ (by rw [List.length_set]; exact he)
  · intro i
    exact reset_has_false d.archetype i

theorem C9_spawn_reset_witness :
    wfemB EntityManager.new = true ∧
    ∃ d2 : EntityData,
      ((EntityManager.new.spawn.2.destroy EntityManager.new.spawn.1).spawn).1
        = EntityManager.new.spawn.1 ∧
      ((EntityManager.new.spawn.2.destroy
          EntityManager.new.spawn.1).spawn).2.sparse.getD
        EntityManager.new.spawn.1 none = some d2 ∧
      (∀ i, d2.archetype.has i = false) ∧
      d2.parent = none ∧ d2.children = [] :=
  ⟨by decide, C9_spawn_reset EntityManager.new
    (by show wfemB EntityManager.new = true; decide)⟩

/- ------------------------------------------------------------------ -/
/- C8: destroy removes the whole subtree                               -/
/- ------------------------------------------------------------------ -/

/-- An acyclic chain reaches a fixed node after a unique number of steps. -/
theorem chain_unique {P : Nat → Option Nat} (hA : Acyclic P) {x y k1 k2 : Nat}
    (h1 : iterP P k1 x = some y) (h2 : iterP P k2 x = some y) : k1 = k2 := by
  rcases Nat.lt_trichotomy k1 k2 with h | h | h
  · exfalso
    have hadd := iterP_add P k1 (k2 - k1) x
    rw [(by omega : k1 + (k2 - k1) = k2)] at hadd
    rw [h2, h1, Option.some_bind] at hadd
    obtain ⟨m, hm⟩ : ∃ m, k2 - k1 = m + 1 := ⟨k2 - k1 - 1, by omega⟩
    rw [hm] at hadd
    exact hA y m hadd.symm
  · exact h
  · exfalso
    have hadd := iterP_add P k2 (k1 - k2) x
    rw [(by omega : k2 + (k1 - k2) = k1)] at hadd
    rw [h1, h2, Option.some_bind] at hadd
    obtain ⟨m, hm⟩ : ∃ m, k1 - k2 = m + 1 := ⟨k1 - k2 - 1, by omega⟩
    rw [hm] at hadd
    exact hA y m hadd.symm

/-- Subtrees rooted at distinct children of the same node are disjoint. -/
theorem desc_disjoint {P : Nat → Option Nat} (hA : Acyclic P) {c1 c2 y x : Nat}
    (h1 : P c1 = some y) (h2 : P c2 = some y) (hne : c1 ≠ c2)
    (hx1 : ∃ k, iterP P k x = some c1) (hx2 : ∃ k, iterP P k x = some c2) :
    False := by
  obtain ⟨k1, hk1⟩ := hx1
  obtain ⟨k2, hk2⟩ := hx2
  have e1 : iterP P (k1 + 1) x = some y := by
    rw [iterP_succ_right, hk1, Option.some_bind, h1]
  have e2 : iterP P (k2 + 1) x = some y := by
    rw [iterP_succ_right, hk2, Option.some_bind, h2]
  have hk : k1 = k2 := by
    have := chain_unique hA e1 e2
    omega
  rw [hk, hk2] at hk1
  exact hne (Option.some.inj hk1).symm

/-- Being a descendant of a child makes one a descendant of the node. -/
theorem desc_step {P : Nat → Option Nat} {x c y : Nat} (hc : P c = some y)
    (h : ∃ k, iterP P k x = some c) : ∃ k, iterP P k x = some y := by
  obtain ⟨k, hk⟩ := h
  exact ⟨k + 1, by rw [iterP_succ_right, hk, Option.some_bind, hc]⟩

/-- A node is never a descendant of one of its own children. -/
theorem not_desc_of_child {P : Nat → Option Nat} (hA : Acyclic P) {c y : Nat}
    (hc : P c = some y) : ¬ ∃ k, iterP P k y = some c := by
  rintro ⟨k, hk⟩
  have hcyc : iterP P (k + 1) y = some y := by
    rw [iterP_succ_right, hk, Option.some_bind, hc]
  exact hA y k hcyc

/-- The dense child list of a consistent record has no duplicates. -/
theorem sdrec_dense_nodup {d : EntityData} (h : sdrecB d = true) :
    d.dense.Nodup := by
  rw [List.nodup_iff_injective_get]
  intro i j hij
  have hgi : d.dense.getD i.val 0 = d.dense.get i := by
    rw [List.getD_eq_getElem?_getD, List.getElem?_eq_getElem i.isLt,
      List.get_eq_getElem]
    rfl
  have hgj : d.dense.getD j.val 0 = d.dense.get j := by
    rw [List.getD_eq_getElem?_getD, List.getElem?_eq_getElem j.isLt,
      List.get_eq_getElem]
    rfl
  have hi := sdrec_child_inv h i.isLt
  have hj := sdrec_child_inv h j.isLt
  rw [hgi, hij, ← hgj] at hi
  rw [hj] at hi
  exact Fin.ext (Option.some.inj hi).symm

/-- destroy_branch only ever clears slots: every slot is either unchanged or
    none afterwards. -/
theorem destroy_branch_slot_mono :
    ∀ fuel (em : EntityManager) (e x : Nat),
      (EntityManager.destroy_branch fuel em e).sparse.getD x none
        = em.sparse.getD x none ∨
      (EntityManager.destroy_branch fuel em e).sparse.getD x none = none := by
  intro fuel
  induction fuel with
  | zero => intro em e x; left; rfl
  | succ fuel ih =>
    intro em e x
    rw [EntityManager.destroy_branch]
    cases hv : em.sparse.getD e none with
    | none => left; rfl
    | some d =>
      have hbase : ({ em with sparse := em.sparse.set e none } :
          EntityManager).sparse.getD x none = em.sparse.getD x none ∨
          ({ em with sparse := em.sparse.set e none } :
          EntityManager).sparse.getD x none = none := by
        by_cases hx : x = e
        · right
          subst hx
          exact getD_set_self _ _ _ _ (lt_length_of_getD_some hv)
        · left
          exact getD_set_ne _ _ _ _ _ (fun h => hx h.symm)
      have hfold : ∀ (l : List Nat) (S : EntityManager),
          (l.foldl (EntityManager.destroy_branch fuel) S).sparse.getD x none
            = S.sparse.getD x none ∨
          (l.foldl (EntityManager.destroy_branch fuel) S).sparse.getD x none
            = none := by
        intro l
        induction l with
        | nil => intro S; left; rfl
        | cons a l ihl =>
          intro S
          rw [List.foldl_cons]
          rcases ihl (EntityManager.destroy_branch fuel S a) with h | h
          · rcases ih S a x with h2 | h2
            · left; rw [h, h2]
            · right; rw [h, h2]
          · right; exact h
      rcases hfold d.dense { em with sparse := em.sparse.set e none } with h | h
      · rcases hbase with h2 | h2
        · left; exact h.trans h2
        · right; exact h.trans h2
      · right; exact h

/-- Exact effect of destroy_branch, relative to a fixed base state B whose
    records the current state still agrees with on the whole subtree: every
    descendant slot is cleared, every other slot is untouched, and the
    cleared record of every descendant is appended to the free list. -/
theorem destroy_branch_exact (B : EntityManager) (rt : Nat)
    (hA : Acyclic B.parentOf)
    (hW3 : ∀ y dy c, (∃ m, iterP B.parentOf m y = some rt) →
      B.sparse.getD y none = some dy → c ∈ dy.dense → B.parentOf c = some y)
    (hW4 : ∀ u v dv, u ≠ rt → (∃ m, iterP B.parentOf m v = some rt) →
      B.parentOf u = some v → B.sparse.getD v none = some dv → u ∈ dv.dense)
    (hND : ∀ y dy, (∃ m, iterP B.parentOf m y = some rt) →
      B.sparse.getD y none = some dy → dy.dense.Nodup) :
    ∀ fuel (em' : EntityManager) (y : Nat) (dy : EntityData),
      B.sparse.getD y none = some dy →
      (∃ m, iterP B.parentOf m y = some rt) →
      (∀ u du, em'.sparse.getD u none = some du →
        B.sparse.getD u none = some du) →
      (∀ x k, iterP B.parentOf k x = some y →
        em'.sparse.getD x none = B.sparse.getD x none) →
      (∀ x k, iterP B.parentOf k x = some y → k < fuel) →
      (∀ x, (∃ k, iterP B.parentOf k x = some y) →
        (EntityManager.destroy_branch fuel em' y).sparse.getD x none = none) ∧
      (∀ x, ¬ (∃ k, iterP B.parentOf k x = some y) →
        (EntityManager.destroy_branch fuel em' y).sparse.getD x none
          = em'.sparse.getD x none) ∧
      (∃ l, (EntityManager.destroy_branch fuel em' y).destroyed
          = em'.destroyed ++ l ∧
        ∀ x, (∃ k, iterP B.parentOf k x = some y) →
          ∃ dx, B.sparse.getD x none = some dx ∧ dx.clear ∈ l) := by
  intro fuel
  induction fuel with
  | zero =>
    intro em' y dy hyB hyr hRE hpr hfuel
    exact absurd (hfuel y 0 rfl) (by omega)
  | succ fuel ih =>
    intro em' y dy hyB hyr hRE hpr hfuel
    have hy' : em'.sparse.getD y none = some dy := by
      rw [hpr y 0 rfl]
      exact hyB
    have hylt : y < em'.sparse.length := lt_length_of_getD_some hy'
    have hchild : ∀ c ∈ dy.dense, B.parentOf c = some y :=
      fun c hc => hW3 y dy c hyr hyB hc
    have hnd : dy.dense.Nodup := hND y dy hyr hyB
    rw [EntityManager.destroy_branch]
    simp only [hy']
    have hfold : ∀ (todo : List Nat), todo.Nodup →
        (∀ c ∈ todo, c ∈ dy.dense) →
        ∀ S : EntityManager,
        (∀ u du, S.sparse.getD u none = some du →
          B.sparse.getD u none = some du) →
        (∀ x c, c ∈ todo → (∃ k, iterP B.parentOf k x = some c) →
          S.sparse.getD x none = B.sparse.getD x none) →
        (∀ x, (∃ c, c ∈ todo ∧ ∃ k, iterP B.parentOf k x = some c) →
          (todo.foldl (EntityManager.destroy_branch fuel) S).sparse.getD x none
            = none) ∧
        (∀ x, ¬ (∃ c, c ∈ todo ∧ ∃ k, iterP B.parentOf k x = some c) →
          (todo.foldl (EntityManager.destroy_branch fuel) S).sparse.getD x none
            = S.sparse.getD x none) ∧
        (∃ l, (todo.foldl (EntityManager.destroy_branch fuel) S).destroyed
            = S.destroyed ++ l ∧
          ∀ x, (∃ c, c ∈ todo ∧ ∃ k, iterP B.parentOf k x = some c) →
            ∃ dx, B.sparse.getD x none = some dx ∧ dx.clear ∈ l) := by
      intro todo
      induction todo with
      | nil =>
        intro _ _ S hRE2 hpr2
        refine ⟨fun x hx => ?_, fun x _ => rfl, [], by simp, fun x hx => ?_⟩
        · obtain ⟨c, hc, _⟩ := hx
          exact absurd hc (by simp)
        · obtain ⟨c, hc, _⟩ := hx
          exact absurd hc (by simp)
      | cons c todo ihl =>
        intro hnd2 hsub S hRE2 hpr2
        obtain ⟨hcnin, hndt⟩ := List.nodup_cons.mp hnd2
        have hcy : B.parentOf c = some y := hchild c (hsub c (by simp))
        obtain ⟨dc, hdc, _⟩ := parentOf_some_elim hcy
        have hcyr : ∃ m, iterP B.parentOf m c = some rt := by
          obtain ⟨m, hm⟩ := hyr
          exact ⟨m + 1, by rw [iterP, hcy, Option.some_bind, hm]⟩
        have hfuelc : ∀ x k, iterP B.parentOf k x = some c → k < fuel := by
          intro x k hk
          have hky : iterP B.parentOf (k + 1) x = some y := by
            rw [iterP_succ_right, hk, Option.some_bind]
            exact hcy
          have := hfuel x (k + 1) hky
          omega
        have hprc : ∀ x k, iterP B.parentOf k x = some c →
            S.sparse.getD x none = B.sparse.getD x none := by
          intro x k hk
          exact hpr2 x c (by simp) ⟨k, hk⟩
        obtain ⟨K1, U1, l1, D1, C1⟩ := ih S c dc hdc hcyr hRE2 hprc hfuelc
        have hRE3 : ∀ u du,
            (EntityManager.destroy_branch fuel S c).sparse.getD u none
              = some du → B.sparse.getD u none = some du := by
          intro u du hu
          by_cases hdesc : ∃ k, iterP B.parentOf k u = some c
          · rw [K1 u hdesc] at hu
            exact absurd hu (by simp)
          · rw [U1 u hdesc] at hu
            exact hRE2 u du hu
        have hpr3 : ∀ x c2, c2 ∈ todo →
            (∃ k, iterP B.parentOf k x = some c2) →
            (EntityManager.destroy_branch fuel S c).sparse.getD x none
              = B.sparse.getD x none := by
          intro x c2 hc2 hx
          have hc2y : B.parentOf c2 = some y := hchild c2 (hsub c2 (by simp [hc2]))
          have hcc2 : c ≠ c2 := by
            intro he
            rw [he] at hcnin
            exact hcnin hc2
          have hnotdesc : ¬ ∃ k, iterP B.parentOf k x = some c := by
            intro hxc
            exact desc_disjoint hA hcy hc2y hcc2 hxc hx
          rw [U1 x hnotdesc]
          exact hpr2 x c2 (by simp [hc2]) hx
        obtain ⟨K2, U2, l2, D2, C2⟩ :=
          ihl hndt (fun c2 hc2 => hsub c2 (by simp [hc2]))
            (EntityManager.destroy_branch fuel S c) hRE3 hpr3
        rw [List.foldl_cons]
        refine ⟨?_, ?_, l1 ++ l2, ?_, ?_⟩
        · intro x hx
          obtain ⟨c2, hc2, hk⟩ := hx
          rcases List.mem_cons.mp hc2 with h | h
          · by_cases h2 : ∃ c3, c3 ∈ todo ∧ ∃ k, iterP B.parentOf k x = some c3
            · exact K2 x h2
            · rw [U2 x h2]
              rw [h] at hk
              exact K1 x hk
          · exact K2 x ⟨c2, h, hk⟩
        · intro x hx
          have hxc : ¬ ∃ k, iterP B.parentOf k x = some c :=
            fun h => hx ⟨c, by simp, h⟩
          have hxt : ¬ ∃ c2, c2 ∈ todo ∧ ∃ k, iterP B.parentOf k x = some c2 :=
            fun ⟨c2, h2, h3⟩ => hx ⟨c2, by simp [h2], h3⟩
          rw [U2 x hxt, U1 x hxc]
        · rw [D2, D1, List.append_assoc]
        · intro x hx
          obtain ⟨c2, hc2, hk⟩ := hx
          rcases List.mem_cons.mp hc2 with h | h
          · rw [h] at hk
            obtain ⟨dx, hdx, hmem⟩ := C1 x hk
            exact ⟨dx, hdx, List.mem_append_left _ hmem⟩
          · obtain ⟨dx, hdx, hmem⟩ := C2 x ⟨c2, h, hk⟩
            exact ⟨dx, hdx, List.mem_append_right _ hmem⟩
    have hS0RE : ∀ u du,
        ({ em' with sparse := em'.sparse.set y none } :
          EntityManager).sparse.getD u none = some du →
        B.sparse.getD u none = some du := by
      intro u du hu
      by_cases huy : u = y
      · subst huy
        rw [getD_set_self _ _ _ _ hylt] at hu
        exact absurd hu (by simp)
      · rw [getD_set_ne _ _ _ _ _ (fun h => huy h.symm)] at hu
        exact hRE u du hu
    have hS0pr : ∀ x c, c ∈ dy.dense →
        (∃ k, iterP B.parentOf k x = some c) →
        ({ em' with sparse := em'.sparse.set y none } :
          EntityManager).sparse.getD x none = B.sparse.getD x none := by
      intro x c hc hx
      have hcy := hchild c hc
      have hxy : ∃ k, iterP B.parentOf k x = some y := desc_step hcy hx
      have hxney : x ≠ y := by
        rintro rfl
        exact not_desc_of_child hA hcy hx
      show (em'.sparse.set y none).getD x none = B.sparse.getD x none
      rw [getD_set_ne _ _ _ _ _ (fun h => hxney h.symm)]
      obtain ⟨k, hk⟩ := hxy
      exact hpr x k hk
    obtain ⟨KF, UF, lf, DF, CF⟩ := hfold dy.dense hnd (fun c hc => hc)
      { em' with sparse := em'.sparse.set y none } hS0RE hS0pr
    have hynfold : ¬ ∃ c, c ∈ dy.dense ∧
        ∃ k, iterP B.parentOf k y = some c := by
      rintro ⟨c, hc, hdesc⟩
      exact not_desc_of_child hA (hchild c hc) hdesc
    refine ⟨?_, ?_, lf ++ [dy.clear], ?_, ?_⟩
    · rintro x ⟨k, hk⟩
      cases k with
      | zero =>
        have hxy : x = y := Option.some.inj hk
        subst hxy
        have h1 := UF x hynfold
        exact h1.trans (getD_set_self _ _ _ _ hylt)
      | succ m =>
        rw [iterP_succ_right] at hk
        cases hz : iterP B.parentOf m x with
        | none =>
          rw [hz] at hk
          exact absurd hk (by simp)
        | some z =>
          rw [hz, Option.some_bind] at hk
          have hzrt : z ≠ rt := by
            intro he
            rw [he] at hk
            obtain ⟨m0, hm0⟩ := hyr
            exact hA rt m0 (by rw [iterP, hk, Option.some_bind, hm0])
          have hzmem : z ∈ dy.dense := hW4 z y dy hzrt hyr hk hyB
          exact KF x ⟨z, hzmem, m, hz⟩
    · intro x hx
      have hnx : ¬ ∃ c, c ∈ dy.dense ∧
          ∃ k, iterP B.parentOf k x = some c := by
        rintro ⟨c, hc, hk⟩
        exact hx (desc_step (hchild c hc) hk)
      have hxy : x ≠ y := by
        rintro rfl
        exact hx ⟨0, rfl⟩
      have h1 := UF x hnx
      exact h1.trans (getD_set_ne _ _ _ _ _ (fun h => hxy h.symm))
    · show _ ++ [dy.clear] = em'.destroyed ++ (lf ++ [dy.clear])
      rw [DF, List.append_assoc]
    · rintro x ⟨k, hk⟩
      cases k with
      | zero =>
        have hxy : x = y := Option.some.inj hk
        subst hxy
        exact ⟨dy, hyB, List.mem_append_right _ (List.mem_singleton_self _)⟩
      | succ m =>
        rw [iterP_succ_right] at hk
        cases hz : iterP B.parentOf m x with
        | none =>
          rw [hz] at hk
          exact absurd hk (by simp)
        | some z =>
          rw [hz, Option.some_bind] at hk
          have hzrt : z ≠ rt := by
            intro he
            rw [he] at hk
            obtain ⟨m0, hm0⟩ := hyr
            exact hA rt m0 (by rw [iterP, hk, Option.some_bind, hm0])
          have hzmem : z ∈ dy.dense := hW4 z y dy hzrt hyr hk hyB
          obtain ⟨dx, hdx, hmem⟩ := CF x ⟨z, hzmem, m, hz⟩
          exact ⟨dx, hdx, List.mem_append_left _ hmem⟩

/-- What destroy does before recursing: it detaches the entity from its
    parent (if any) and then runs destroy_branch; the intermediate state
    agrees with the original on parents, length, free list, and on every
    slot in the subtree of the destroyed entity. -/
theorem destroy_eq_pack (em : EntityManager) (r : Nat) (d0 : EntityData)
    (hwf : WFem em) (hr : em.sparse.getD r none = some d0) :
    ∃ em1 : EntityManager,
      em.destroy r = EntityManager.destroy_branch em1.sparse.length em1 r ∧
      (∀ x, em1.parentOf x = em.parentOf x) ∧
      em1.sparse.length = em.sparse.length ∧
      em1.destroyed = em.destroyed ∧
      (∀ y, (∃ m, iterP em.parentOf m y = some r) →
        em1.sparse.getD y none = em.sparse.getD y none) ∧
      (∀ px pd, em.parentOf r = some px → em.sparse.getD px none = some pd →
        em1.sparse.getD px none = some (pd.remove_child r)) ∧
      (∀ y, ¬ (∃ m, iterP em.parentOf m y = some r) →
        em.parentOf r ≠ some y →
        em1.sparse.getD y none = em.sparse.getD y none) := by
  have hA := WFem_acyclic hwf
  cases hp : d0.parent with
  | none =>
    have hrn : em.parentOf r = none := (parentOf_eq_parent hr).trans hp
    refine ⟨em, ?_, fun x => rfl, rfl, rfl, fun y _ => rfl, ?_, fun y _ _ => rfl⟩
    · unfold EntityManager.destroy
      simp only [hr, hp]
    · intro px pd hpx _
      rw [hrn] at hpx
      exact absurd hpx (by simp)
  | some px =>
    have hrp : em.parentOf r = some px := (parentOf_eq_parent hr).trans hp
    refine ⟨em.updateSlot px (fun pd => pd.remove_child r), ?_,
      EntityManager.parentOf_updateSlot _ _ _ (fun pd => remove_child_parent pd r),
      EntityManager.updateSlot_length _ _ _,
      EntityManager.updateSlot_destroyed _ _ _, ?_, ?_, ?_⟩
    · unfold EntityManager.destroy
      simp only [hr, hp]
    · rintro y ⟨m, hm⟩
      have hynpx : y ≠ px := by
        rintro rfl
        exact hA r m (by rw [iterP, hrp, Option.some_bind, hm])
      exact EntityManager.updateSlot_getD_ne em px _ y hynpx
    · intro px2 pd hpx2 hpd
      rw [hrp] at hpx2
      have hpe : px2 = px := (Option.some.inj hpx2).symm
      rw [hpe] at hpd ⊢
      exact EntityManager.updateSlot_getD_self em px _ pd hpd
    · intro y _ hnp
      have hynpx : y ≠ px := by
        intro heq
        exact hnp (by rw [heq]; exact hrp)
      exact EntityManager.updateSlot_getD_ne em px _ y hynpx

/-- A cleared record passes the clean free list check. -/
theorem clearedB_clear (d : EntityData) : clearedB d.clear = true := by
  unfold clearedB EntityData.clear Archetype.reset
  have hb : (List.replicate d.archetype.bytes.length 0).all
      (fun b => b == 0) = true := by
    rw [List.all_eq_true]
    intro b hb
    rw [List.eq_of_mem_replicate hb]
    rfl
  simp [hb]

/-- C8: destroy(E) on a live entity detaches E from its parent if it has
    one (the parent's record afterwards is exactly its old record with the
    child E removed), kills E's whole subtree (E and every descendant along
    parent pointers is dead afterwards: get returns none), leaves every slot
    outside the subtree other than the parent's unchanged, and appends a
    cleared record with each destroyed id as owner onto the free list. -/
theorem C8_destroy_subtree (em : EntityManager) (r : Nat)
    (hwf : WFem em) (hr : (em.sparse.getD r none).isSome = true) :
    (∀ x, (∃ k, iterP em.parentOf k x = some r) →
      (em.destroy r).get x = none) ∧
    (∀ px pd, em.parentOf r = some px → em.sparse.getD px none = some pd →
      (em.destroy r).sparse.getD px none = some (pd.remove_child r)) ∧
    (∀ x, ¬ (∃ k, iterP em.parentOf k x = some r) →
      em.parentOf r ≠ some x →
      (em.destroy r).sparse.getD x none = em.sparse.getD x none) ∧
    (∃ l, (em.destroy r).destroyed = em.destroyed ++ l ∧
      ∀ x, (∃ k, iterP em.parentOf k x = some r) →
        ∃ dd, dd ∈ l ∧ dd.owner = x ∧ clearedB dd = true) := by
  obtain ⟨d0, hr0⟩ := Option.isSome_iff_exists.mp hr
  have hA := WFem_acyclic hwf
  have hPB := WFem_PB hwf
  obtain ⟨em1, heq, hPid, hlen, hdes, hsub, hdet, hout⟩ :=
    destroy_eq_pack em r d0 hwf hr0
  have hchain : ∀ k x, iterP em1.parentOf k x = iterP em.parentOf k x :=
    fun k x => iterP_congr hPid k x
  have hA1 : Acyclic em1.parentOf := acyclic_congr (fun x => (hPid x).symm) hA
  have hW3 : ∀ y dy c, (∃ m, iterP em1.parentOf m y = some r) →
      em1.sparse.getD y none = some dy → c ∈ dy.dense →
      em1.parentOf c = some y := by
    intro y dy c hyr hdy hc
    have hyrE : ∃ m, iterP em.parentOf m y = some r := by
      obtain ⟨m, hm⟩ := hyr
      exact ⟨m, by rw [← hchain m y]; exact hm⟩
    have hdyE : em.sparse.getD y none = some dy := by
      rw [← hsub y hyrE]
      exact hdy
    obtain ⟨i, hilt, hig⟩ := List.getElem_of_mem hc
    have hgD : dy.dense.getD i 0 = c := by
      rw [List.getD_eq_getElem?_getD, List.getElem?_eq_getElem hilt, hig]
      rfl
    have hsd := WFem_sdrec hwf hdyE
    have hinv := sdrec_child_inv hsd hilt
    rw [hgD] at hinv
    have hhc : dy.has_child c = true := by
      unfold EntityData.has_child
      rw [hinv]
      rfl
    obtain ⟨dc, hdc, hdcp⟩ := WFem_child_parent hwf hdyE hhc
    rw [hPid c, parentOf_eq_parent hdc, hdcp]
  have hW4 : ∀ u v dv, u ≠ r → (∃ m, iterP em1.parentOf m v = some r) →
      em1.parentOf u = some v → em1.sparse.getD v none = some dv →
      u ∈ dv.dense := by
    intro u v dv _ hvr hup hdv
    have hvrE : ∃ m, iterP em.parentOf m v = some r := by
      obtain ⟨m, hm⟩ := hvr
      exact ⟨m, by rw [← hchain m v]; exact hm⟩
    have hdvE : em.sparse.getD v none = some dv := by
      rw [← hsub v hvrE]
      exact hdv
    rw [hPid u] at hup
    obtain ⟨du, hdu, hdup⟩ := parentOf_some_elim hup
    obtain ⟨_, dq, hdq, hhcu⟩ := WFem_parent_child hwf hdu hdup
    rw [hdvE] at hdq
    have hdqv : dv = dq := Option.some.inj hdq
    rw [← hdqv] at hhcu
    obtain ⟨i, hi⟩ : ∃ i, dv.sparse.getD u none = some i := by
      unfold EntityData.has_child at hhcu
      exact Option.isSome_iff_exists.mp hhcu
    have hsd := WFem_sdrec hwf hdvE
    obtain ⟨hilt, hgi⟩ := sdrec_child_idx hsd hi
    rw [List.getD_eq_getElem?_getD, List.getElem?_eq_getElem hilt] at hgi
    simp only [Option.getD_some] at hgi
    exact List.getElem?_mem (by rw [List.getElem?_eq_getElem hilt, hgi])
  have hND : ∀ y dy, (∃ m, iterP em1.parentOf m y = some r) →
      em1.sparse.getD y none = some dy → dy.dense.Nodup := by
    intro y dy hyr hdy
    have hyrE : ∃ m, iterP em.parentOf m y = some r := by
      obtain ⟨m, hm⟩ := hyr
      exact ⟨m, by rw [← hchain m y]; exact hm⟩
    have hdyE : em.sparse.getD y none = some dy := by
      rw [← hsub y hyrE]
      exact hdy
    exact sdrec_dense_nodup (WFem_sdrec hwf hdyE)
  have hr1 : em1.sparse.getD r none = some d0 := by
    rw [hsub r ⟨0, rfl⟩]
    exact hr0
  have hfuel1 : ∀ x k, iterP em1.parentOf k x = some r →
      k < em1.sparse.length := by
    intro x k hk
    rw [hchain k x] at hk
    rw [hlen]
    cases k with
    | zero => exact Nat.lt_of_le_of_lt (Nat.zero_le _) (lt_length_of_getD_some hr0)
    | succ m =>
      obtain ⟨y1, hy1⟩ := iterP_prefix (show 1 ≤ m + 1 by omega) hk
      have hone : iterP em.parentOf 1 x = em.parentOf x := by
        rw [iterP]
        cases em.parentOf x with
        | none => rfl
        | some a => rw [Option.some_bind]; rfl
      rw [hone] at hy1
      obtain ⟨dx, hdx, _⟩ := parentOf_some_elim hy1
      have hxlt : x < em.sparse.length := lt_length_of_getD_some hdx
      have := distinct_chain_bound hA hPB hxlt
        (fun j hj => iterP_prefix hj hk)
      omega
  obtain ⟨K, U, l, D, C⟩ := destroy_branch_exact em1 r hA1 hW3 hW4 hND
    em1.sparse.length em1 r d0 hr1 ⟨0, rfl⟩ (fun u du h => h)
    (fun x k _ => rfl) hfuel1
  rw [heq]
  refine ⟨?_, ?_, ?_, l, ?_, ?_⟩
  · intro x hx
    have hx1 : ∃ k, iterP em1.parentOf k x = some r := by
      obtain ⟨k, hk⟩ := hx
      exact ⟨k, by rw [hchain k x]; exact hk⟩
    exact K x hx1
  · intro px pd hpx hpd
    have hnpx : ¬ ∃ k, iterP em.parentOf k px = some r := by
      rintro ⟨k, hk⟩
      exact hA r k (by rw [iterP, hpx, Option.some_bind, hk])
    have hx1 : ¬ ∃ k, iterP em1.parentOf k px = some r := by
      rintro ⟨k, hk⟩
      exact hnpx ⟨k, by rw [← hchain k px]; exact hk⟩
    have hU := U px hx1
    exact hU.trans (hdet px pd hpx hpd)
  · intro x hx hnp
    have hx1 : ¬ ∃ k, iterP em1.parentOf k x = some r := by
      rintro ⟨k, hk⟩
      exact hx ⟨k, by rw [← hchain k x]; exact hk⟩
    have hU := U x hx1
    exact hU.trans (hout x hx hnp)
  · rw [D, hdes]
  · intro x hx
    have hx1 : ∃ k, iterP em1.parentOf k x = some r := by
      obtain ⟨k, hk⟩ := hx
      exact ⟨k, by rw [hchain k x]; exact hk⟩
    obtain ⟨dx, hdx, hmem⟩ := C x hx1
    have hdxE : em.sparse.getD x none = some dx := by
      rw [← hsub x hx]
      exact hdx
    have how : dx.owner = x := WFem_owner hwf hdxE
    exact ⟨dx.clear, hmem, how, clearedB_clear dx⟩

/-- Three spawned entities for the C8 witness. -/
def c8_setup : EntityManager := (((EntityManager.new.spawn).2.spawn).2.spawn).2

/-- Chain 0 ← 1 ← 2 (entity 1 is a child of 0, entity 2 a child of 1). -/
def c8_em : EntityManager := (c8_setup.bind 0 1).bind 1 2

theorem C8_destroy_subtree_witness :
    (wfemB c8_em = true ∧ (c8_em.sparse.getD 1 none).isSome = true) ∧
    ((∀ x, (∃ k, iterP c8_em.parentOf k x = some 1) →
        (c8_em.destroy 1).get x = none) ∧
      (∀ px pd, c8_em.parentOf 1 = some px →
        c8_em.sparse.getD px none = some pd →
        (c8_em.destroy 1).sparse.getD px none = some (pd.remove_child 1)) ∧
      (∀ x, ¬ (∃ k, iterP c8_em.parentOf k x = some 1) →
        c8_em.parentOf 1 ≠ some x →
        (c8_em.destroy 1).sparse.getD x none = c8_em.sparse.getD x none) ∧
      (∃ l, (c8_em.destroy 1).destroyed = c8_em.destroyed ++ l ∧
        ∀ x, (∃ k, iterP c8_em.parentOf k x = some 1) →
          ∃ dd, dd ∈ l ∧ dd.owner = x ∧ clearedB dd = true)) :=
  ⟨⟨by decide, by decide⟩,
    C8_destroy_subtree c8_em 1 (by show wfemB c8_em = true; decide) (by decide)⟩

/- ------------------------------------------------------------------ -/
/- Archetype bit lemmas for the Manager cross invariant (C1, C5)       -/
/- ------------------------------------------------------------------ -/

/-- No stray bit: every set bit lies below count. Holds for every archetype
    the code builds. -/
def Tidy (a : Archetype) : Prop := ∀ k, a.bit k = true → k < a.count

theorem and_two_pow_bne (x k : Nat) : (x &&& 2 ^ k != 0) = x.testBit k := by
  cases htb : x.testBit k
  · have h0 : x &&& 2 ^ k = 0 := by
      apply Nat.eq_of_testBit_eq
      intro j
      rw [Nat.testBit_and, Nat.zero_testBit]
      by_cases hj : j = k
      · subst hj
        rw [htb]
        rfl
      · rw [Nat.testBit_two_pow_of_ne (fun h => hj h.symm)]
        simp
    rw [h0]
    rfl
  · have hne : x &&& 2 ^ k ≠ 0 := by
      intro h0
      have hcontra := congrArg (fun n => n.testBit k) h0
      simp only [Nat.testBit_and, htb, Nat.testBit_two_pow_self,
        Nat.zero_testBit, Bool.and_self] at hcontra
      exact Bool.noConfusion hcontra
    exact bne_iff_ne.mpr hne

theorem has_eq_bit (a : Archetype) (id : Nat) :
    a.has id = (decide (id < a.count) && a.bit id) := by
  unfold Archetype.has Archetype.bit
  rw [Nat.shiftLeft_eq, one_mul, and_two_pow_bne]

theorem has_lt_count {a : Archetype} {id : Nat} (h : a.has id = true) :
    id < a.count := by
  rw [has_eq_bit, Bool.and_eq_true, decide_eq_true_iff] at h
  exact h.1

theorem bitfree_has {a : Archetype} (h : ∀ k, a.bit k = false) (id : Nat) :
    a.has id = false := by
  rw [has_eq_bit, h id, Bool.and_false]

theorem has_new (j : Nat) : Archetype.new.has j = false := by
  simp [Archetype.has, Archetype.new]

theorem Tidy_new : Tidy Archetype.new := by
  intro k hk
  simp [Archetype.bit, Archetype.new, Nat.zero_testBit] at hk

theorem WFa_new : Archetype.new.WFa := by decide

theorem resizeZero_getD (l : List Nat) (n j : Nat) (h : l.length ≤ n) :
    (resizeZero l n).getD j 0 = l.getD j 0 := by
  unfold resizeZero
  rw [List.take_of_length_le h]
  by_cases hj : j < l.length
  · rw [List.getD_eq_getElem?_getD, List.getElem?_append_left hj,
      ← List.getD_eq_getElem?_getD]
  · rw [getD_eq_zero_of_ge (Nat.le_of_not_lt hj),
      List.getD_eq_getElem?_getD,
      List.getElem?_append_right (Nat.le_of_not_lt hj),
      List.getElem?_replicate]
    split
    · rfl
    · rfl

theorem length_resizeZero (l : List Nat) (n : Nat) (h : l.length ≤ n) :
    (resizeZero l n).length = n := by
  unfold resizeZero
  rw [List.take_of_length_le h]
  simp
  omega

theorem divCeil_succ (id : Nat) : divCeil (id + 1) BITS = id / BITS + 1 := by
  unfold divCeil BITS
  have h : id + 1 + 64 - 1 = id + 64 := by omega
  rw [h, Nat.add_div_right _ (by norm_num)]

theorem div_mod_ne {j id B : Nat} (hB : 0 < B) (hne : j ≠ id)
    (hdiv : j / B = id / B) : j % B ≠ id % B := by
  intro hmod
  have h1 := Nat.div_add_mod j B
  have h2 := Nat.div_add_mod id B
  rw [hdiv, hmod] at h1
  exact hne (by omega)

theorem mod_BITS_lt (id : Nat) : id % BITS < BITS :=
  Nat.mod_lt _ (by norm_num [BITS])

theorem add_bytes_getD (a : Archetype) (id j : Nat) (ha : a.WFa) :
    (a.add id).bytes.getD j 0 =
      if j = id / BITS then
        (a.bytes.getD (id / BITS) 0) ||| 2 ^ (id % BITS)
      else a.bytes.getD j 0 := by
  unfold Archetype.add
  by_cases hc : a.count ≤ id
  · simp only [if_pos hc]
    have hlen : a.bytes.length ≤ divCeil (id + 1) BITS := by
      rw [ha.1]
      exact divCeil_le_divCeil (by omega)
    have hG : ∀ k, (resizeZero a.bytes (divCeil (id + 1) BITS)).getD k 0
        = a.bytes.getD k 0 := fun k => resizeZero_getD _ _ _ hlen
    have hseg : id / BITS < (resizeZero a.bytes (divCeil (id + 1) BITS)).length := by
      rw [length_resizeZero _ _ hlen, divCeil_succ]
      omega
    by_cases hj : j = id / BITS
    · subst hj
      rw [if_pos rfl]
      show ((resizeZero a.bytes (divCeil (id + 1) BITS)).set (id / BITS)
        ((resizeZero a.bytes (divCeil (id + 1) BITS)).getD (id / BITS) 0 |||
          1 <<< (id % BITS))).getD (id / BITS) 0 = _
      rw [getD_set_self _ _ _ _ hseg, hG, Nat.shiftLeft_eq, one_mul]
    · rw [if_neg hj]
      show ((resizeZero a.bytes (divCeil (id + 1) BITS)).set (id / BITS) _).getD
        j 0 = _
      rw [getD_set_ne _ _ _ _ _ (fun h => hj h.symm), hG]
  · simp only [if_neg hc]
    have hseg : id / BITS < a.bytes.length := by
      rw [ha.1]
      have h2 : divCeil (id + 1) BITS ≤ divCeil a.count BITS :=
        divCeil_le_divCeil (by omega)
      rw [divCeil_succ] at h2
      omega
    by_cases hj : j = id / BITS
    · subst hj
      rw [if_pos rfl]
      show (a.bytes.set (id / BITS)
        (a.bytes.getD (id / BITS) 0 ||| 1 <<< (id % BITS))).getD (id / BITS) 0 = _
      rw [getD_set_self _ _ _ _ hseg, Nat.shiftLeft_eq, one_mul]
    · rw [if_neg hj]
      show (a.bytes.set (id / BITS) _).getD j 0 = _
      rw [getD_set_ne _ _ _ _ _ (fun h => hj h.symm)]

theorem count_add (a : Archetype) (id : Nat) :
    (a.add id).count = if a.count ≤ id then id + 1 else a.count := by
  unfold Archetype.add
  by_cases hc : a.count ≤ id
  · simp [hc]
  · simp [hc]

theorem bit_add (a : Archetype) (id j : Nat) (ha : a.WFa) :
    (a.add id).bit j = if j = id then true else a.bit j := by
  unfold Archetype.bit
  rw [add_bytes_getD a id (j / BITS) ha]
  by_cases hj : j = id
  · subst hj
    rw [if_pos rfl, if_pos rfl, Nat.testBit_or, Nat.testBit_two_pow_self,
      Bool.or_true]
  · rw [if_neg hj]
    by_cases hdj : j / BITS = id / BITS
    · rw [if_pos hdj, hdj, Nat.testBit_or,
        Nat.testBit_two_pow_of_ne
          (fun h => div_mod_ne (by norm_num [BITS]) hj hdj h.symm),
        Bool.or_false]
    · rw [if_neg hdj]

theorem resizeZero_mem {l : List Nat} {n b : Nat} (h : l.length ≤ n)
    (hb : b ∈ resizeZero l n) : b ∈ l ∨ b = 0 := by
  unfold resizeZero at hb
  rw [List.take_of_length_le h] at hb
  rcases List.mem_append.mp hb with h1 | h1
  · exact Or.inl h1
  · exact Or.inr (List.eq_of_mem_replicate h1)

theorem WFa_add (a : Archetype) (id : Nat) (ha : a.WFa) : (a.add id).WFa := by
  by_cases hc : a.count ≤ id
  · have hlen : a.bytes.length ≤ divCeil (id + 1) BITS := by
      rw [ha.1]
      exact divCeil_le_divCeil (by omega)
    have hmem : ∀ b ∈ resizeZero a.bytes (divCeil (id + 1) BITS), b < 2 ^ BITS := by
      intro b hb
      rcases resizeZero_mem hlen hb with h | h
      · exact ha.2 b h
      · rw [h]
        positivity
    constructor
    · unfold Archetype.add
      simp only [if_pos hc]
      show ((resizeZero a.bytes (divCeil (id + 1) BITS)).set _ _).length
        = divCeil (id + 1) BITS
      rw [List.length_set, length_resizeZero _ _ hlen]
    · intro b hb
      unfold Archetype.add at hb
      simp only [if_pos hc] at hb
      rcases List.mem_or_eq_of_mem_set hb with h | h
      · exact hmem b h
      · rw [h, Nat.shiftLeft_eq, one_mul]
        exact Nat.or_lt_two_pow (getD_lt_two_pow hmem _)
          (Nat.pow_lt_pow_right (by norm_num) (mod_BITS_lt id))
  · constructor
    · unfold Archetype.add
      simp only [if_neg hc]
      show (a.bytes.set _ _).length = divCeil a.count BITS
      rw [List.length_set, ha.1]
    · intro b hb
      unfold Archetype.add at hb
      simp only [if_neg hc] at hb
      rcases List.mem_or_eq_of_mem_set hb with h | h
      · exact ha.2 b h
      · rw [h, Nat.shiftLeft_eq, one_mul]
        exact Nat.or_lt_two_pow (getD_lt_two_pow ha.2 _)
          (Nat.pow_lt_pow_right (by norm_num) (mod_BITS_lt id))

theorem Tidy_add (a : Archetype) (id : Nat) (ha : a.WFa) (ht : Tidy a) :
    Tidy (a.add id) := by
  intro k hk
  rw [bit_add a id k ha] at hk
  rw [count_add]
  by_cases hki : k = id
  · subst hki
    split
    · omega
    · omega
  · rw [if_neg hki] at hk
    have := ht k hk
    split
    · omega
    · omega

theorem remove_noop (a : Archetype) (id : Nat) (h : ¬ id < a.count) :
    a.remove id = a := by
  unfold Archetype.remove
  rw [if_neg h]

theorem count_remove (a : Archetype) (id : Nat) :
    (a.remove id).count = a.count := by
  unfold Archetype.remove
  split
  · rfl
  · rfl

theorem remove_bytes_getD (a : Archetype) (id j : Nat) (ha : a.WFa)
    (hlt : id < a.count) :
    (a.remove id).bytes.getD j 0 =
      if j = id / BITS then
        (a.bytes.getD (id / BITS) 0) &&& (2 ^ BITS - 1 ^^^ 2 ^ (id % BITS))
      else a.bytes.getD j 0 := by
  unfold Archetype.remove
  rw [if_pos hlt]
  have hseg : id / BITS < a.bytes.length := by
    rw [ha.1]
    have h2 : divCeil (id + 1) BITS ≤ divCeil a.count BITS :=
      divCeil_le_divCeil (by omega)
    rw [divCeil_succ] at h2
    omega
  by_cases hj : j = id / BITS
  · subst hj
    rw [if_pos rfl]
    show (a.bytes.set (id / BITS) _).getD (id / BITS) 0 = _
    rw [getD_set_self _ _ _ _ hseg, Nat.shiftLeft_eq, one_mul]
  · rw [if_neg hj]
    show (a.bytes.set (id / BITS) _).getD j 0 = _
    rw [getD_set_ne _ _ _ _ _ (fun h => hj h.symm)]

theorem bit_remove_self (a : Archetype) (id : Nat) (ha : a.WFa)
    (hlt : id < a.count) : (a.remove id).bit id = false := by
  unfold Archetype.bit
  rw [remove_bytes_getD a id (id / BITS) ha hlt, if_pos rfl,
    Nat.testBit_and, Nat.testBit_xor, Nat.testBit_two_pow_sub_one,
    Nat.testBit_two_pow_self]
  have hb := mod_BITS_lt id
  simp [hb]

theorem bit_remove_ne (a : Archetype) (id j : Nat) (ha : a.WFa)
    (hlt : id < a.count) (hne : j ≠ id) :
    (a.remove id).bit j = a.bit j := by
  unfold Archetype.bit
  rw [remove_bytes_getD a id (j / BITS) ha hlt]
  by_cases hdj : j / BITS = id / BITS
  · have hmm : id % BITS ≠ j % BITS :=
      fun h => div_mod_ne (by norm_num [BITS]) hne hdj h.symm
    rw [if_pos hdj, hdj, Nat.testBit_and, Nat.testBit_xor,
      Nat.testBit_two_pow_sub_one, Nat.testBit_two_pow_of_ne hmm]
    have hb := mod_BITS_lt j
    simp [hb]
  · rw [if_neg hdj]

theorem WFa_remove (a : Archetype) (id : Nat) (ha : a.WFa) :
    (a.remove id).WFa := by
  by_cases hlt : id < a.count
  · constructor
    · unfold Archetype.remove
      rw [if_pos hlt]
      show (a.bytes.set _ _).length = divCeil a.count BITS
      rw [List.length_set, ha.1]
    · intro b hb
      unfold Archetype.remove at hb
      rw [if_pos hlt] at hb
      rcases List.mem_or_eq_of_mem_set hb with h | h
      · exact ha.2 b h
      · rw [h]
        exact Nat.lt_of_le_of_lt Nat.and_le_left (getD_lt_two_pow ha.2 _)
  · rw [remove_noop a id hlt]
    exact ha

theorem Tidy_remove (a : Archetype) (id : Nat) (ha : a.WFa) (ht : Tidy a) :
    Tidy (a.remove id) := by
  intro k hk
  rw [count_remove]
  by_cases hlt : id < a.count
  · by_cases hki : k = id
    · subst hki
      rw [bit_remove_self a k ha hlt] at hk
      exact Bool.noConfusion hk
    · rw [bit_remove_ne a id k ha hlt hki] at hk
      exact ht k hk
  · rw [remove_noop a id hlt] at hk
    exact ht k hk

theorem has_add_self (a : Archetype) (id : Nat) (ha : a.WFa) :
    (a.add id).has id = true := by
  rw [has_eq_bit, bit_add a id id ha, if_pos rfl, Bool.and_true, count_add,
    decide_eq_true_iff]
  split
  · omega
  · omega

theorem has_add_ne (a : Archetype) (id j : Nat) (ha : a.WFa) (ht : Tidy a)
    (hne : j ≠ id) : (a.add id).has j = a.has j := by
  rw [has_eq_bit, has_eq_bit, bit_add a id j ha, if_neg hne, count_add]
  by_cases hbit : a.bit j = true
  · have hj := ht j hbit
    rw [hbit, Bool.and_true, Bool.and_true]
    have h1 : j < (if a.count ≤ id then id + 1 else a.count) := by
      split
      · omega
      · omega
    rw [decide_eq_true h1, decide_eq_true hj]
  · have hbf : a.bit j = false := by
      cases h : a.bit j
      · rfl
      · exact absurd h hbit
    rw [hbf, Bool.and_false, Bool.and_false]

theorem has_remove_self (a : Archetype) (id : Nat) (ha : a.WFa) :
    (a.remove id).has id = false := by
  by_cases hlt : id < a.count
  · rw [has_eq_bit, bit_remove_self a id ha hlt, Bool.and_false]
  · rw [remove_noop a id hlt, has_eq_bit, decide_eq_false hlt, Bool.false_and]

theorem has_remove_ne (a : Archetype) (id j : Nat) (ha : a.WFa) (hne : j ≠ id) :
    (a.remove id).has j = a.has j := by
  by_cases hlt : id < a.count
  · rw [has_eq_bit, has_eq_bit, bit_remove_ne a id j ha hlt hne, count_remove]
  · rw [remove_noop a id hlt]

theorem bit_reset (a : Archetype) (k : Nat) : (a.reset).bit k = false := by
  unfold Archetype.bit Archetype.reset
  have h0 : (List.replicate a.bytes.length 0).getD (k / BITS) 0 = 0 := by
    rw [List.getD_eq_getElem?_getD, List.getElem?_replicate]
    split
    · rfl
    · rfl
  rw [h0, Nat.zero_testBit]

theorem WFa_reset (a : Archetype) (ha : a.WFa) : (a.reset).WFa := by
  constructor
  · show (List.replicate a.bytes.length 0).length = divCeil a.count BITS
    rw [List.length_replicate, ha.1]
  · intro b hb
    rw [List.eq_of_mem_replicate hb]
    positivity

theorem Tidy_reset (a : Archetype) : Tidy (a.reset) := by
  intro k hk
  rw [bit_reset] at hk
  exact Bool.noConfusion hk

/- ------------------------------------------------------------------ -/
/- ComponentPool insert lemmas (for the Manager embedding)             -/
/- ------------------------------------------------------------------ -/

theorem getD_snoc_lt {T : Type} (l : List T) (v d : T) (j : Nat)
    (h : j < l.length) : (l ++ [v]).getD j d = l.getD j d := by
  rw [List.getD_eq_getElem?_getD, List.getElem?_append_left h,
    ← List.getD_eq_getElem?_getD]

theorem getD_snoc_self {T : Type} (l : List T) (v d : T) :
    (l ++ [v]).getD l.length d = v := by
  rw [List.getD_eq_getElem?_getD, List.getElem?_append_right (Nat.le_refl _)]
  simp

theorem pool_has_new {T : Type} (e : Nat) :
    (ComponentPool.new (T := T)).has e = false := by
  simp [ComponentPool.has, ComponentPool.new]

theorem pool_remove_noop {T : Type} (p : ComponentPool T) (e : Nat)
    (h : p.sparse.getD e none = none) : p.remove e = (none, p) := by
  unfold ComponentPool.remove
  simp only [h]

theorem pool_has_false_iff {T : Type} (p : ComponentPool T) (e : Nat) :
    p.has e = false ↔ p.sparse.getD e none = none := by
  unfold ComponentPool.has
  cases p.sparse.getD e none <;> simp

theorem WFp_new {T : Type} : (ComponentPool.new (T := T)).WFp := by
  refine ⟨rfl, fun e => ?_, fun i hi => ?_⟩
  · exact ComponentPool.slotOk_of_ge _ _ (by simp [ComponentPool.new])
  · simp [ComponentPool.new] at hi


theorem pad_none_getD {T : Type} (l : List (Option T)) (n x : Nat) :
    (l ++ List.replicate n none).getD x none = l.getD x none := by
  by_cases hx : x < l.length
  · rw [List.getD_eq_getElem?_getD, List.getElem?_append_left hx,
      ← List.getD_eq_getElem?_getD]
  · rw [getD_of_ge _ _ _ (Nat.le_of_not_lt hx), List.getD_eq_getElem?_getD,
      List.getElem?_append_right (Nat.le_of_not_lt hx), List.getElem?_replicate]
    split
    · rfl
    · rfl

/-- Appending to a pool that does not hold the owner: nothing is returned,
    the owner gains the component, all other owners are untouched, and the
    sparse set invariant is preserved. -/
theorem insert_facts {T : Type} (p : ComponentPool T) (e : Nat) (c : T)
    (hwf : p.WFp) (hnot : p.sparse.getD e none = none) :
    (p.insert e c).1 = none ∧
    (p.insert e c).2.has e = true ∧
    (∀ x, x ≠ e → (p.insert e c).2.has x = p.has x) ∧
    (p.insert e c).2.WFp := by
  obtain ⟨hlen, hslots, hinv⟩ := hwf
  obtain ⟨r, hr, hre, hrx, hrwf⟩ :
      ∃ r : ComponentPool T, p.insert e c = (none, r) ∧
        r.has e = true ∧ (∀ x, x ≠ e → r.has x = p.has x) ∧ r.WFp := by
    unfold ComponentPool.insert
    by_cases hg : p.sparse.length ≤ e
    · simp only [if_pos hg]
      have hspe : (p.sparse ++
          List.replicate (e + 1 - p.sparse.length) none).getD e none = none := by
        rw [pad_none_getD]
        exact hnot
      have hsplen : e < (p.sparse ++
          List.replicate (e + 1 - p.sparse.length) none).length := by
        rw [List.length_append, List.length_replicate]
        omega
      simp only [hspe]
      refine ⟨_, rfl, ?_, ?_, ?_, ?_, ?_⟩
      · show (((p.sparse ++ List.replicate (e + 1 - p.sparse.length) none).set e
          (some p.dense.length)).getD e none).isSome = true
        rw [getD_set_self _ _ _ _ hsplen]
        rfl
      · intro x hx
        show (((p.sparse ++ List.replicate (e + 1 - p.sparse.length) none).set e
          (some p.dense.length)).getD x none).isSome = (p.sparse.getD x none).isSome
        rw [getD_set_ne _ _ _ _ _ (fun h => hx h.symm), pad_none_getD]
      · show (p.owners ++ [e]).length = (p.dense ++ [c]).length
        simp [hlen]
      · intro x
        unfold ComponentPool.slotOk
        by_cases hx : x = e
        · rw [hx, getD_set_self _ _ _ _ hsplen]
          refine ⟨by simp, ?_⟩
          show (p.owners ++ [e]).getD p.dense.length 0 = e
          rw [← hlen, getD_snoc_self]
        · rw [getD_set_ne _ _ _ _ _ (fun h => hx h.symm), pad_none_getD]
          cases hv : p.sparse.getD x none with
          | none => exact trivial
          | some i =>
            obtain ⟨hi1, hi2⟩ := slotOk_some (hslots x) hv
            refine ⟨by simp; omega, ?_⟩
            show (p.owners ++ [e]).getD i 0 = x
            rw [getD_snoc_lt _ _ _ _ (by omega), hi2]
      · intro i hi
        simp only [List.length_append, List.length_cons, List.length_nil] at hi
        by_cases hie : i = p.dense.length
        · subst hie
          show ((p.sparse ++ List.replicate (e + 1 - p.sparse.length) none).set e
            (some p.dense.length)).getD
              ((p.owners ++ [e]).getD p.dense.length 0) none = some p.dense.length
          rw [← hlen, getD_snoc_self, hlen, getD_set_self _ _ _ _ hsplen]
        · have hilt : i < p.dense.length := by omega
          show ((p.sparse ++ List.replicate (e + 1 - p.sparse.length) none).set e
            (some p.dense.length)).getD ((p.owners ++ [e]).getD i 0) none = some i
          rw [getD_snoc_lt _ _ _ _ (by omega)]
          have hne : p.owners.getD i 0 ≠ e := by
            intro heq
            have := hinv i hilt
            rw [heq, hnot] at this
            exact Option.noConfusion this
          rw [getD_set_ne _ _ _ _ _ (fun h => hne h.symm), pad_none_getD]
          exact hinv i hilt
    · simp only [if_neg hg]
      have hsplen : e < p.sparse.length := Nat.lt_of_not_le hg
      simp only [hnot]
      refine ⟨_, rfl, ?_, ?_, ?_, ?_, ?_⟩
      · show ((p.sparse.set e (some p.dense.length)).getD e none).isSome = true
        rw [getD_set_self _ _ _ _ hsplen]
        rfl
      · intro x hx
        show ((p.sparse.set e (some p.dense.length)).getD x none).isSome
          = (p.sparse.getD x none).isSome
        rw [getD_set_ne _ _ _ _ _ (fun h => hx h.symm)]
      · show (p.owners ++ [e]).length = (p.dense ++ [c]).length
        simp [hlen]
      · intro x
        unfold ComponentPool.slotOk
        by_cases hx : x = e
        · rw [hx, getD_set_self _ _ _ _ hsplen]
          refine ⟨by simp, ?_⟩
          show (p.owners ++ [e]).getD p.dense.length 0 = e
          rw [← hlen, getD_snoc_self]
        · rw [getD_set_ne _ _ _ _ _ (fun h => hx h.symm)]
          cases hv : p.sparse.getD x none with
          | none => exact trivial
          | some i =>
            obtain ⟨hi1, hi2⟩ := slotOk_some (hslots x) hv
            refine ⟨by simp; omega, ?_⟩
            show (p.owners ++ [e]).getD i 0 = x
            rw [getD_snoc_lt _ _ _ _ (by omega), hi2]
      · intro i hi
        simp only [List.length_append, List.length_cons, List.length_nil] at hi
        by_cases hie : i = p.dense.length
        · subst hie
          show (p.sparse.set e (some p.dense.length)).getD
              ((p.owners ++ [e]).getD p.dense.length 0) none = some p.dense.length
          rw [← hlen, getD_snoc_self, hlen, getD_set_self _ _ _ _ hsplen]
        · have hilt : i < p.dense.length := by omega
          show (p.sparse.set e (some p.dense.length)).getD
            ((p.owners ++ [e]).getD i 0) none = some i
          rw [getD_snoc_lt _ _ _ _ (by omega)]
          have hne : p.owners.getD i 0 ≠ e := by
            intro heq
            have := hinv i hilt
            rw [heq, hnot] at this
            exact Option.noConfusion this
          rw [getD_set_ne _ _ _ _ _ (fun h => hne h.symm)]
          exact hinv i hilt
  rw [hr]
  exact ⟨rfl, hre, hrx, hrwf⟩

/- ------------------------------------------------------------------ -/
/- ComponentManager (src/src/ecs/component_manager.rs) and             -/
/- Manager (src/src/ecs/manager.rs)                                    -/
/- ------------------------------------------------------------------ -/

/-- Component type registry plus one pool per registered type. Rust keys
    pools by TypeId; types are rendered as Nat tokens and every component
    value as a Nat, since component values are opaque to this logic. -/
structure ComponentManager where
  ids : List (Nat × Nat)
  pools : List (ComponentPool Nat)
deriving DecidableEq

namespace ComponentManager

def new : ComponentManager := ⟨[], []⟩

/-- ComponentManager::id. -/
def id (cm : ComponentManager) (t : Nat) : Option Nat :=
  (cm.ids.find? (fun pr => pr.1 == t)).map Prod.snd

/-- ComponentManager::register (the entry().or_insert_with pattern); also
    stands for the id_or_register the manager calls, which the spec
    section 4.2 equates with register. -/
def register (cm : ComponentManager) (t : Nat) : Nat × ComponentManager :=
  match cm.id t with
  | some i => (i, cm)
  | none => (cm.pools.length,
      { ids := cm.ids ++ [(t, cm.pools.length)],
        pools := cm.pools ++ [ComponentPool.new] })

/-- Modelled from the spec: ComponentManager::add is called by
    Manager::add_component but is absent from component_manager.rs. Spec
    sections 4.2 and 7 fix its contract: it rejects when the entity already
    owns a component of that type, returning the component to the caller
    with no state change, and otherwise stores it. -/
def add (cm : ComponentManager) (t owner component : Nat) :
    Except Nat ComponentManager :=
  match cm.id t with
  | some i =>
    if (cm.pools.getD i ComponentPool.new).has owner then .error component
    else
      let pl := (cm.pools.getD i ComponentPool.new).insert owner component
      .ok { cm with pools := cm.pools.set i pl.2 }
  | none =>
    let rc := cm.register t
    let pl := (rc.2.pools.getD rc.1 ComponentPool.new).insert owner component
    .ok { rc.2 with pools := rc.2.pools.set rc.1 pl.2 }

/-- ComponentManager::has. -/
def has (cm : ComponentManager) (t owner : Nat) : Bool :=
  match cm.id t with
  | some i => (cm.pools.getD i ComponentPool.new).has owner
  | none => false

/-- ComponentManager::remove. -/
def remove (cm : ComponentManager) (t owner : Nat) :
    Option Nat × ComponentManager :=
  match cm.id t with
  | none => (none, cm)
  | some i =>
    let pr := (cm.pools.getD i ComponentPool.new).remove owner
    (pr.1, { cm with pools := cm.pools.set i pr.2 })

/-- Modelled from the spec: ComponentManager::remove_all (spec section 4.2)
    sweeps every registered pool purging one entity, exactly what
    ComponentManager::destroy in the source does pool by pool. -/
def remove_all (cm : ComponentManager) (owner : Nat) : ComponentManager :=
  { cm with pools := cm.pools.map (fun p => (p.remove owner).2) }

end ComponentManager

/-- Manager (src/src/ecs/manager.rs): entity registry, component registry,
    and the dirty queue (sparse flag vector, dense queue, drain cursor). -/
structure Manager where
  entities : EntityManager
  components : ComponentManager
  sparse : List Bool
  dense : List Nat
  next : Nat
deriving DecidableEq

namespace Manager

def new : Manager := ⟨EntityManager.new, ComponentManager.new, [], [], 0⟩

/-- Manager::set_changed. -/
def set_changed (m : Manager) (entity : Nat) : Manager :=
  let sp := if m.sparse.length ≤ entity then
      m.sparse ++ List.replicate (entity + 1 - m.sparse.length) false
    else m.sparse
  if sp.getD entity false = false then
    { m with sparse := sp.set entity true, dense := m.dense ++ [entity] }
  else { m with sparse := sp }

/-- Manager::poll_changed. -/
def poll_changed (m : Manager) : Option Nat × Manager :=
  if m.dense.length ≤ m.next then
    (none, { m with dense := [], next := 0 })
  else
    let entity := m.dense.getD m.next 0
    (some entity,
      { m with sparse := m.sparse.set entity false, next := m.next + 1 })

/-- Manager::spawn_entity; note it does not touch the dirty queue. -/
def spawn_entity (m : Manager) : Nat × Manager :=
  let r := m.entities.spawn
  (r.1, { m with entities := r.2 })

/-- Modelled from the spec: EntityManager::archetype(owner), referenced by
    manager.rs but absent from entity_manager.rs; it reads the archetype of
    the live record. -/
def entity_archetype (m : Manager) (owner : Nat) : Option Archetype :=
  (m.entities.get owner).map EntityData.archetype

/-- Manager::is_entity_alive. -/
def is_entity_alive (m : Manager) (entity : Nat) : Bool :=
  (m.entity_archetype entity).isSome

/-- Manager::has_component. -/
def has_component (m : Manager) (t owner : Nat) : Bool :=
  match m.entity_archetype owner with
  | none => false
  | some a =>
    match m.components.id t with
    | none => false
    | some cid => a.has cid

/-- Manager::add_component: reject when the entity is dead, register the
    type, delegate to ComponentManager::add (propagating its rejection),
    then set the archetype bit and mark the entity dirty. -/
def add_component (m : Manager) (t owner component : Nat) :
    Except Nat Unit × Manager :=
  match m.entities.get owner with
  | none => (.error component, m)
  | some _ =>
    let rc := m.components.register t
    match rc.2.add t owner component with
    | .error c => (.error c, { m with components := rc.2 })
    | .ok cm2 =>
      let em2 := m.entities.updateSlot owner
        (fun d => { d with archetype := d.archetype.add rc.1 })
      let m2 := { m with components := cm2, entities := em2 }
      (.ok (), m2.set_changed owner)

/-- Manager::remove_component. -/
def remove_component (m : Manager) (t owner : Nat) : Manager :=
  match m.entities.get owner with
  | none => m
  | some d =>
    match m.components.id t with
    | none => m
    | some cid =>
      if d.archetype.has cid = false then m
      else
        let cm1 := (m.components.remove t owner).2
        let em1 := m.entities.updateSlot owner
          (fun d2 => { d2 with archetype := d2.archetype.remove cid })
        let m1 := { m with components := cm1, entities := em1 }
        m1.set_changed owner

/-- Manager::destroy_entity. -/
def destroy_entity (m : Manager) (entity : Nat) : Manager :=
  let cm1 := m.components.remove_all entity
  let em1 := m.entities.destroy entity
  ({ m with components := cm1, entities := em1 }).set_changed entity

end Manager

/-- The public Manager operations named by the claim. -/
inductive MOp where
  | spawnE : MOp
  | addC (t owner component : Nat) : MOp
  | removeC (t owner : Nat) : MOp
  | destroyE (entity : Nat) : MOp
deriving DecidableEq

def applyMOp (m : Manager) : MOp → Manager
  | .spawnE => (m.spawn_entity).2
  | .addC t owner component => (m.add_component t owner component).2
  | .removeC t owner => m.remove_component t owner
  | .destroyE entity => m.destroy_entity entity

def applyMOps (m : Manager) (ops : List MOp) : Manager := ops.foldl applyMOp m

def runMOps (ops : List MOp) : Manager := applyMOps Manager.new ops

/-- destroy on a childless, parentless live entity: clear the slot and push
    the cleared record. -/
theorem destroy_simple (em : EntityManager) (e : Nat) (d : EntityData)
    (hd : em.sparse.getD e none = some d) (hdp : d.parent = none)
    (hdd : d.dense = []) :
    em.destroy e = ⟨em.sparse.set e none, em.destroyed ++ [d.clear]⟩ := by
  have he : e < em.sparse.length := lt_length_of_getD_some hd
  unfold EntityManager.destroy
  simp only [hd, hdp]
  obtain ⟨f, hf⟩ : ∃ f, em.sparse.length = f + 1 :=
    ⟨em.sparse.length - 1,
      (Nat.succ_pred_eq_of_pos (Nat.lt_of_le_of_lt (Nat.zero_le e) he)).symm⟩
  rw [hf]
  unfold EntityManager.destroy_branch
  simp only [hd, hdd, List.foldl_nil]

/- ------------------------------------------------------------------ -/
/- C5: duplicate add_component rejects with no state change            -/
/- ------------------------------------------------------------------ -/

/-- C5: add_component on a live entity that already has a component of that
    type returns the rejected component to the caller and leaves the
    manager completely unchanged: pools, dense arrays, archetypes and the
    change queue are all exactly as before. -/
theorem C5_duplicate_add_rejected (m : Manager) (t e c cid : Nat)
    (hlive : (m.entities.get e).isSome = true)
    (hid : m.components.id t = some cid)
    (hhas : (m.components.pools.getD cid ComponentPool.new).has e = true) :
    m.add_component t e c = (.error c, m) := by
  obtain ⟨d, hd⟩ := Option.isSome_iff_exists.mp hlive
  have hreg : m.components.register t = (cid, m.components) := by
    unfold ComponentManager.register
    rw [hid]
  have hadd : m.components.add t e c = .error c := by
    unfold ComponentManager.add
    rw [hid]
    simp only [hhas, if_true]
  unfold Manager.add_component
  show (match m.entities.get e with
    | none => (.error c, m)
    | some _ =>
      let rc := m.components.register t
      match rc.2.add t e c with
      | .error c2 => (.error c2, { m with components := rc.2 })
      | .ok cm2 =>
        let em2 := m.entities.updateSlot e
          (fun d2 => { d2 with archetype := d2.archetype.add rc.1 })
        let m2 := { m with components := cm2, entities := em2 }
        (.ok (), m2.set_changed e)) = (Except.error c, m)
  rw [hd]
  simp only [hreg, hadd]

/-- One live entity 0 holding a component of type token 5. -/
def c5_m : Manager := ((Manager.new.spawn_entity).2.add_component 5 0 7).2

theorem C5_duplicate_add_rejected_witness :
    ((c5_m.entities.get 0).isSome = true ∧
      c5_m.components.id 5 = some 0 ∧
      (c5_m.components.pools.getD 0 ComponentPool.new).has 0 = true) ∧
    c5_m.add_component 5 0 9 = (.error 9, c5_m) :=
  ⟨⟨by decide, by decide, by decide⟩,
    C5_duplicate_add_rejected c5_m 5 0 9 0 (by decide) (by decide) (by decide)⟩

/- ------------------------------------------------------------------ -/
/- System (src/src/ecs/system.rs)                                      -/
/- ------------------------------------------------------------------ -/

/-- One behavior unit's membership bookkeeping: required archetype,
    excluded antitype, and the sparse set of member entities. The callback
    is held by the scheduler model instead of the record, since Lean
    records used under decidable equality cannot store functions; nothing
    below depends on it. -/
structure System where
  archetype : Archetype
  antitype : Archetype
  sparse : List (Option Nat)
  dense : List Nat
deriving DecidableEq

namespace System

def new (archetype antitype : Archetype) : System :=
  ⟨archetype, antitype, [], []⟩

/-- System::remove_unchecked, verbatim: after the swap the code clears
    sparse[index] — the dense index — rather than the sparse slot of the
    removed entity. -/
def remove_unchecked (s : System) (index : Nat) : System :=
  let last_index := s.dense.length - 1
  let s1 := if index ≠ last_index then
      let dn := (s.dense.set index (s.dense.getD last_index 0)).set last_index
        (s.dense.getD index 0)
      { s with dense := dn, sparse := s.sparse.set (dn.getD index 0) (some index) }
    else s
  { s1 with dense := s1.dense.dropLast, sparse := s1.sparse.set index none }

/-- System::evaluate. -/
def evaluate (s : System) (entity : Nat) (archetype : Archetype) : System :=
  match s.sparse.getD entity none with
  | some index =>
    if ¬ s.archetype.is_subset_of archetype = true ∨
        s.antitype.has_common_with archetype = true then
      s.remove_unchecked index
    else s
  | none =>
    if s.archetype.is_subset_of archetype = true ∧
        ¬ s.antitype.has_common_with archetype = true then
      let sp := if s.sparse.length ≤ entity then
          s.sparse ++ List.replicate (entity + 1 - s.sparse.length) none
        else s.sparse
      if (sp.getD entity none).isNone then
        { s with sparse := sp.set entity (some s.dense.length),
                 dense := s.dense ++ [entity] }
      else { s with sparse := sp }
    else s

/-- System::remove. -/
def remove (s : System) (entity : Nat) : System :=
  match s.sparse.getD entity none with
  | some index => s.remove_unchecked index
  | none => s

end System

/-- A system accepting every archetype (empty required and excluded sets). -/
def c2_sys : System := System.new Archetype.new Archetype.new

def c2_step1 : System := c2_sys.evaluate 1 Archetype.new

def c2_step2 : System := c2_step1.remove 1

def c2_final : System := c2_step2.evaluate 1 Archetype.new

/-- C2: the membership invariant is broken by System::remove_unchecked
    (system.rs line 99), which clears sparse[index] — the dense slot index —
    instead of the removed entity's sparse slot. Entity 1 matches the
    predicate (empty required set is a subset of every archetype, empty
    excluded set conflicts with none) and is admitted; remove(1) pops it but
    leaves sparse[1] = some 0 stale; re-evaluating entity 1 with a matching
    archetype then takes the already-member branch and does nothing, so the
    entity stays out of dense although the predicate holds. -/
theorem C2_membership_bug :
    Archetype.new.is_subset_of Archetype.new = true ∧
    Archetype.new.has_common_with Archetype.new = false ∧
    c2_step1.dense = [1] ∧
    c2_step2.dense = [] ∧
    c2_step2.sparse.getD 1 none = some 0 ∧
    c2_final.dense = [] ∧
    ¬ 1 ∈ c2_final.dense := by
  decide

/- ------------------------------------------------------------------ -/
/- World (src/src/ecs/world.rs)                                        -/
/- ------------------------------------------------------------------ -/

/-- Modelled from the spec: the World scheduler. world.rs references a
    ManagerEvent enum, Manager::poll_event and System::evaluate_addition
    and evaluate_removal, none of which exist in the sources; spec section
    4.5 fixes the loop actually intended: run each system in registration
    order, then drain the dirty queue, re-evaluating each live dirty entity
    against every system and removing dead ones from every system. System
    callbacks are modelled as per system Manager op lists held by the
    scheduler. -/
structure World where
  manager : Manager
  systems : List System
  callbacks : List (List MOp)

/-- Modelled from the spec: one dirty queue drain (spec 4.5); fueled, one
    unit per polled entity. -/
def drain : Nat → Manager → List System → Manager × List System
  | 0, m, ss => (m, ss)
  | fuel + 1, m, ss =>
    let pr := m.poll_changed
    match pr.1 with
    | none => (pr.2, ss)
    | some e =>
      match pr.2.entity_archetype e with
      | some a => drain fuel pr.2 (ss.map (fun s => s.evaluate e a))
      | none => drain fuel pr.2 (ss.map (fun s => s.remove e))

/-- Modelled from the spec: World::run (spec 4.5): per system, run its
    callback, then drain the dirty queue until empty. -/
def World.run (w : World) : World :=
  (List.range w.systems.length).foldl
    (fun w2 i =>
      let m1 := applyMOps w2.manager (w2.callbacks.getD i [])
      let r := drain (m1.dense.length + 1) m1 w2.systems
      { w2 with manager := r.1, systems := r.2 })
    w

/-- Two entities; entity 1 holds the component with type token 0 (pool id
    0) and sits in the dirty queue. -/
def c3_m0 : Manager :=
  (((Manager.new.spawn_entity).2.spawn_entity).2.add_component 0 1 7).2

/-- The observed system: requires pool id 0, excludes nothing. -/
def c3_target : System := System.new (Archetype.new.add 0) Archetype.new

/-- Carrier systems for the two callbacks; they accept everything. -/
def c3_aux : System := System.new Archetype.new Archetype.new

/-- World: the observed system first, then a system whose callback removes
    the component from entity 1, then one whose callback adds it back. -/
def c3_w : World :=
  ⟨c3_m0, [c3_target, c3_aux, c3_aux], [[], [.removeC 0 1], [.addC 0 1 8]]⟩

def c3_w1 : World := c3_w.run

def c3_s0 : System := c3_w1.systems.getD 0 c3_aux

def c3_a1 : Archetype := (c3_w1.manager.entity_archetype 1).getD Archetype.new

/-- C3: after one World tick the dirty queue is empty, entity 1 is alive,
    the first system's predicate holds for entity 1's archetype, yet entity
    1 is not a member: the mid-tick removal evicted it through the buggy
    System::remove_unchecked (system.rs line 99 clears sparse[index], the
    dense slot, instead of the entity's sparse slot), so the stale sparse
    entry makes the re-admission evaluate take the already-member branch
    and do nothing. -/
theorem C3_tick_membership_bug :
    c3_w1.manager.dense = [] ∧ c3_w1.manager.next = 0 ∧
    (c3_w1.manager.entity_archetype 1).isSome = true ∧
    c3_s0.archetype.is_subset_of c3_a1 = true ∧
    c3_s0.antitype.has_common_with c3_a1 = false ∧
    ¬ 1 ∈ c3_s0.dense := by
  decide

/- ------------------------------------------------------------------ -/
/- C1: the archetype / pool cross invariant                            -/
/- ------------------------------------------------------------------ -/

/-- The pool at one id; ids beyond the registry read as an empty pool, just
    as an unregistered type has no members. -/
def poolAt (cm : ComponentManager) (cid : Nat) : ComponentPool Nat :=
  cm.pools.getD cid ComponentPool.new

/-- Shape of every EntityManager state reachable through Manager operations
    alone: records own their slot, no hierarchy ever forms, and the free
    list holds cleared records of distinct dead ids below the slot count. -/
def SimpleEnt (em : EntityManager) : Prop :=
  (∀ e d, em.sparse.getD e none = some d →
    d.owner = e ∧ d.parent = none ∧ d.dense = [] ∧ d.sparse = []) ∧
  (∀ d, d ∈ em.destroyed →
    d.parent = none ∧ d.dense = [] ∧ d.sparse = [] ∧
    d.owner < em.sparse.length ∧ em.sparse.getD d.owner none = none ∧
    (∀ k, d.archetype.bit k = false) ∧ d.archetype.WFa) ∧
  (em.destroyed.map EntityData.owner).Nodup

/-- Invariant carried through every Manager operation: consistent entity
    registry, well formed pools, bounded pool ids, and on every live entity
    the archetype bit for an id agreeing with membership of that id's pool,
    while dead entities are in no pool. -/
def InvM (m : Manager) : Prop :=
  SimpleEnt m.entities ∧
  (∀ p ∈ m.components.pools, p.WFp) ∧
  (∀ pr ∈ m.components.ids, pr.2 < m.components.pools.length) ∧
  (∀ e d, m.entities.sparse.getD e none = some d →
    d.archetype.WFa ∧ Tidy d.archetype ∧
    ∀ cid, d.archetype.has cid = (poolAt m.components cid).has e) ∧
  (∀ e, m.entities.sparse.getD e none = none →
    ∀ cid, (poolAt m.components cid).has e = false)

theorem poolAt_WFp {cm : ComponentManager}
    (hP : ∀ p ∈ cm.pools, p.WFp) (cid : Nat) : (poolAt cm cid).WFp := by
  unfold poolAt
  by_cases h : cid < cm.pools.length
  · rw [List.getD_eq_getElem?_getD, List.getElem?_eq_getElem h]
    exact hP _ (List.getElem_mem h)
  · rw [getD_of_ge _ _ _ (Nat.le_of_not_lt h)]
    exact WFp_new

theorem getD_pools_snoc_new (pools : List (ComponentPool Nat)) (cid : Nat) :
    (pools ++ [ComponentPool.new]).getD cid ComponentPool.new
      = pools.getD cid ComponentPool.new := by
  by_cases h : cid < pools.length
  · exact getD_snoc_lt _ _ _ _ h
  · by_cases h2 : cid = pools.length
    · rw [h2, getD_snoc_self, getD_of_ge _ _ _ (Nat.le_refl _)]
    · rw [getD_of_ge _ _ _ (by simp; omega), getD_of_ge _ _ _ (by omega)]

theorem getD_map_pool (pools : List (ComponentPool Nat))
    (f : ComponentPool Nat → ComponentPool Nat)
    (hf : f ComponentPool.new = ComponentPool.new) (cid : Nat) :
    (pools.map f).getD cid ComponentPool.new
      = f (pools.getD cid ComponentPool.new) := by
  by_cases h : cid < pools.length
  · rw [List.getD_eq_getElem?_getD, List.getElem?_map,
      List.getElem?_eq_getElem h]
    rw [List.getD_eq_getElem?_getD, List.getElem?_eq_getElem h]
    rfl
  · rw [getD_of_ge _ _ _ (by simp [Nat.le_of_not_lt h]),
      getD_of_ge _ _ _ (Nat.le_of_not_lt h), hf]

/-- ComponentPool::remove without assuming membership: the owner is gone,
    everyone else is untouched, the invariant is kept. -/
theorem remove_total_facts {T : Type} (p : ComponentPool T) (e : Nat)
    (hwf : p.WFp) :
    (p.remove e).2.has e = false ∧
    (∀ x, x ≠ e → (p.remove e).2.has x = p.has x) ∧
    (p.remove e).2.WFp := by
  cases hv : p.sparse.getD e none with
  | none =>
    rw [pool_remove_noop p e hv]
    refine ⟨?_, fun x _ => rfl, hwf⟩
    unfold ComponentPool.has
    rw [hv]
    rfl
  | some s =>
    obtain ⟨_, _, _, h4, h5, h6⟩ := remove_swap_facts p e s hwf hv
    exact ⟨h4, fun x hx => (h5 x hx).1, h6⟩

theorem register_lookup (cm : ComponentManager) (t : Nat)
    (hB : ∀ pr ∈ cm.ids, pr.2 < cm.pools.length) :
    (cm.register t).2.id t = some (cm.register t).1 ∧
    (cm.register t).1 < (cm.register t).2.pools.length := by
  unfold ComponentManager.register
  cases hid : cm.id t with
  | some i =>
    refine ⟨hid, ?_⟩
    unfold ComponentManager.id at hid
    cases hf : cm.ids.find? (fun pr => pr.1 == t) with
    | none =>
      rw [hf] at hid
      exact absurd hid (by simp)
    | some pr =>
      rw [hf] at hid
      have hmem := List.mem_of_find?_eq_some hf
      have hlt := hB pr hmem
      have hpi : pr.2 = i := Option.some.inj hid
      show i < cm.pools.length
      omega
  | none =>
    refine ⟨?_, ?_⟩
    · show (ComponentManager.id ⟨cm.ids ++ [(t, cm.pools.length)],
        cm.pools ++ [ComponentPool.new]⟩ t) = some cm.pools.length
      unfold ComponentManager.id
      show ((cm.ids ++ [(t, cm.pools.length)]).find?
        (fun pr => pr.1 == t)).map Prod.snd = _
      rw [List.find?_append]
      unfold ComponentManager.id at hid
      cases hf : cm.ids.find? (fun pr => pr.1 == t) with
      | some pr =>
        rw [hf] at hid
        exact absurd hid (by simp)
      | none =>
        simp [List.find?]
    · show cm.pools.length < (cm.pools ++ [ComponentPool.new]).length
      simp

theorem register_bound (cm : ComponentManager) (t : Nat)
    (hB : ∀ pr ∈ cm.ids, pr.2 < cm.pools.length) :
    ∀ pr ∈ (cm.register t).2.ids, pr.2 < (cm.register t).2.pools.length := by
  unfold ComponentManager.register
  cases cm.id t with
  | some i => exact hB
  | none =>
    intro pr hpr
    show pr.2 < (cm.pools ++ [ComponentPool.new]).length
    simp only [List.length_append, List.length_cons, List.length_nil]
    rcases List.mem_append.mp hpr with h | h
    · have := hB pr h
      omega
    · have hpr2 : pr = (t, cm.pools.length) := by simpa using h
      rw [hpr2]
      omega

theorem register_WFp (cm : ComponentManager) (t : Nat)
    (hP : ∀ p ∈ cm.pools, p.WFp) :
    ∀ p ∈ (cm.register t).2.pools, p.WFp := by
  unfold ComponentManager.register
  cases cm.id t with
  | some i => exact hP
  | none =>
    intro p hp
    rcases List.mem_append.mp hp with h | h
    · exact hP p h
    · rw [List.mem_singleton.mp h]
      exact WFp_new

theorem register_poolAt (cm : ComponentManager) (t cid : Nat) :
    poolAt (cm.register t).2 cid = poolAt cm cid := by
  unfold ComponentManager.register
  cases cm.id t with
  | some i => rfl
  | none => exact getD_pools_snoc_new cm.pools cid

theorem InvM_register (m : Manager) (t : Nat) (h : InvM m) :
    InvM { m with components := (m.components.register t).2 } := by
  obtain ⟨hS, hP, hB, hL, hD⟩ := h
  refine ⟨hS, register_WFp _ _ hP, register_bound _ _ hB, ?_, ?_⟩
  · intro e d hd
    obtain ⟨h1, h2, h3⟩ := hL e d hd
    refine ⟨h1, h2, fun cid => ?_⟩
    show d.archetype.has cid = (poolAt (m.components.register t).2 cid).has e
    rw [register_poolAt]
    exact h3 cid
  · intro e he cid
    show (poolAt (m.components.register t).2 cid).has e = false
    rw [register_poolAt]
    exact hD e he cid

theorem InvM_set_changed (m : Manager) (e : Nat) (h : InvM m) :
    InvM (m.set_changed e) := by
  unfold Manager.set_changed
  split <;> dsimp only <;> split <;> exact h

theorem InvM_new : InvM Manager.new := by
  refine ⟨⟨?_, ?_, ?_⟩, ?_, ?_, ?_, ?_⟩
  · intro e d hd
    exact absurd hd (by simp [Manager.new, EntityManager.new])
  · intro d hd
    exact absurd hd (by simp [Manager.new, EntityManager.new])
  · simp [Manager.new, EntityManager.new]
  · intro p hp
    exact absurd hp (by simp [Manager.new, ComponentManager.new])
  · intro pr hpr
    exact absurd hpr (by simp [Manager.new, ComponentManager.new])
  · intro e d hd
    exact absurd hd (by simp [Manager.new, EntityManager.new])
  · intro e _ cid
    exact pool_has_new e

theorem InvM_spawn (m : Manager) (h : InvM m) : InvM (m.spawn_entity).2 := by
  obtain ⟨⟨hS1, hS2, hS3⟩, hP, hB, hL, hD⟩ := h
  show InvM { m with entities := (m.entities.spawn).2 }
  cases hlast : m.entities.destroyed.getLast? with
  | none =>
    have hsp : (m.entities.spawn).2 = { m.entities with
        sparse := m.entities.sparse ++
          [some (EntityData.new m.entities.sparse.length)] } := by
      unfold EntityManager.spawn
      rw [hlast]
    rw [hsp]
    refine ⟨⟨?_, ?_, hS3⟩, hP, hB, ?_, ?_⟩
    · intro e d hd
      have hd2 : (m.entities.sparse ++
          [some (EntityData.new m.entities.sparse.length)]).getD e none
          = some d := hd
      rcases Nat.lt_trichotomy e m.entities.sparse.length with he | he | he
      · rw [getD_snoc_lt _ _ _ _ he] at hd2
        exact hS1 e d hd2
      · rw [he, getD_snoc_self] at hd2
        have hde : d = EntityData.new m.entities.sparse.length :=
          (Option.some.inj hd2).symm
        rw [hde, he]
        exact ⟨rfl, rfl, rfl, rfl⟩
      · rw [getD_of_ge _ _ _ (by simp; omega)] at hd2
        exact absurd hd2 (by simp)
    · intro d hd
      obtain ⟨h1, h2, h3, h4, h5, h6, h7⟩ := hS2 d hd
      refine ⟨h1, h2, h3, ?_, ?_, h6, h7⟩
      · show d.owner < (m.entities.sparse ++
          [some (EntityData.new m.entities.sparse.length)]).length
        simp only [List.length_append, List.length_cons, List.length_nil]
        omega
      · show (m.entities.sparse ++
          [some (EntityData.new m.entities.sparse.length)]).getD d.owner none
          = none
        rw [getD_snoc_lt _ _ _ _ h4]
        exact h5
    · intro e d hd
      have hd2 : (m.entities.sparse ++
          [some (EntityData.new m.entities.sparse.length)]).getD e none
          = some d := hd
      rcases Nat.lt_trichotomy e m.entities.sparse.length with he | he | he
      · rw [getD_snoc_lt _ _ _ _ he] at hd2
        exact hL e d hd2
      · rw [he, getD_snoc_self] at hd2
        have hde : d = EntityData.new m.entities.sparse.length :=
          (Option.some.inj hd2).symm
        rw [hde]
        refine ⟨WFa_new, Tidy_new, fun cid => ?_⟩
        show Archetype.new.has cid = (poolAt m.components cid).has e
        rw [has_new]
        have hdead : m.entities.sparse.getD e none = none := by
          rw [he]
          exact getD_of_ge _ _ _ (Nat.le_refl _)
        exact (hD e hdead cid).symm
      · rw [getD_of_ge _ _ _ (by simp; omega)] at hd2
        exact absurd hd2 (by simp)
    · intro e he2 cid
      have he3 : (m.entities.sparse ++
          [some (EntityData.new m.entities.sparse.length)]).getD e none
          = none := he2
      rcases Nat.lt_trichotomy e m.entities.sparse.length with he | he | he
      · rw [getD_snoc_lt _ _ _ _ he] at he3
        exact hD e he3 cid
      · rw [he, getD_snoc_self] at he3
        exact absurd he3 (by simp)
      · have hold : m.entities.sparse.getD e none = none :=
          getD_of_ge _ _ _ (by omega)
        exact hD e hold cid
  | some d0 =>
    have hmem := mem_of_getLast?_eq hlast
    obtain ⟨hp0, hd0, hs0, hlt0, hslot0, hbits0, hwfa0⟩ := hS2 d0 hmem
    have hsp : (m.entities.spawn).2 = { m.entities with
        sparse := m.entities.sparse.set d0.owner (some d0),
        destroyed := m.entities.destroyed.dropLast } := by
      unfold EntityManager.spawn
      rw [hlast]
    rw [hsp]
    have hne : m.entities.destroyed ≠ [] := by
      intro h0
      rw [h0] at hlast
      exact Option.noConfusion hlast
    have hdisj : ∀ d2, d2 ∈ m.entities.destroyed.dropLast →
        d2.owner ≠ d0.owner := by
      intro d2 hd2 heq
      have hgl : m.entities.destroyed.getLast hne = d0 := by
        have hq := List.getLast?_eq_getLast _ hne
        rw [hq] at hlast
        exact Option.some.inj hlast
      have hnodup2 := hS3
      rw [← List.dropLast_append_getLast hne, hgl, List.map_append] at hnodup2
      rw [List.nodup_append] at hnodup2
      exact hnodup2.2.2 (List.mem_map_of_mem _ hd2) (by simp [heq])
    refine ⟨⟨?_, ?_, ?_⟩, hP, hB, ?_, ?_⟩
    · intro e d hd
      have hd2 : (m.entities.sparse.set d0.owner (some d0)).getD e none
          = some d := hd
      by_cases he : e = d0.owner
      · rw [he, getD_set_self _ _ _ _ hlt0] at hd2
        have hde : d = d0 := (Option.some.inj hd2).symm
        rw [hde, he]
        exact ⟨rfl, hp0, hd0, hs0⟩
      · rw [getD_set_ne _ _ _ _ _ (fun hx => he hx.symm)] at hd2
        exact hS1 e d hd2
    · intro d hd
      have hd' : d ∈ m.entities.destroyed := List.dropLast_subset _ hd
      obtain ⟨h1, h2, h3, h4, h5, h6, h7⟩ := hS2 d hd'
      refine ⟨h1, h2, h3, ?_, ?_, h6, h7⟩
      · show d.owner < (m.entities.sparse.set d0.owner (some d0)).length
        rw [List.length_set]
        exact h4
      · show (m.entities.sparse.set d0.owner (some d0)).getD d.owner none = none
        rw [getD_set_ne _ _ _ _ _ (fun hx => hdisj d hd hx.symm)]
        exact h5
    · exact List.Nodup.sublist ((List.dropLast_sublist _).map _) hS3
    · intro e d hd
      have hd2 : (m.entities.sparse.set d0.owner (some d0)).getD e none
          = some d := hd
      by_cases he : e = d0.owner
      · rw [he, getD_set_self _ _ _ _ hlt0] at hd2
        have hde : d = d0 := (Option.some.inj hd2).symm
        rw [hde]
        refine ⟨hwfa0, ?_, fun cid => ?_⟩
        · intro k hk
          rw [hbits0 k] at hk
          exact Bool.noConfusion hk
        · show d0.archetype.has cid = (poolAt m.components cid).has e
          rw [bitfree_has hbits0 cid, he]
          exact (hD d0.owner hslot0 cid).symm
      · rw [getD_set_ne _ _ _ _ _ (fun hx => he hx.symm)] at hd2
        exact hL e d hd2
    · intro e he2 cid
      have he3 : (m.entities.sparse.set d0.owner (some d0)).getD e none
          = none := he2
      by_cases he : e = d0.owner
      · rw [he, getD_set_self _ _ _ _ hlt0] at he3
        exact absurd he3 (by simp)
      · rw [getD_set_ne _ _ _ _ _ (fun hx => he hx.symm)] at he3
        exact hD e he3 cid

theorem poolAt_set (cm : ComponentManager) (cid : Nat)
    (p2 : ComponentPool Nat) (hcid : cid < cm.pools.length) (cid2 : Nat) :
    poolAt { cm with pools := cm.pools.set cid p2 } cid2
      = if cid2 = cid then p2 else poolAt cm cid2 := by
  unfold poolAt
  by_cases h2 : cid2 = cid
  · rw [if_pos h2, h2]
    exact getD_set_self _ _ _ _ hcid
  · rw [if_neg h2]
    exact getD_set_ne _ _ _ _ _ (fun hx => h2 hx.symm)

theorem destroyed_owner_ne (em : EntityManager) (e : Nat) (d : EntityData)
    (hS2 : ∀ d2, d2 ∈ em.destroyed →
      d2.parent = none ∧ d2.dense = [] ∧ d2.sparse = [] ∧
      d2.owner < em.sparse.length ∧ em.sparse.getD d2.owner none = none ∧
      (∀ k, d2.archetype.bit k = false) ∧ d2.archetype.WFa)
    (hgd : em.sparse.getD e none = some d) :
    ∀ d2 ∈ em.destroyed, d2.owner ≠ e := by
  intro d2 hd2 heq
  obtain ⟨_, _, _, _, h5, _, _⟩ := hS2 d2 hd2
  rw [heq, hgd] at h5
  exact Option.noConfusion h5

theorem InvM_insert_core (m : Manager) (e c cid : Nat) (d : EntityData)
    (h : InvM m)
    (hgd : m.entities.sparse.getD e none = some d)
    (hcid : cid < m.components.pools.length)
    (hpoolf : (poolAt m.components cid).has e = false) :
    InvM (Manager.mk
      (m.entities.updateSlot e
        (fun d2 => { d2 with archetype := d2.archetype.add cid }))
      (ComponentManager.mk m.components.ids
        (m.components.pools.set cid ((poolAt m.components cid).insert e c).2))
      m.sparse m.dense m.next) := by
  obtain ⟨⟨hS1, hS2, hS3⟩, hP, hB, hL, hD⟩ := h
  obtain ⟨hwfa, htidy, hbits⟩ := hL e d hgd
  have hwfp := poolAt_WFp hP cid
  have hslotnone : (poolAt m.components cid).sparse.getD e none = none :=
    (pool_has_false_iff _ _).mp hpoolf
  obtain ⟨_, hins2, hins3, hins4⟩ :=
    insert_facts (poolAt m.components cid) e c hwfp hslotnone
  have howne := destroyed_owner_ne m.entities e d hS2 hgd
  have hpA : ∀ cid2, poolAt (ComponentManager.mk m.components.ids
      (m.components.pools.set cid ((poolAt m.components cid).insert e c).2)) cid2
      = if cid2 = cid then ((poolAt m.components cid).insert e c).2
        else poolAt m.components cid2 := by
    intro cid2
    exact poolAt_set { m.components with
      pools := m.components.pools } cid _ hcid cid2
  refine ⟨⟨?_, ?_, ?_⟩, ?_, ?_, ?_, ?_⟩
  · intro x dx hdx
    by_cases hx : x = e
    · have hdx2 : (m.entities.updateSlot e
          (fun d2 => { d2 with archetype := d2.archetype.add cid })).sparse.getD
          x none = some dx := hdx
      rw [hx, EntityManager.updateSlot_getD_self _ _ _ d hgd] at hdx2
      have hde : dx = { d with archetype := d.archetype.add cid } :=
        (Option.some.inj hdx2).symm
      obtain ⟨o1, o2, o3, o4⟩ := hS1 e d hgd
      rw [hde, hx]
      exact ⟨o1, o2, o3, o4⟩
    · have hdx2 : (m.entities.updateSlot e
          (fun d2 => { d2 with archetype := d2.archetype.add cid })).sparse.getD
          x none = some dx := hdx
      rw [EntityManager.updateSlot_getD_ne _ _ _ _ hx] at hdx2
      exact hS1 x dx hdx2
  · intro dx hdx
    have hdx2 : dx ∈ m.entities.destroyed := by
      have hq := EntityManager.updateSlot_destroyed m.entities e
        (fun d2 => { d2 with archetype := d2.archetype.add cid })
      rw [← hq]
      exact hdx
    obtain ⟨h1, h2, h3, h4, h5, h6, h7⟩ := hS2 dx hdx2
    refine ⟨h1, h2, h3, ?_, ?_, h6, h7⟩
    · show dx.owner < (m.entities.updateSlot e _).sparse.length
      rw [EntityManager.updateSlot_length]
      exact h4
    · show (m.entities.updateSlot e _).sparse.getD dx.owner none = none
      rw [EntityManager.updateSlot_getD_ne _ _ _ _ (howne dx hdx2)]
      exact h5
  · show (List.map EntityData.owner (m.entities.updateSlot e
      (fun d2 => { d2 with archetype := d2.archetype.add cid })).destroyed).Nodup
    rw [EntityManager.updateSlot_destroyed]
    exact hS3
  · intro p hp
    rcases List.mem_or_eq_of_mem_set hp with h1 | h1
    · exact hP p h1
    · rw [h1]
      exact hins4
  · intro pr hpr
    show pr.2 < (m.components.pools.set cid _).length
    rw [List.length_set]
    exact hB pr hpr
  · intro x dx hdx
    by_cases hx : x = e
    · have hdx2 : (m.entities.updateSlot e
          (fun d2 => { d2 with archetype := d2.archetype.add cid })).sparse.getD
          x none = some dx := hdx
      rw [hx, EntityManager.updateSlot_getD_self _ _ _ d hgd] at hdx2
      have hde : dx = { d with archetype := d.archetype.add cid } :=
        (Option.some.inj hdx2).symm
      rw [hde]
      refine ⟨WFa_add _ _ hwfa, Tidy_add _ _ hwfa htidy, fun cid2 => ?_⟩
      rw [hpA cid2]
      by_cases h2 : cid2 = cid
      · rw [if_pos h2]
        show (d.archetype.add cid).has cid2 = _
        rw [h2, has_add_self _ _ hwfa, hx, hins2]
      · rw [if_neg h2]
        show (d.archetype.add cid).has cid2 = _
        rw [has_add_ne _ _ _ hwfa htidy h2, hx]
        exact hbits cid2
    · have hdx2 : (m.entities.updateSlot e
          (fun d2 => { d2 with archetype := d2.archetype.add cid })).sparse.getD
          x none = some dx := hdx
      rw [EntityManager.updateSlot_getD_ne _ _ _ _ hx] at hdx2
      obtain ⟨hw2, ht2, hb2⟩ := hL x dx hdx2
      refine ⟨hw2, ht2, fun cid2 => ?_⟩
      rw [hpA cid2]
      by_cases h2 : cid2 = cid
      · rw [if_pos h2, hins3 x hx, h2]
        exact hb2 cid
      · rw [if_neg h2]
        exact hb2 cid2
  · intro x hx cid2
    have hx2 : (m.entities.updateSlot e
        (fun d2 => { d2 with archetype := d2.archetype.add cid })).sparse.getD
        x none = none := hx
    have hxe : x ≠ e := by
      intro hxe2
      rw [hxe2, EntityManager.updateSlot_getD_self _ _ _ d hgd] at hx2
      exact Option.noConfusion hx2
    rw [EntityManager.updateSlot_getD_ne _ _ _ _ hxe] at hx2
    show (poolAt (ComponentManager.mk m.components.ids
      (m.components.pools.set cid ((poolAt m.components cid).insert e c).2))
        cid2).has x = false
    rw [hpA cid2]
    by_cases h2 : cid2 = cid
    · rw [if_pos h2, hins3 x hxe]
      exact hD x hx2 cid
    · rw [if_neg h2]
      exact hD x hx2 cid2

theorem InvM_remove_core (m : Manager) (e cid : Nat) (d : EntityData)
    (h : InvM m)
    (hgd : m.entities.sparse.getD e none = some d)
    (hcid : cid < m.components.pools.length) :
    InvM (Manager.mk
      (m.entities.updateSlot e
        (fun d2 => { d2 with archetype := d2.archetype.remove cid }))
      (ComponentManager.mk m.components.ids
        (m.components.pools.set cid ((poolAt m.components cid).remove e).2))
      m.sparse m.dense m.next) := by
  obtain ⟨⟨hS1, hS2, hS3⟩, hP, hB, hL, hD⟩ := h
  obtain ⟨hwfa, htidy, hbits⟩ := hL e d hgd
  have hwfp := poolAt_WFp hP cid
  obtain ⟨hrm1, hrm2, hrm3⟩ := remove_total_facts (poolAt m.components cid) e hwfp
  have howne := destroyed_owner_ne m.entities e d hS2 hgd
  have hpA : ∀ cid2, poolAt (ComponentManager.mk m.components.ids
      (m.components.pools.set cid ((poolAt m.components cid).remove e).2)) cid2
      = if cid2 = cid then ((poolAt m.components cid).remove e).2
        else poolAt m.components cid2 := by
    intro cid2
    exact poolAt_set { m.components with
      pools := m.components.pools } cid _ hcid cid2
  refine ⟨⟨?_, ?_, ?_⟩, ?_, ?_, ?_, ?_⟩
  · intro x dx hdx
    by_cases hx : x = e
    · have hdx2 : (m.entities.updateSlot e
          (fun d2 => { d2 with archetype := d2.archetype.remove cid })).sparse.getD
          x none = some dx := hdx
      rw [hx, EntityManager.updateSlot_getD_self _ _ _ d hgd] at hdx2
      have hde : dx = { d with archetype := d.archetype.remove cid } :=
        (Option.some.inj hdx2).symm
      obtain ⟨o1, o2, o3, o4⟩ := hS1 e d hgd
      rw [hde, hx]
      exact ⟨o1, o2, o3, o4⟩
    · have hdx2 : (m.entities.updateSlot e
          (fun d2 => { d2 with archetype := d2.archetype.remove cid })).sparse.getD
          x none = some dx := hdx
      rw [EntityManager.updateSlot_getD_ne _ _ _ _ hx] at hdx2
      exact hS1 x dx hdx2
  · intro dx hdx
    have hdx2 : dx ∈ m.entities.destroyed := by
      have hq := EntityManager.updateSlot_destroyed m.entities e
        (fun d2 => { d2 with archetype := d2.archetype.remove cid })
      rw [← hq]
      exact hdx
    obtain ⟨h1, h2, h3, h4, h5, h6, h7⟩ := hS2 dx hdx2
    refine ⟨h1, h2, h3, ?_, ?_, h6, h7⟩
    · show dx.owner < (m.entities.updateSlot e _).sparse.length
      rw [EntityManager.updateSlot_length]
      exact h4
    · show (m.entities.updateSlot e _).sparse.getD dx.owner none = none
      rw [EntityManager.updateSlot_getD_ne _ _ _ _ (howne dx hdx2)]
      exact h5
  · show (List.map EntityData.owner (m.entities.updateSlot e
      (fun d2 => { d2 with archetype := d2.archetype.remove cid })).destroyed).Nodup
    rw [EntityManager.updateSlot_destroyed]
    exact hS3
  · intro p hp
    rcases List.mem_or_eq_of_mem_set hp with h1 | h1
    · exact hP p h1
    · rw [h1]
      exact hrm3
  · intro pr hpr
    show pr.2 < (m.components.pools.set cid _).length
    rw [List.length_set]
    exact hB pr hpr
  · intro x dx hdx
    by_cases hx : x = e
    · have hdx2 : (m.entities.updateSlot e
          (fun d2 => { d2 with archetype := d2.archetype.remove cid })).sparse.getD
          x none = some dx := hdx
      rw [hx, EntityManager.updateSlot_getD_self _ _ _ d hgd] at hdx2
      have hde : dx = { d with archetype := d.archetype.remove cid } :=
        (Option.some.inj hdx2).symm
      rw [hde]
      refine ⟨WFa_remove _ _ hwfa, Tidy_remove _ _ hwfa htidy, fun cid2 => ?_⟩
      rw [hpA cid2]
      by_cases h2 : cid2 = cid
      · rw [if_pos h2]
        show (d.archetype.remove cid).has cid2 = _
        rw [h2, has_remove_self _ _ hwfa, hx, hrm1]
      · rw [if_neg h2]
        show (d.archetype.remove cid).has cid2 = _
        rw [has_remove_ne _ _ _ hwfa h2, hx]
        exact hbits cid2
    · have hdx2 : (m.entities.updateSlot e
          (fun d2 => { d2 with archetype := d2.archetype.remove cid })).sparse.getD
          x none = some dx := hdx
      rw [EntityManager.updateSlot_getD_ne _ _ _ _ hx] at hdx2
      obtain ⟨hw2, ht2, hb2⟩ := hL x dx hdx2
      refine ⟨hw2, ht2, fun cid2 => ?_⟩
      rw [hpA cid2]
      by_cases h2 : cid2 = cid
      · rw [if_pos h2, hrm2 x hx, h2]
        exact hb2 cid
      · rw [if_neg h2]
        exact hb2 cid2
  · intro x hx cid2
    have hx2 : (m.entities.updateSlot e
        (fun d2 => { d2 with archetype := d2.archetype.remove cid })).sparse.getD
        x none = none := hx
    have hxe : x ≠ e := by
      intro hxe2
      rw [hxe2, EntityManager.updateSlot_getD_self _ _ _ d hgd] at hx2
      exact Option.noConfusion hx2
    rw [EntityManager.updateSlot_getD_ne _ _ _ _ hxe] at hx2
    show (poolAt (ComponentManager.mk m.components.ids
      (m.components.pools.set cid ((poolAt m.components cid).remove e).2))
        cid2).has x = false
    rw [hpA cid2]
    by_cases h2 : cid2 = cid
    · rw [if_pos h2, hrm2 x hxe]
      exact hD x hx2 cid
    · rw [if_neg h2]
      exact hD x hx2 cid2

theorem InvM_addC (m : Manager) (t e c : Nat) (h : InvM m) :
    InvM (m.add_component t e c).2 := by
  unfold Manager.add_component
  cases hget : m.entities.get e with
  | none => exact h
  | some d =>
    have hInv1 := InvM_register m t h
    have hlook := register_lookup m.components t h.2.2.1
    by_cases hpool : (poolAt (m.components.register t).2
        (m.components.register t).1).has e = true
    · have hadd : (m.components.register t).2.add t e c = .error c := by
        unfold ComponentManager.add
        simp only [hlook.1]
        unfold poolAt at hpool
        rw [List.getD_eq_getElem?_getD] at hpool
        simp [hpool]
      simp only [hadd]
      exact hInv1
    · have hpoolf : (poolAt (m.components.register t).2
          (m.components.register t).1).has e = false := by
        cases hv : (poolAt (m.components.register t).2
            (m.components.register t).1).has e
        · rfl
        · exact absurd hv hpool
      have hadd : (m.components.register t).2.add t e c =
          .ok (ComponentManager.mk (m.components.register t).2.ids
            ((m.components.register t).2.pools.set (m.components.register t).1
              ((poolAt (m.components.register t).2
                (m.components.register t).1).insert e c).2)) := by
        unfold ComponentManager.add
        simp only [hlook.1]
        unfold poolAt at hpoolf
        rw [List.getD_eq_getElem?_getD] at hpoolf
        simp [hpoolf]
        unfold poolAt
        rw [List.getD_eq_getElem?_getD]
      simp only [hadd]
      apply InvM_set_changed
      exact InvM_insert_core { m with components := (m.components.register t).2 }
        e c (m.components.register t).1 d hInv1 hget hlook.2 hpoolf

theorem InvM_removeC (m : Manager) (t e : Nat) (h : InvM m) :
    InvM (m.remove_component t e) := by
  unfold Manager.remove_component
  cases hget : m.entities.get e with
  | none => exact h
  | some d =>
    cases hid : m.components.id t with
    | none => exact h
    | some cid =>
      dsimp only
      by_cases hhas : d.archetype.has cid = false
      · rw [if_pos hhas]
        exact h
      · rw [if_neg hhas]
        apply InvM_set_changed
        have hcid : cid < m.components.pools.length := by
          unfold ComponentManager.id at hid
          cases hf : m.components.ids.find? (fun pr => pr.1 == t) with
          | none =>
            rw [hf] at hid
            exact absurd hid (by simp)
          | some pr =>
            rw [hf] at hid
            have hb2 := h.2.2.1 pr (List.mem_of_find?_eq_some hf)
            have h2 := Option.some.inj hid
            omega
        have hrm : (m.components.remove t e).2 = ComponentManager.mk
            m.components.ids (m.components.pools.set cid
              ((poolAt m.components cid).remove e).2) := by
          unfold ComponentManager.remove
          rw [hid]
          rfl
        rw [hrm]
        exact InvM_remove_core m e cid d h hget hcid

theorem InvM_destroyE (m : Manager) (e : Nat) (h : InvM m) :
    InvM (m.destroy_entity e) := by
  unfold Manager.destroy_entity
  apply InvM_set_changed
  obtain ⟨⟨hS1, hS2, hS3⟩, hP, hB, hL, hD⟩ := h
  have hfnew : ((ComponentPool.new (T := Nat)).remove e).2 = ComponentPool.new := by
    rw [pool_remove_noop]
    rfl
  have hpA : ∀ cid, poolAt (m.components.remove_all e) cid
      = ((poolAt m.components cid).remove e).2 := by
    intro cid
    unfold ComponentManager.remove_all poolAt
    exact getD_map_pool _ _ hfnew cid
  have hPP : ∀ p ∈ (m.components.remove_all e).pools, p.WFp := by
    intro p hp
    unfold ComponentManager.remove_all at hp
    obtain ⟨p0, hp0, hpe⟩ := List.mem_map.mp hp
    rw [← hpe]
    exact (remove_total_facts p0 e (hP p0 hp0)).2.2
  have hBB : ∀ pr ∈ (m.components.remove_all e).ids,
      pr.2 < (m.components.remove_all e).pools.length := by
    intro pr hpr
    show pr.2 < (m.components.pools.map _).length
    rw [List.length_map]
    exact hB pr hpr
  cases hgd : m.entities.sparse.getD e none with
  | none =>
    have hdes : m.entities.destroy e = m.entities := by
      unfold EntityManager.destroy
      rw [hgd]
    rw [hdes]
    refine ⟨⟨hS1, hS2, hS3⟩, hPP, hBB, ?_, ?_⟩
    · intro x dx hdx
      have hdx2 : m.entities.sparse.getD x none = some dx := hdx
      obtain ⟨hw2, ht2, hb2⟩ := hL x dx hdx2
      have hxe : x ≠ e := by
        intro hx2
        rw [hx2, hgd] at hdx2
        exact Option.noConfusion hdx2
      refine ⟨hw2, ht2, fun cid => ?_⟩
      show dx.archetype.has cid = (poolAt (m.components.remove_all e) cid).has x
      rw [hpA cid,
        (remove_total_facts (poolAt m.components cid) e (poolAt_WFp hP cid)).2.1
          x hxe]
      exact hb2 cid
    · intro x hx cid
      by_cases hxe : x = e
      · show (poolAt (m.components.remove_all e) cid).has x = false
        rw [hpA cid, hxe]
        exact (remove_total_facts (poolAt m.components cid) e
          (poolAt_WFp hP cid)).1
      · have hx2 : m.entities.sparse.getD x none = none := hx
        show (poolAt (m.components.remove_all e) cid).has x = false
        rw [hpA cid,
          (remove_total_facts (poolAt m.components cid) e
            (poolAt_WFp hP cid)).2.1 x hxe]
        exact hD x hx2 cid
  | some d0 =>
    obtain ⟨ho0, hp0, hd0, hs0⟩ := hS1 e d0 hgd
    have hdes := destroy_simple m.entities e d0 hgd hp0 hd0
    rw [hdes]
    have hlt : e < m.entities.sparse.length := lt_length_of_getD_some hgd
    obtain ⟨hwfa0, htidy0, hbits0⟩ := hL e d0 hgd
    refine ⟨⟨?_, ?_, ?_⟩, hPP, hBB, ?_, ?_⟩
    · intro x dx hdx
      have hdx2 : (m.entities.sparse.set e none).getD x none = some dx := hdx
      have hxe : x ≠ e := by
        intro hxe2
        rw [hxe2, getD_set_self _ _ _ _ hlt] at hdx2
        exact Option.noConfusion hdx2
      rw [getD_set_ne _ _ _ _ _ (fun h2 => hxe h2.symm)] at hdx2
      exact hS1 x dx hdx2
    · intro dx hdx
      have hdx2 : dx ∈ m.entities.destroyed ++ [d0.clear] := hdx
      rcases List.mem_append.mp hdx2 with h1 | h1
      · obtain ⟨k1, k2, k3, k4, k5, k6, k7⟩ := hS2 dx h1
        have hxne : dx.owner ≠ e := by
          intro heq
          rw [heq, hgd] at k5
          exact Option.noConfusion k5
        refine ⟨k1, k2, k3, ?_, ?_, k6, k7⟩
        · show dx.owner < (m.entities.sparse.set e none).length
          rw [List.length_set]
          exact k4
        · show (m.entities.sparse.set e none).getD dx.owner none = none
          rw [getD_set_ne _ _ _ _ _ (fun h2 => hxne h2.symm)]
          exact k5
      · have hdx3 : dx = d0.clear := List.mem_singleton.mp h1
        rw [hdx3]
        refine ⟨rfl, rfl, rfl, ?_, ?_, ?_, WFa_reset _ hwfa0⟩
        · show d0.clear.owner < (m.entities.sparse.set e none).length
          rw [List.length_set]
          show d0.owner < m.entities.sparse.length
          rw [ho0]
          exact hlt
        · show (m.entities.sparse.set e none).getD d0.clear.owner none = none
          show (m.entities.sparse.set e none).getD d0.owner none = none
          rw [ho0]
          exact getD_set_self _ _ _ _ hlt
        · intro k
          exact bit_reset d0.archetype k
    · show (List.map EntityData.owner
        (m.entities.destroyed ++ [d0.clear])).Nodup
      rw [List.map_append, List.nodup_append]
      refine ⟨hS3, by simp, ?_⟩
      intro a ha hb
      obtain ⟨dz, hdz, hdza⟩ := List.mem_map.mp ha
      have hae : a = d0.owner := by simpa using hb
      obtain ⟨_, _, _, _, k5, _, _⟩ := hS2 dz hdz
      have hdze : dz.owner = e := by
        rw [hdza, hae, ho0]
      rw [hdze, hgd] at k5
      exact Option.noConfusion k5
    · intro x dx hdx
      have hdx2 : (m.entities.sparse.set e none).getD x none = some dx := hdx
      have hxe : x ≠ e := by
        intro hxe2
        rw [hxe2, getD_set_self _ _ _ _ hlt] at hdx2
        exact Option.noConfusion hdx2
      rw [getD_set_ne _ _ _ _ _ (fun h2 => hxe h2.symm)] at hdx2
      obtain ⟨hw2, ht2, hb2⟩ := hL x dx hdx2
      refine ⟨hw2, ht2, fun cid => ?_⟩
      show dx.archetype.has cid = (poolAt (m.components.remove_all e) cid).has x
      rw [hpA cid,
        (remove_total_facts (poolAt m.components cid) e (poolAt_WFp hP cid)).2.1
          x hxe]
      exact hb2 cid
    · intro x hx cid
      by_cases hxe : x = e
      · show (poolAt (m.components.remove_all e) cid).has x = false
        rw [hpA cid, hxe]
        exact (remove_total_facts (poolAt m.components cid) e
          (poolAt_WFp hP cid)).1
      · have hx2 : (m.entities.sparse.set e none).getD x none = none := hx
        rw [getD_set_ne _ _ _ _ _ (fun h2 => hxe h2.symm)] at hx2
        show (poolAt (m.components.remove_all e) cid).has x = false
        rw [hpA cid,
          (remove_total_facts (poolAt m.components cid) e
            (poolAt_WFp hP cid)).2.1 x hxe]
        exact hD x hx2 cid

theorem InvM_step (m : Manager) (op : MOp) (h : InvM m) :
    InvM (applyMOp m op) := by
  cases op with
  | spawnE => exact InvM_spawn m h
  | addC t owner component => exact InvM_addC m t owner component h
  | removeC t owner => exact InvM_removeC m t owner h
  | destroyE entity => exact InvM_destroyE m entity h

theorem InvM_runMOps (ops : List MOp) : InvM (runMOps ops) := by
  unfold runMOps applyMOps
  have hgen : ∀ (l : List MOp) (m : Manager), InvM m →
      InvM (l.foldl applyMOp m) := by
    intro l
    induction l with
    | nil => intro m hm; exact hm
    | cons a l ih =>
      intro m hm
      rw [List.foldl_cons]
      exact ih _ (InvM_step m a hm)
  exact hgen ops Manager.new InvM_new

/-- C1: after any sequence of Manager operations (spawn_entity,
    add_component, remove_component, destroy_entity) starting from a fresh
    Manager, a live entity's archetype has the bit of a pool id set exactly
    when that pool holds the entity, dead entities are in no pool, and
    has_component answers true exactly when the type is registered, the
    entity is alive, and the type's pool holds the entity. -/
theorem C1_archetype_pool_invariant (ops : List MOp) :
    (∀ e d, (runMOps ops).entities.sparse.getD e none = some d →
      ∀ cid, d.archetype.has cid
        = (poolAt (runMOps ops).components cid).has e) ∧
    (∀ e, (runMOps ops).entities.sparse.getD e none = none →
      ∀ cid, (poolAt (runMOps ops).components cid).has e = false) ∧
    (∀ t e, (runMOps ops).has_component t e = true ↔
      ∃ cid d, (runMOps ops).components.id t = some cid ∧
        (runMOps ops).entities.sparse.getD e none = some d ∧
        (poolAt (runMOps ops).components cid).has e = true) := by
  obtain ⟨_, _, _, hL, hD⟩ := InvM_runMOps ops
  refine ⟨fun e d hd cid => (hL e d hd).2.2 cid, fun e hd cid => hD e hd cid, ?_⟩
  intro t e
  unfold Manager.has_component Manager.entity_archetype
  cases hget : (runMOps ops).entities.get e with
  | none =>
    constructor
    · intro hfalse
      exact Bool.noConfusion hfalse
    · rintro ⟨cid, d, _, hd, _⟩
      have hget2 : (runMOps ops).entities.sparse.getD e none = none := hget
      rw [hget2] at hd
      exact Option.noConfusion hd
  | some d =>
    cases hid : (runMOps ops).components.id t with
    | none =>
      constructor
      · intro hfalse
        exact Bool.noConfusion hfalse
      · rintro ⟨cid, d2, hid2, _, _⟩
        exact Option.noConfusion hid2
    | some cid =>
      have hget2 : (runMOps ops).entities.sparse.getD e none = some d := hget
      constructor
      · intro hhh
        have hhh2 : d.archetype.has cid = true := hhh
        refine ⟨cid, d, rfl, hget2, ?_⟩
        rw [← (hL e d hget2).2.2 cid]
        exact hhh2
      · rintro ⟨cid2, d2, hid2, hd2, hp2⟩
        have hc : cid = cid2 := Option.some.inj hid2
        show d.archetype.has cid = true
        rw [(hL e d hget2).2.2 cid, hc]
        exact hp2
